import Mathlib

/-!
# TCPPool: a shallow embedding of `pool.go`

The pool of `pool.go` is embedded as explicit state passing.

* A `Pool` value is the Go struct: the six exported configuration fields and
  the four private fields that the methods read and write (`mutex` is not a
  field of the model: every method below is the critical section it runs
  under `pool.mutex`, executed atomically).
* The buffered channel `connsChannel` is a value of `Option Chan`: `none` is
  the nil channel, `some ch` carries the capacity, the queued entries (oldest
  first) and whether `close` was called on it.
* Effects on the outside world (dialing, closing a handle, launching a
  populator goroutine, sleeping) are appended to a trace of `Event`s.
* A Go panic is the `Except.error` result, with the `Fault` that names it.
  `GetLeaves` gives the pool struct and the trace that a call of Get leaves
  behind, also when it panics.
* `int` and `int64` values are `Int`; the one product that can wrap on the
  values it is given, `time.Duration(IdleSec) * time.Second`, is reduced
  modulo `2^64` (`wrap64`).  `MaxConn<<1` is `2 * MaxConn`: a shift that wraps
  needs `MaxConn >= 2^62`, a channel of more than `2^63` slots, which `make`
  cannot allocate on any platform; allocation limits are outside the model.
* A `time.Time` is an instant in nanoseconds (`Int`); `t.Add(d).Before(u)` is
  `t + d < u`.  Each method takes the reading of `time.Now()` as an argument.
-/

namespace TCPPool

/-- Handle of an open connection: a non-nil `net.Conn` value.  The flag `tcp`
says whether its dynamic type is `*net.TCPConn`. -/
structure NetConn where
  id : Nat
  tcp : Bool
deriving DecidableEq, Repr

/-- Non-nil `error` values: the package-level `errorIsReleased`, or an error
made outside the package. -/
inductive Error where
  | isReleased
  | external (code : Nat)
deriving DecidableEq, Repr

/-- The package variable `errorIsReleased` (pool.go:38). -/
def errorIsReleased : Error := Error.isReleased

/-- What one call of a `Dial` function returns: `(net.Conn, error)`, either of
which may be nil. -/
structure DialOut where
  conn : Option NetConn
  err : Option Error
deriving DecidableEq, Repr

/-- The struct `idleConn` (pool.go:10-13): the embedded `net.Conn` and the
time of insertion. -/
structure idleConn where
  Conn : NetConn
  createdTime : Int
deriving DecidableEq, Repr

/-- Effects a method has outside the pool struct, in the order they happen. -/
inductive Event where
  | dial (out : DialOut)
  | keepAlive (c : NetConn)
  | close (c : NetConn)
  | spawn
  | sleep
deriving DecidableEq, Repr

/-- The trace of effects so far. -/
abbrev World := List Event

/-- Go run-time panics that the methods can raise. -/
inductive Fault where
  | nilDereference
  | closeOfNilChannel
  | closeOfClosedChannel
  | sendOnClosedChannel
  | nilFuncCall
deriving DecidableEq, Repr

/-- A `func() (net.Conn, error)`: the result of a call is a function of how
many dial calls the world has seen before it. -/
abbrev Dialer := Nat → DialOut

/-- A non-nil value of the interface type `net.Conn` as it reaches a check
function: a connection itself, or the pool's `*idleConn`, which has the
methods of `net.Conn` through its embedded field and whose dynamic type is
`*idleConn` whatever connection it wraps. -/
inductive ConnValue where
  | conn (c : NetConn)
  | wrapper (iConn : idleConn)
deriving DecidableEq, Repr

/-- A `func(net.Conn) error`: nil (`none`) means the value passed the check. -/
abbrev Checker := ConnValue → Option Error

/-- A non-nil `chan *idleConn`. -/
structure Chan where
  cap : Nat
  buf : List idleConn
  closed : Bool
deriving DecidableEq, Repr

/-- The struct `Pool` (pool.go:16-35). -/
structure Pool where
  MaxConn : Int
  MinConn : Int
  DialSpeed : Int
  IdleSec : Int
  Dial : Option Dialer
  Check : Option Checker
  isRelease : Bool
  idleTime : Int
  openingConns : Int
  connsChannel : Option Chan

/-- A composite literal `Pool{MaxConn: .., MinConn: .., ..}` as in
`pool_test.go`: the private fields have their zero values. -/
def Pool.literal (maxConn minConn dialSpeed idleSec : Int) (dialer : Option Dialer)
    (check : Option Checker) : Pool :=
  { MaxConn := maxConn, MinConn := minConn, DialSpeed := dialSpeed, IdleSec := idleSec,
    Dial := dialer, Check := check,
    isRelease := false, idleTime := 0, openingConns := 0, connsChannel := none }

/-- Two-complement reduction of an integer to the range of `int64`. -/
def wrap64 (x : Int) : Int :=
  (x + 9223372036854775808) % 18446744073709551616 - 9223372036854775808

/-- Nanoseconds in `time.Second`. -/
def second : Int := 1000000000

/-- Number of dial calls recorded in a trace. -/
def dialCount : World → Nat
  | [] => 0
  | Event.dial _ :: w => dialCount w + 1
  | _ :: w => dialCount w

/-- Handles closed in a trace, in order. -/
def closedConns : World → List NetConn
  | [] => []
  | Event.close c :: w => c :: closedConns w
  | _ :: w => closedConns w

/-- Number of populator goroutines launched in a trace. -/
def spawnCount : World → Nat
  | [] => 0
  | Event.spawn :: w => spawnCount w + 1
  | _ :: w => spawnCount w

/-- Number of one-second sleeps in a trace. -/
def sleepCount : World → Nat
  | [] => 0
  | Event.sleep :: w => sleepCount w + 1
  | _ :: w => sleepCount w

/-- Start (pool.go:42-49). -/
def Start (pool : Pool) (w : World) : Pool × World :=
  let pool := { pool with isRelease := false }
  if pool.MaxConn > 0 then
    ({ pool with
        connsChannel := some { cap := (pool.MaxConn * 2).toNat, buf := [], closed := false },
        idleTime := wrap64 (pool.IdleSec * second) },
      w ++ [Event.spawn])
  else
    (pool, w)

/-- The drain loop of Restart (pool.go:54-62) and Release (pool.go:188-196) on
a non-nil channel: every queued entry is received, closed and counted down;
then an open channel makes the select take `default`, while a closed one
yields a nil `*idleConn`, and `iConn.Conn` panics. -/
def drainLoop (closed : Bool) : List idleConn → Int → World → Except Fault (Int × World)
  | [], openingConns, w =>
    if closed then Except.error Fault.nilDereference else Except.ok (openingConns, w)
  | iConn :: rest, openingConns, w =>
    drainLoop closed rest (openingConns - 1) (w ++ [Event.close iConn.Conn])

/-- The drain loop on the pool: a nil channel is never ready, so `default` is
taken at once. -/
def drain (pool : Pool) (w : World) : Except Fault (Pool × World) :=
  match pool.connsChannel with
  | none => Except.ok (pool, w)
  | some ch =>
    match drainLoop ch.closed ch.buf pool.openingConns w with
    | Except.error f => Except.error f
    | Except.ok (n, w1) =>
      Except.ok ({ pool with openingConns := n, connsChannel := some { ch with buf := [] } }, w1)

/-- Restart (pool.go:52-74). -/
def Restart (pool : Pool) (newPool : Option Pool) (w : World) : Except Fault (Pool × World) :=
  match drain pool w with
  | Except.error f => Except.error f
  | Except.ok (pool1, w1) =>
    let pool2 :=
      match newPool with
      | some np =>
        { pool1 with
            MaxConn := np.MaxConn, MinConn := np.MinConn, DialSpeed := np.DialSpeed,
            IdleSec := np.IdleSec, Dial := np.Dial, Check := np.Check }
      | none => pool1
    Except.ok (Start pool2 w1)

/-- The method dial (pool.go:203-215). -/
def dial (dialer : Option Dialer) (w : World) : Except Fault (DialOut × World) :=
  match dialer with
  | none => Except.error Fault.nilFuncCall
  | some f =>
    let out := f (dialCount w)
    let w1 := w ++ [Event.dial out]
    match out.err with
    | some e => Except.ok ({ conn := none, err := some e }, w1)
    | none =>
      match out.conn with
      | some c =>
        if c.tcp then Except.ok ({ conn := some c, err := none }, w1 ++ [Event.keepAlive c])
        else Except.ok ({ conn := some c, err := none }, w1)
      | none => Except.ok ({ conn := none, err := none }, w1)

/-- What Get returns, `(conn, err)`, together with the idle entry that was
handed out when the handle came from the buffer (`none` for a dialed
handle or an error). -/
structure GetReturn where
  conn : Option NetConn
  err : Option Error
  pooled : Option idleConn
deriving DecidableEq, Repr

/-- Lines 131-137 of Get: the count is decremented after a receive, and at or
below `MinConn` it is clamped at zero and a populator is launched. -/
def afterReceive (pool : Pool) (w : World) : Pool × World :=
  let n := pool.openingConns - 1
  if n ≤ pool.MinConn then
    ({ pool with openingConns := if n < 0 then 0 else n }, w ++ [Event.spawn])
  else
    ({ pool with openingConns := n }, w)

/-- The test of line 138: the entry is older than `idleTime`. -/
def isStale (pool : Pool) (now : Int) (iConn : idleConn) : Bool :=
  decide (pool.idleTime > 0) && decide (iConn.createdTime + pool.idleTime < now)

/-- The test of line 142, `pool.Check != nil && pool.Check(iConn) != nil`: a
check function is set and reports an error for the value it is given, which
is the `*idleConn` entry itself, not the connection inside it. -/
def isUnhealthy (pool : Pool) (iConn : idleConn) : Bool :=
  match pool.Check with
  | none => false
  | some check => (check (ConnValue.wrapper iConn)).isSome

/-- The label READ_CONN_CHANNEL of Get (pool.go:128-152) on a non-nil channel
`ch` whose queue is the list argument. -/
def readConnChannel (now : Int) (ch : Chan) :
    List idleConn → Pool → World → Except Fault (GetReturn × Pool × World)
  | [], pool, w =>
    if ch.closed then
      Except.error Fault.nilDereference
    else
      match dial pool.Dial w with
      | Except.error f => Except.error f
      | Except.ok (out, w1) =>
        Except.ok ({ conn := out.conn, err := out.err, pooled := none },
          { pool with connsChannel := some { ch with buf := [] } }, w1)
  | iConn :: rest, pool, w =>
    let (pool1, w1) := afterReceive pool w
    if isStale pool1 now iConn then
      readConnChannel now ch rest pool1 (w1 ++ [Event.close iConn.Conn])
    else if isUnhealthy pool1 iConn then
      readConnChannel now ch rest pool1 (w1 ++ [Event.close iConn.Conn])
    else
      Except.ok ({ conn := some iConn.Conn, err := none, pooled := some iConn },
        { pool1 with connsChannel := some { ch with buf := rest } }, w1)

/-- Get (pool.go:120-155). -/
def Get (pool : Pool) (now : Int) (w : World) : Except Fault (GetReturn × Pool × World) :=
  if pool.isRelease then
    Except.ok ({ conn := none, err := some errorIsReleased, pooled := none }, pool, w)
  else
    match pool.connsChannel with
    | none =>
      match dial pool.Dial w with
      | Except.error f => Except.error f
      | Except.ok (out, w1) =>
        Except.ok ({ conn := out.conn, err := out.err, pooled := none }, pool, w1)
    | some ch => readConnChannel now ch ch.buf pool w

/-- Put (pool.go:158-179); `now` is the reading of `time.Now()`. -/
def Put (pool : Pool) (conn : Option NetConn) (now : Int) : Except Fault (Bool × Pool) :=
  match conn with
  | none => Except.ok (false, pool)
  | some c =>
    if pool.isRelease then
      Except.ok (false, pool)
    else
      match pool.connsChannel with
      | none => Except.ok (false, pool)
      | some ch =>
        if ch.closed then
          Except.error Fault.sendOnClosedChannel
        else if ch.buf.length < ch.cap then
          Except.ok (true,
            { pool with
                connsChannel := some { ch with buf := ch.buf ++ [{ Conn := c, createdTime := now }] },
                openingConns := pool.openingConns + 1 })
        else
          Except.ok (false, pool)

/-- Release (pool.go:182-201). -/
def Release (pool : Pool) (w : World) : Except Fault (Pool × World) :=
  if pool.isRelease then
    Except.ok (pool, w)
  else
    match drain pool w with
    | Except.error f => Except.error f
    | Except.ok (pool1, w1) =>
      match pool1.connsChannel with
      | none => Except.error Fault.closeOfNilChannel
      | some ch =>
        if ch.closed then
          Except.error Fault.closeOfClosedChannel
        else
          Except.ok ({ pool1 with connsChannel := some { ch with closed := true },
                                  isRelease := true }, w1)

/-- How a populator loop ended: by its loop condition, or by the `return`
after a refused Put. -/
inductive Exit where
  | filled
  | refused
deriving DecidableEq, Repr

/-- One pass of `conn, _ = pool.dial(dialer); if !pool.Put(conn) { return }`
(pool.go:100-103 and 110-113). -/
def dialAndPut (dialer : Option Dialer) (now : Int) (pool : Pool) (w : World) :
    Except Fault (Bool × Pool × World) :=
  match dial dialer w with
  | Except.error f => Except.error f
  | Except.ok (out, w1) =>
    match Put pool out.conn now with
    | Except.error f => Except.error f
    | Except.ok (ok, pool1) => Except.ok (ok, pool1, w1)

/-- The loop of pool.go:109-115, run with no other goroutine in between.  The
first argument is `maxConn - openingConns` of the local snapshot, which the
loop counts down by one per accepted handle; `k` counts the Puts made so far
and `clock k` is the time of the next one. -/
def fillUnpaced (dialer : Option Dialer) (clock : Nat → Int) :
    Nat → Nat → Pool → World → Except Fault (Exit × Pool × World)
  | 0, _, pool, w => Except.ok (Exit.filled, pool, w)
  | deficit + 1, k, pool, w =>
    match dialAndPut dialer (clock k) pool w with
    | Except.error f => Except.error f
    | Except.ok (false, pool1, w1) => Except.ok (Exit.refused, pool1, w1)
    | Except.ok (true, pool1, w1) => fillUnpaced dialer clock deficit (k + 1) pool1 w1

/-- The inner loop of pool.go:99-105: `dialCount` passes, stopped early by a
refused Put.  Returns the number of Puts made so far as well. -/
def fillBatch (dialer : Option Dialer) (clock : Nat → Int) :
    Nat → Nat → Pool → World → Except Fault (Exit × Nat × Pool × World)
  | 0, k, pool, w => Except.ok (Exit.filled, k, pool, w)
  | dialCount + 1, k, pool, w =>
    match dialAndPut dialer (clock k) pool w with
    | Except.error f => Except.error f
    | Except.ok (false, pool1, w1) => Except.ok (Exit.refused, k, pool1, w1)
    | Except.ok (true, pool1, w1) => fillBatch dialer clock dialCount (k + 1) pool1 w1

/-- The outer loop of pool.go:94-107 for `dialSpeed > 0`.  `deficit` is
`maxConn - openingConns` of the local snapshot.  The first argument bounds the
number of batches; every batch lowers the deficit by at least one, so
`deficit` batches are always enough (`fillPaced_fuel`). -/
def fillPaced (dialer : Option Dialer) (clock : Nat → Int) (dialSpeed : Nat) :
    Nat → Nat → Nat → Pool → World → Except Fault (Exit × Pool × World)
  | 0, _, _, pool, w => Except.ok (Exit.filled, pool, w)
  | fuel + 1, deficit, k, pool, w =>
    if 0 < deficit then
      let dialCount := if dialSpeed > deficit then deficit else dialSpeed
      match fillBatch dialer clock dialCount k pool w with
      | Except.error f => Except.error f
      | Except.ok (Exit.refused, _, pool1, w1) => Except.ok (Exit.refused, pool1, w1)
      | Except.ok (Exit.filled, k1, pool1, w1) =>
        fillPaced dialer clock dialSpeed fuel (deficit - dialCount) k1 pool1 (w1 ++ [Event.sleep])
    else
      Except.ok (Exit.filled, pool, w)

/-- GenerateConnections (pool.go:77-117), run to its end with no other
goroutine in between.  `clock k` is the reading of `time.Now()` in the k-th
Put of the run. -/
def GenerateConnections (pool : Pool) (clock : Nat → Int) (w : World) :
    Except Fault (Pool × World) :=
  if pool.isRelease then
    Except.ok (pool, w)
  else
    let dialSpeed := pool.DialSpeed
    let openingConns := pool.openingConns
    let maxConn := pool.MaxConn
    let dialer := pool.Dial
    let deficit := (maxConn - openingConns).toNat
    if dialSpeed > 0 then
      match fillPaced dialer clock dialSpeed.toNat deficit deficit 0 pool w with
      | Except.error f => Except.error f
      | Except.ok (_, pool1, w1) => Except.ok (pool1, w1)
    else
      match fillUnpaced dialer clock deficit 0 pool w with
      | Except.error f => Except.error f
      | Except.ok (_, pool1, w1) => Except.ok (pool1, w1)

/-- A call of one of the four methods that run under the lock. -/
inductive Op where
  | get (now : Int)
  | put (conn : Option NetConn) (now : Int)
  | restart (newPool : Option Pool)
  | release

/-- What a call returned. -/
inductive Ret where
  | got (r : GetReturn)
  | accepted (ok : Bool)
  | done
deriving DecidableEq, Repr

/-- One call, as the atomic section it is. -/
def step (pool : Pool) (w : World) : Op → Except Fault (Ret × Pool × World)
  | Op.get now =>
    match Get pool now w with
    | Except.error f => Except.error f
    | Except.ok (r, pool1, w1) => Except.ok (Ret.got r, pool1, w1)
  | Op.put conn now =>
    match Put pool conn now with
    | Except.error f => Except.error f
    | Except.ok (ok, pool1) => Except.ok (Ret.accepted ok, pool1, w)
  | Op.restart newPool =>
    match Restart pool newPool w with
    | Except.error f => Except.error f
    | Except.ok (pool1, w1) => Except.ok (Ret.done, pool1, w1)
  | Op.release =>
    match Release pool w with
    | Except.error f => Except.error f
    | Except.ok (pool1, w1) => Except.ok (Ret.done, pool1, w1)

/-- A sequence of calls, one after the other; the results are listed in
order. -/
def run : Pool → World → List Op → Except Fault (List Ret × Pool × World)
  | pool, w, [] => Except.ok ([], pool, w)
  | pool, w, op :: ops =>
    match step pool w op with
    | Except.error f => Except.error f
    | Except.ok (r, pool1, w1) =>
      match run pool1 w1 ops with
      | Except.error f => Except.error f
      | Except.ok (rs, pool2, w2) => Except.ok (r :: rs, pool2, w2)

/-- The queued entries of the pool (none for a nil channel). -/
def Pool.idle (pool : Pool) : List idleConn :=
  match pool.connsChannel with
  | none => []
  | some ch => ch.buf

/-- The pool is active on an open channel: not released, and `connsChannel`
was made and not closed. -/
def Pool.activeOpen (pool : Pool) : Prop :=
  pool.isRelease = false ∧ ∃ ch, pool.connsChannel = some ch ∧ ch.closed = false

/-! ## Vocabulary of the statements -/

/-- The Put calls of a list of handles, each with the time of the call. -/
def putOps (hs : List (NetConn × Int)) : List Op :=
  hs.map fun x => Op.put (some x.1) x.2

/-- The idle entries made by accepted Put calls. -/
def entriesOf (hs : List (NetConn × Int)) : List idleConn :=
  hs.map fun x => { Conn := x.1, createdTime := x.2 }

/-- Results of Get calls that hand out the given idle entries. -/
def gotOf (es : List idleConn) : List Ret :=
  es.map fun e => Ret.got { conn := some e.Conn, err := none, pooled := some e }

/-- Get or Put, the two calls of a pool user. -/
def Op.isGetPut : Op → Bool
  | Op.get _ => true
  | Op.put _ _ => true
  | _ => false

/-- What Get and Put answer on a released pool. -/
def releasedRet : Op → Ret
  | Op.get _ => Ret.got { conn := none, err := some errorIsReleased, pooled := none }
  | Op.put _ _ => Ret.accepted false
  | _ => Ret.done

/-- The fields that only Start and Restart write are the same in both pools. -/
def Pool.sameConfig (p q : Pool) : Prop :=
  p.MaxConn = q.MaxConn ∧ p.MinConn = q.MinConn ∧ p.DialSpeed = q.DialSpeed ∧
  p.IdleSec = q.IdleSec ∧ p.Dial = q.Dial ∧ p.Check = q.Check ∧
  p.isRelease = q.isRelease ∧ p.idleTime = q.idleTime

/-- The close events of a list of idle entries, oldest first. -/
def closeEvents (es : List idleConn) : World :=
  es.map fun e => Event.close e.Conn

/-- What the method dial returns for what the dial function returned: an
error hides the handle. -/
def dialReturn (out : DialOut) : DialOut :=
  match out.err with
  | some e => { conn := none, err := some e }
  | none => { conn := out.conn, err := none }

/-- The entry fails one of the two tests of Get (pool.go:138 and 142). -/
def Pool.bad (pool : Pool) (now : Int) (iConn : idleConn) : Bool :=
  isStale pool now iConn || isUnhealthy pool iConn

/-- The handles of a list of idle entries. -/
def connsOf (es : List idleConn) : List NetConn :=
  es.map fun e => e.Conn

/-- The pool is active: not released, and its channel is nil or open. -/
def Pool.active (pool : Pool) : Prop :=
  pool.isRelease = false ∧ ∀ ch, pool.connsChannel = some ch → ch.closed = false

/-- The pool after the drain loop has emptied an open or nil channel. -/
def Pool.drained (pool : Pool) : Pool :=
  { pool with
      openingConns := pool.openingConns - pool.idle.length,
      connsChannel := pool.connsChannel.map fun ch => { ch with buf := [] } }

/-- Lines 64-71 of Restart: the six exported fields are overwritten when a
new pool is given. -/
def Pool.overwrite (pool : Pool) : Option Pool → Pool
  | some np =>
    { pool with
        MaxConn := np.MaxConn, MinConn := np.MinConn, DialSpeed := np.DialSpeed,
        IdleSec := np.IdleSec, Dial := np.Dial, Check := np.Check }
  | none => pool

/-- A dial function that always gives the handle 7 and no error. -/
def testDial : Dialer := fun _ => { conn := some { id := 7, tcp := false }, err := none }

/-- A check function that accepts a value only when its dynamic type is
`*net.TCPConn`. -/
def tcpOnlyCheck : Checker
  | ConnValue.conn c => if c.tcp then none else some (Error.external 3)
  | ConnValue.wrapper _ => some (Error.external 3)

/-- The values of `pool` in TestPool_Restart, started, with one idle entry. -/
def testPool : Pool :=
  { MaxConn := 10, MinConn := 2, DialSpeed := 0, IdleSec := 57, Dial := some testDial,
    Check := none, isRelease := false, idleTime := 57000000000, openingConns := 1,
    connsChannel := some { cap := 20, buf := [{ Conn := { id := 1, tcp := false },
                                                 createdTime := 0 }], closed := false } }

/-- The values of `newPool` in TestPool_Restart. -/
def testNewPool : Pool :=
  Pool.literal 5 1 2 60 (some testDial) none

/-- The dial function gives a handle and no error at every call. -/
def neverFails (f : Dialer) : Prop :=
  ∀ n, ∃ c, f n = { conn := some c, err := none }

/-- The idle entries that `d` passes of dial-and-Put make when every dial
gives a handle: the pass number `i` dials with `n + i` earlier dial calls in
the trace and stamps the entry with `clock (k + i)`. -/
def dialedEntries (f : Dialer) (clock : Nat → Int) : Nat → Nat → Nat → List idleConn
  | 0, _, _ => []
  | d + 1, n, k =>
    match (f n).conn with
    | some c => { Conn := c, createdTime := clock k } :: dialedEntries f clock d (n + 1) (k + 1)
    | none => []

/-- Number of batches of at most `r` that cover `d`. -/
def batches (r d : Nat) : Nat :=
  (d + r - 1) / r

/-- The pool of TestPool_Base (`MaxConn = 10, MinConn = 2, IdleSec = 57`,
`DialSpeed` unset) right after Start, with a dial function that never
fails. -/
def testStarted : Pool :=
  (Start (Pool.literal 10 2 0 57 (some testDial) none) []).1

/-! ## Ownership of handles -/

/-- The pool and the trace together with the handles that callers hold: a
handle a Get returned and that no accepted Put has given back since. -/
structure Sys where
  pool : Pool
  world : World
  held : List NetConn

/-- Where the pool has put the handles it has seen: closed, queued, or with a
caller. -/
def Sys.places (s : Sys) : List NetConn :=
  closedConns s.world ++ connsOf s.pool.idle ++ s.held

/-- The handles with callers after a call: a handle that Get returns goes to
the caller, a handle that Put accepts leaves the caller. -/
def hold (held : List NetConn) : Op → Ret → List NetConn
  | Op.get _, Ret.got r =>
    match r.conn with
    | some c => c :: held
    | none => held
  | Op.put (some c) _, Ret.accepted true => held.erase c
  | _, _ => held

/-- One call on the pool, with the handles of the callers kept up to date. -/
def Sys.step (s : Sys) (op : Op) : Except Fault Sys :=
  match TCPPool.step s.pool s.world op with
  | Except.error f => Except.error f
  | Except.ok (r, pool1, w1) => Except.ok { pool := pool1, world := w1, held := hold s.held op r }

/-- A sequence of calls, one after the other. -/
def Sys.run : Sys → List Op → Except Fault Sys
  | s, [] => Except.ok s
  | s, op :: ops =>
    match s.step op with
    | Except.error f => Except.error f
    | Except.ok s1 => s1.run ops

/-- The call respects ownership.  A handle given to Put is with its caller:
the pool neither queues it nor has closed it.  A handle that the dial function
gives to Get is new: it is in none of the three places. -/
def Sys.permits (s : Sys) : Op → Bool
  | Op.put (some c) _ =>
    decide (c ∉ closedConns s.world) && decide (c ∉ connsOf s.pool.idle)
  | Op.get now =>
    match Get s.pool now s.world with
    | Except.ok (r, _, _) =>
      match r.pooled, r.conn with
      | none, some c => decide (c ∉ s.places)
      | _, _ => true
    | Except.error _ => true
  | _ => true

/-- Every call of the sequence respects ownership in the state it is made
in. -/
def Sys.permitsAll : Sys → List Op → Bool
  | _, [] => true
  | s, op :: ops =>
    s.permits op &&
      match s.step op with
      | Except.error _ => true
      | Except.ok s1 => s1.permitsAll ops

/-- A pool literal right after Start, with an empty trace and no handle
given out. -/
def Sys.started (maxConn minConn dialSpeed idleSec : Int) (dialer : Option Dialer)
    (check : Option Checker) : Sys :=
  { pool := (Start (Pool.literal maxConn minConn dialSpeed idleSec dialer check) []).1,
    world := (Start (Pool.literal maxConn minConn dialSpeed idleSec dialer check) []).2,
    held := [] }

/-- The shape Start gives the pool and every call keeps: an unreleased pool
has a nil or open channel, and while `MaxConn > 0` the channel is the one made
with capacity `MaxConn<<1`. -/
def Pool.wellFormed (pool : Pool) : Prop :=
  (pool.isRelease = false → ∀ ch, pool.connsChannel = some ch → ch.closed = false) ∧
  (0 < pool.MaxConn → ∃ ch, pool.connsChannel = some ch ∧ ch.cap = (pool.MaxConn * 2).toNat)

/-- A call of one of the five exported methods that change the pool. -/
inductive Call where
  | start
  | op (o : Op)

/-- One call; Start has no result and cannot fault. -/
def stepCall (pool : Pool) (w : World) : Call → Except Fault (Pool × World)
  | Call.start => Except.ok (Start pool w)
  | Call.op o =>
    match step pool w o with
    | Except.error f => Except.error f
    | Except.ok (_, pool1, w1) => Except.ok (pool1, w1)

/-- A sequence of calls, one after the other. -/
def runCalls : Pool → World → List Call → Except Fault (Pool × World)
  | pool, w, [] => Except.ok (pool, w)
  | pool, w, c :: cs =>
    match stepCall pool w c with
    | Except.error f => Except.error f
    | Except.ok (pool1, w1) => runCalls pool1 w1 cs

/-- The count covers the queue: `openingConns` is at least the number of
queued entries. -/
def Pool.counted (pool : Pool) : Prop :=
  (pool.idle.length : Int) ≤ pool.openingConns

/-- Number of populators that `n` receives launch, by the words of the
specification: each receive lowers the count by one, and launches one exactly
when the lowered count is at or below `minConn`. -/
def spawnsFor (minConn : Int) : Int → Nat → Nat
  | _, 0 => 0
  | count, n + 1 => (if count - 1 ≤ minConn then 1 else 0) + spawnsFor minConn (count - 1) n

/-- A sequence of calls that starts the pool twice, restarts and releases
it. -/
def testCalls : List Call :=
  [Call.start, Call.op (Op.put (some ⟨1, false⟩) 0), Call.op (Op.get 1), Call.op (Op.get 2),
    Call.op (Op.put (some ⟨1, false⟩) 3), Call.start, Call.op (Op.restart none),
    Call.op Op.release]

/-- The calls of the witness for the count: two Puts, two Gets (the second on
the empty queue), a Put, a Restart and a Release. -/
def testOps : List Op :=
  [Op.put (some ⟨1, false⟩) 0, Op.put (some ⟨2, false⟩) 0, Op.get 1, Op.get 2, Op.get 3,
    Op.put (some ⟨1, false⟩) 4, Op.restart (some testNewPool), Op.put (some ⟨2, false⟩) 5,
    Op.release]

/-- The dial function gives a handle and no error at each of the `j` calls
that follow `n` earlier ones. -/
def succeedsFor (f : Dialer) (n j : Nat) : Prop :=
  ∀ i, i < j → ∃ c, f (n + i) = { conn := some c, err := none }

/-- The call of the dial function after `n` earlier ones gives the method dial
no handle: it returns an error, or a nil handle. -/
def failsAt (f : Dialer) (n : Nat) : Prop :=
  (dialReturn (f n)).conn = none

/-- A dial function that returns an error at every call. -/
def testFailingDial : Dialer := fun _ => { conn := none, err := some (Error.external 1) }

/-- A dial function that gives a handle at its first two calls and an error
from then on. -/
def testDialTwice : Dialer := fun n =>
  if n < 2 then { conn := some { id := 10 + n, tcp := false }, err := none }
  else { conn := none, err := some (Error.external 1) }

/-- The sizes of the batches of a paced run, by the words of the
specification: while the deficit `d` is positive, one more batch of
`min r d` dials.  The first argument bounds the number of batches; `d` is
always enough. -/
def batchSizes (r : Nat) : Nat → Nat → List Nat
  | 0, _ => []
  | fuel + 1, d => if 0 < d then min r d :: batchSizes r fuel (d - min r d) else []

/-- The number of dial events in each stretch of a trace that a sleep ends,
in order, and last the number of dial events after the last sleep.  The first
argument counts the dials of the stretch so far. -/
def dialsBetweenSleeps : Nat → World → List Nat
  | acc, [] => [acc]
  | acc, Event.sleep :: w => acc :: dialsBetweenSleeps 0 w
  | acc, Event.dial _ :: w => dialsBetweenSleeps (acc + 1) w
  | acc, _ :: w => dialsBetweenSleeps acc w

/-- The pool struct and the trace as the code under READ_CONN_CHANNEL leaves
them when control leaves Get, by a return or by a panic.  Where Get returns,
these are the pool and the trace of `readConnChannel`.  On a closed channel
with nothing queued the receive yields a nil entry at once, lines 131-137 run
on it, and the panic comes only where the nil entry is first dereferenced
(line 138, 143 or 147). -/
def readConnChannelLeaves (now : Int) (ch : Chan) :
    List idleConn → Pool → World → Pool × World
  | [], pool, w =>
    if ch.closed then
      let (pool1, w1) := afterReceive pool w
      ({ pool1 with connsChannel := some { ch with buf := [] } }, w1)
    else
      match dial pool.Dial w with
      | Except.error _ => ({ pool with connsChannel := some { ch with buf := [] } }, w)
      | Except.ok (_, w1) => ({ pool with connsChannel := some { ch with buf := [] } }, w1)
  | iConn :: rest, pool, w =>
    let (pool1, w1) := afterReceive pool w
    if isStale pool1 now iConn then
      readConnChannelLeaves now ch rest pool1 (w1 ++ [Event.close iConn.Conn])
    else if isUnhealthy pool1 iConn then
      readConnChannelLeaves now ch rest pool1 (w1 ++ [Event.close iConn.Conn])
    else
      ({ pool1 with connsChannel := some { ch with buf := rest } }, w1)

/-- The pool struct and the trace as a call of Get (pool.go:120-155) leaves
them, whether it returns or panics. -/
def GetLeaves (pool : Pool) (now : Int) (w : World) : Pool × World :=
  if pool.isRelease then
    (pool, w)
  else
    match pool.connsChannel with
    | none =>
      match dial pool.Dial w with
      | Except.error _ => (pool, w)
      | Except.ok (_, w1) => (pool, w1)
    | some ch => readConnChannelLeaves now ch ch.buf pool w

/-- The calls that bring a pool back from Release with its closed channel
still in place: Start, a Restart to `MaxConn = 0` and `MinConn = -5`, Release,
Start. -/
def revivingCalls : List Call :=
  [Call.start, Call.op (Op.restart (some (Pool.literal 0 (-5) 0 0 (some testDial) none))),
    Call.op Op.release, Call.start]

/-! # Theorems

## Traces and sequences of calls -/

theorem run_append (ops1 ops2 : List Op) : ∀ (pool : Pool) (w : World),
    run pool w (ops1 ++ ops2) =
      match run pool w ops1 with
      | Except.error f => Except.error f
      | Except.ok (rs1, pool1, w1) =>
        match run pool1 w1 ops2 with
        | Except.error f => Except.error f
        | Except.ok (rs2, pool2, w2) => Except.ok (rs1 ++ rs2, pool2, w2) := by
  induction ops1 with
  | nil =>
    intro pool w
    simp only [List.nil_append, run]
    cases run pool w ops2 with
    | error f => rfl
    | ok r => rfl
  | cons op ops ih =>
    intro pool w
    simp only [List.cons_append, run]
    cases step pool w op with
    | error f => rfl
    | ok r =>
      obtain ⟨r1, pool1, w1⟩ := r
      simp only [List.append_eq, ih]
      cases run pool1 w1 ops with
      | error f => rfl
      | ok r2 =>
        obtain ⟨rs, pool2, w2⟩ := r2
        simp only []
        cases run pool2 w2 ops2 with
        | error f => rfl
        | ok r3 => rfl

theorem run_puts_accepted (hs : List (NetConn × Int)) : ∀ (pool : Pool) (w : World) (ch : Chan),
    pool.isRelease = false → pool.connsChannel = some ch → ch.closed = false →
    ch.buf.length + hs.length ≤ ch.cap →
    run pool w (putOps hs) = Except.ok (List.replicate hs.length (Ret.accepted true),
      { pool with connsChannel := some { ch with buf := ch.buf ++ entriesOf hs },
                  openingConns := pool.openingConns + hs.length }, w) := by
  induction hs with
  | nil =>
    intro pool w ch _ hch _ _
    simp [putOps, entriesOf, run, ← hch]
  | cons x xs ih =>
    intro pool w ch hrel hch hopen hlen
    obtain ⟨mc, mn, ds, sec, dl, ck, rel, it, oc, cc⟩ := pool
    obtain ⟨cap, buf, closed⟩ := ch
    simp only at hrel hch hopen hlen
    subst hrel hch hopen
    simp only [List.length_cons] at hlen
    have hlt : buf.length < cap := by omega
    have := ih ⟨mc, mn, ds, sec, dl, ck, false, it, oc + 1,
        some ⟨cap, buf ++ [⟨x.1, x.2⟩], false⟩⟩ w ⟨cap, buf ++ [⟨x.1, x.2⟩], false⟩ rfl rfl rfl
      (by simp only [List.length_append, List.length_singleton]; omega)
    simp only [putOps] at this
    simp only [putOps, List.map_cons, run, step, Put, hlt, if_true,
      Bool.false_eq_true, if_false, this]
    simp [entriesOf, List.replicate_succ]
    omega


theorem dialCount_append (w1 w2 : World) :
    dialCount (w1 ++ w2) = dialCount w1 + dialCount w2 := by
  induction w1 with
  | nil => simp [dialCount]
  | cons e w ih => cases e <;> simp [dialCount, ih]; omega

theorem closedConns_append (w1 w2 : World) :
    closedConns (w1 ++ w2) = closedConns w1 ++ closedConns w2 := by
  induction w1 with
  | nil => simp [closedConns]
  | cons e w ih => cases e <;> simp [closedConns, ih]

theorem spawnCount_append (w1 w2 : World) :
    spawnCount (w1 ++ w2) = spawnCount w1 + spawnCount w2 := by
  induction w1 with
  | nil => simp [spawnCount]
  | cons e w ih => cases e <;> simp [spawnCount, ih]; omega

theorem sleepCount_append (w1 w2 : World) :
    sleepCount (w1 ++ w2) = sleepCount w1 + sleepCount w2 := by
  induction w1 with
  | nil => simp [sleepCount]
  | cons e w ih => cases e <;> simp [sleepCount, ih]; omega

theorem afterReceive_fields (pool : Pool) (w : World) :
    (afterReceive pool w).1.MaxConn = pool.MaxConn ∧
    (afterReceive pool w).1.MinConn = pool.MinConn ∧
    (afterReceive pool w).1.DialSpeed = pool.DialSpeed ∧
    (afterReceive pool w).1.IdleSec = pool.IdleSec ∧
    (afterReceive pool w).1.Dial = pool.Dial ∧
    (afterReceive pool w).1.Check = pool.Check ∧
    (afterReceive pool w).1.isRelease = pool.isRelease ∧
    (afterReceive pool w).1.idleTime = pool.idleTime ∧
    (afterReceive pool w).1.connsChannel = pool.connsChannel := by
  simp only [afterReceive]
  split <;> simp

theorem afterReceive_world (pool : Pool) (w : World) :
    dialCount (afterReceive pool w).2 = dialCount w ∧
    closedConns (afterReceive pool w).2 = closedConns w := by
  simp only [afterReceive]
  split <;> simp [dialCount_append, closedConns_append, dialCount, closedConns]

theorem isStale_afterReceive (pool : Pool) (w : World) (now : Int) (e : idleConn) :
    isStale (afterReceive pool w).1 now e = isStale pool now e := by
  simp only [isStale, (afterReceive_fields pool w).2.2.2.2.2.2.2.1]

theorem isUnhealthy_afterReceive (pool : Pool) (w : World) (e : idleConn) :
    isUnhealthy (afterReceive pool w).1 e = isUnhealthy pool e := by
  simp only [isUnhealthy, (afterReceive_fields pool w).2.2.2.2.2.1]

/-- Get on a queue whose oldest entry passes both tests hands that entry out. -/
theorem Get_head (pool : Pool) (now : Int) (w : World) (ch : Chan) (e : idleConn)
    (rest : List idleConn) (hrel : pool.isRelease = false) (hch : pool.connsChannel = some ch)
    (hbuf : ch.buf = e :: rest) (hstale : isStale pool now e = false)
    (hcheck : isUnhealthy pool e = false) :
    Get pool now w = Except.ok ({ conn := some e.Conn, err := none, pooled := some e },
      { (afterReceive pool w).1 with connsChannel := some { ch with buf := rest } },
      (afterReceive pool w).2) := by
  simp only [Get, hrel, hch, hbuf, readConnChannel, isStale_afterReceive, hstale,
    isUnhealthy_afterReceive, hcheck, Bool.false_eq_true, if_false]

theorem run_gets_pooled (es : List idleConn) : ∀ (gets : List Int) (pool : Pool) (w : World)
    (ch : Chan) (rest : List idleConn),
    gets.length = es.length → pool.isRelease = false → pool.idleTime ≤ 0 → pool.Check = none →
    pool.connsChannel = some ch → ch.buf = es ++ rest →
    ∃ pool1 w1, run pool w (gets.map Op.get) = Except.ok (gotOf es, pool1, w1) ∧
      pool1.connsChannel = some { ch with buf := rest } ∧
      dialCount w1 = dialCount w ∧ closedConns w1 = closedConns w := by
  induction es with
  | nil =>
    intro gets pool w ch rest hlen _ _ _ hch hbuf
    have : gets = [] := List.length_eq_zero.mp hlen
    subst this
    refine ⟨pool, w, rfl, ?_, rfl, rfl⟩
    simp only [List.nil_append] at hbuf
    rw [hch, ← hbuf]
  | cons e es ih =>
    intro gets pool w ch rest hlen hrel hidle hcheck hch hbuf
    cases gets with
    | nil => simp at hlen
    | cons now gets =>
      simp only [List.length_cons, add_left_inj] at hlen
      have hstale : isStale pool now e = false := by
        simp only [isStale, Bool.and_eq_false_imp, decide_eq_true_eq]
        intro h; omega
      have hunh : isUnhealthy pool e = false := by simp [isUnhealthy, hcheck]
      have hget := Get_head pool now w ch e (es ++ rest) hrel hch (by simpa using hbuf) hstale hunh
      have hf := afterReceive_fields pool w
      have hw := afterReceive_world pool w
      obtain ⟨pool1, w1, hrun, hch1, hd, hc⟩ :=
        ih gets { (afterReceive pool w).1 with connsChannel := some { ch with buf := es ++ rest } }
          (afterReceive pool w).2 { ch with buf := es ++ rest } rest hlen
          (by simp only [hf.2.2.2.2.2.2.1, hrel]) (by simp only [hf.2.2.2.2.2.2.2.1, hidle])
          (by simp only [hf.2.2.2.2.2.1, hcheck]) rfl rfl
      refine ⟨pool1, w1, ?_, hch1, by rw [hd, hw.1], by rw [hc, hw.2]⟩
      simp only [List.map_cons, run, step, hget, hrun, gotOf]


theorem run_puts_refused (hs : List (NetConn × Int)) (pool : Pool) (w : World) (ch : Chan)
    (hrel : pool.isRelease = false) (hch : pool.connsChannel = some ch)
    (hopen : ch.closed = false) (hfull : ch.cap ≤ ch.buf.length) :
    run pool w (putOps hs) =
      Except.ok (List.replicate hs.length (Ret.accepted false), pool, w) := by
  induction hs with
  | nil => rfl
  | cons x xs ih =>
    have hlt : ¬ ch.buf.length < ch.cap := by omega
    simp only [putOps] at ih
    simp only [putOps, List.map_cons, run, step, Put, hrel, hch, hopen, hlt, if_false,
      Bool.false_eq_true, ih, List.length_cons, List.replicate_succ]

theorem putOps_append (a b : List (NetConn × Int)) : putOps (a ++ b) = putOps a ++ putOps b := by
  simp [putOps]

/-- Puts on an active pool with an open channel: the first `cap - len` handles
are accepted and queued in order, the others are refused. -/
theorem run_puts (hs : List (NetConn × Int)) (pool : Pool) (w : World) (ch : Chan)
    (hrel : pool.isRelease = false) (hch : pool.connsChannel = some ch)
    (hopen : ch.closed = false) :
    run pool w (putOps hs) =
      Except.ok (List.replicate (min hs.length (ch.cap - ch.buf.length)) (Ret.accepted true) ++
          List.replicate (hs.length - (ch.cap - ch.buf.length)) (Ret.accepted false),
        { pool with
            connsChannel :=
              some { ch with buf := ch.buf ++ entriesOf (hs.take (ch.cap - ch.buf.length)) },
            openingConns := pool.openingConns + min hs.length (ch.cap - ch.buf.length) }, w) := by
  by_cases hfit : ch.buf.length + hs.length ≤ ch.cap
  · have h1 : min hs.length (ch.cap - ch.buf.length) = hs.length := by omega
    have h2 : hs.length - (ch.cap - ch.buf.length) = 0 := by omega
    have h3 : hs.take (ch.cap - ch.buf.length) = hs := List.take_of_length_le (by omega)
    rw [h1, h2, h3, run_puts_accepted hs pool w ch hrel hch hopen hfit]
    simp
  by_cases hfull : ch.cap ≤ ch.buf.length
  · have h0 : ch.cap - ch.buf.length = 0 := by omega
    rw [h0, run_puts_refused hs pool w ch hrel hch hopen hfull]
    obtain ⟨mc, mn, ds, sec, dl, ck, rel, it, oc, cc⟩ := pool
    simp only at hch
    subst hch
    simp [entriesOf]
  · have hlen : (hs.take (ch.cap - ch.buf.length)).length = ch.cap - ch.buf.length := by
      rw [List.length_take]; omega
    have h1 : min hs.length (ch.cap - ch.buf.length) = ch.cap - ch.buf.length := by omega
    have hsplit : hs = hs.take (ch.cap - ch.buf.length) ++ hs.drop (ch.cap - ch.buf.length) :=
      (List.take_append_drop _ _).symm
    have hA := run_puts_accepted (hs.take (ch.cap - ch.buf.length)) pool w ch hrel hch hopen
      (by rw [hlen]; omega)
    have hB := run_puts_refused (hs.drop (ch.cap - ch.buf.length))
      { pool with
          connsChannel :=
            some { ch with buf := ch.buf ++ entriesOf (hs.take (ch.cap - ch.buf.length)) },
          openingConns := pool.openingConns + (hs.take (ch.cap - ch.buf.length)).length } w
      { ch with buf := ch.buf ++ entriesOf (hs.take (ch.cap - ch.buf.length)) }
      hrel rfl hopen
      (by
        show ch.cap ≤ (ch.buf ++ entriesOf (hs.take (ch.cap - ch.buf.length))).length
        simp only [List.length_append, entriesOf, List.length_map, hlen]; omega)
    rw [hlen] at hA hB
    conv_lhs => rw [hsplit, putOps_append, run_append, hA]
    simp only [hB, h1, List.length_drop]


theorem entriesOf_take_append (hs : List (NetConn × Int)) (n m : Nat) (h : n ≤ m) :
    entriesOf (hs.take m) = entriesOf (hs.take n) ++ entriesOf ((hs.take m).drop n) := by
  have : hs.take n = (hs.take m).take n := by
    rw [List.take_take, min_eq_left h]
  rw [this, entriesOf, entriesOf, entriesOf, ← List.map_append, List.take_append_drop]

/-- C1 (counterexample): the pool literal with `MaxConn = 0` is started, a
non-nil handle is given to Put and Get is called at once.  Put answers false
and Get returns the handle of a fresh dial, not the handle that was put. -/
theorem put_then_get_without_buffer_dials :
    ∃ pool1 w1,
      run (Start (Pool.literal 0 0 0 0 (some fun _ => ⟨some ⟨7, false⟩, none⟩) none) []).1
          (Start (Pool.literal 0 0 0 0 (some fun _ => ⟨some ⟨7, false⟩, none⟩) none) []).2
          [Op.put (some ⟨1, false⟩) 0, Op.get 0] =
        Except.ok ([Ret.accepted false, Ret.got ⟨some ⟨7, false⟩, none, none⟩], pool1, w1) ∧
      dialCount w1 = 1 :=
  ⟨_, _, rfl, rfl⟩

/-- C1 (amended): on a pool literal with `MaxConn > 0`, `IdleSec = 0` and no
`Check`, just started, the handles `hs` are put in order and then Get is
called `gets.length` times, at most once per pooled handle.  The first
`2 * MaxConn` handles are accepted and the others refused; the Gets return the
handles in the order they were put, oldest first, each with a nil error; no
dial is made and no handle is closed. -/
theorem put_then_get_is_fifo (maxConn minConn dialSpeed : Int) (dialer : Option Dialer)
    (w : World) (hs : List (NetConn × Int)) (gets : List Int) (hmax : 0 < maxConn)
    (hgets : gets.length ≤ hs.length) (hcap : (gets.length : Int) ≤ 2 * maxConn) :
    ∃ pool1 w1,
      run (Start (Pool.literal maxConn minConn dialSpeed 0 dialer none) w).1
          (Start (Pool.literal maxConn minConn dialSpeed 0 dialer none) w).2
          (putOps hs ++ gets.map Op.get) =
        Except.ok
          (List.replicate (min hs.length (2 * maxConn).toNat) (Ret.accepted true) ++
            List.replicate (hs.length - (2 * maxConn).toNat) (Ret.accepted false) ++
            gotOf (entriesOf (hs.take gets.length)), pool1, w1) ∧
      dialCount w1 = dialCount w ∧ closedConns w1 = closedConns w := by
  have hstart : Start (Pool.literal maxConn minConn dialSpeed 0 dialer none) w =
      (⟨maxConn, minConn, dialSpeed, 0, dialer, none, false, 0, 0,
        some ⟨(maxConn * 2).toNat, [], false⟩⟩, w ++ [Event.spawn]) := by
    simp only [Start, Pool.literal, gt_iff_lt, hmax, if_true, zero_mul]
    rfl
  rw [hstart, run_append]
  simp only []
  rw [run_puts hs _ (w ++ [Event.spawn]) ⟨(maxConn * 2).toNat, [], false⟩ rfl rfl rfl]
  simp only [List.length_nil, Nat.sub_zero, List.nil_append]
  have hle : gets.length ≤ (maxConn * 2).toNat := by omega
  obtain ⟨pool1, w1, hrun, -, hd, hc⟩ :=
    run_gets_pooled (entriesOf (hs.take gets.length)) gets
      ⟨maxConn, minConn, dialSpeed, 0, dialer, none, false, 0,
        0 + ((min hs.length (maxConn * 2).toNat : Nat) : Int),
        some ⟨(maxConn * 2).toNat, entriesOf (hs.take (maxConn * 2).toNat), false⟩⟩
      (w ++ [Event.spawn])
      ⟨(maxConn * 2).toNat, entriesOf (hs.take (maxConn * 2).toNat), false⟩
      (entriesOf ((hs.take (maxConn * 2).toNat).drop gets.length))
      (by simp only [entriesOf, List.length_map, List.length_take]; omega)
      rfl (le_refl _) rfl rfl
      (entriesOf_take_append hs _ _ hle)
  refine ⟨pool1, w1, ?_, ?_, ?_⟩
  · rw [hrun]
    simp only [mul_comm 2 maxConn]
  · rw [hd, dialCount_append]; rfl
  · rw [hc, closedConns_append]; simp [closedConns]

/-- C1 (witness): two handles are put into a pool with `MaxConn = 1` and both
are taken out again. -/
theorem put_then_get_is_fifo_witness :
    (0 : Int) < 1 ∧ ∃ pool1 w1,
      run (Start (Pool.literal 1 0 0 0 none none) []).1
          (Start (Pool.literal 1 0 0 0 none none) []).2
          (putOps [(⟨1, false⟩, 5), (⟨2, true⟩, 6)] ++ [7, 8].map Op.get) =
        Except.ok
          (List.replicate (min 2 (2 * (1 : Int)).toNat) (Ret.accepted true) ++
            List.replicate (2 - (2 * (1 : Int)).toNat) (Ret.accepted false) ++
            gotOf (entriesOf ([((⟨1, false⟩ : NetConn), (5 : Int)), (⟨2, true⟩, 6)].take 2)),
            pool1, w1) ∧
      dialCount w1 = dialCount [] ∧ closedConns w1 = closedConns [] :=
  ⟨by decide, put_then_get_is_fifo 1 0 0 none [] [(⟨1, false⟩, 5), (⟨2, true⟩, 6)] [7, 8]
    (by decide) (by decide) (by decide)⟩

/-! ## What Get and Put leave unchanged -/

theorem Start_activeOpen (pool : Pool) (w : World) (h : 0 < pool.MaxConn) :
    (Start pool w).1.activeOpen := by
  simp [Start, h, Pool.activeOpen]

theorem Pool.sameConfig_refl (p : Pool) : p.sameConfig p :=
  ⟨rfl, rfl, rfl, rfl, rfl, rfl, rfl, rfl⟩

theorem Pool.sameConfig_trans {p q r : Pool} (h1 : p.sameConfig q) (h2 : q.sameConfig r) :
    p.sameConfig r := by
  obtain ⟨a1, a2, a3, a4, a5, a6, a7, a8⟩ := h1
  obtain ⟨b1, b2, b3, b4, b5, b6, b7, b8⟩ := h2
  exact ⟨a1.trans b1, a2.trans b2, a3.trans b3, a4.trans b4, a5.trans b5, a6.trans b6,
    a7.trans b7, a8.trans b8⟩

theorem afterReceive_sameConfig (pool : Pool) (w : World) :
    (afterReceive pool w).1.sameConfig pool := by
  have h := afterReceive_fields pool w
  exact ⟨h.1, h.2.1, h.2.2.1, h.2.2.2.1, h.2.2.2.2.1, h.2.2.2.2.2.1, h.2.2.2.2.2.2.1,
    h.2.2.2.2.2.2.2.1⟩

/-- Get leaves every field but the count and the queue as it was, and the
queue it leaves is a final segment of the one it found. -/
theorem readConnChannel_frame (now : Int) (ch : Chan) : ∀ (buf : List idleConn) (pool : Pool)
    (w : World) (r : GetReturn) (pool1 : Pool) (w1 : World),
    readConnChannel now ch buf pool w = Except.ok (r, pool1, w1) →
    pool1.sameConfig pool ∧
    ∃ pre rest, buf = pre ++ rest ∧ pool1.connsChannel = some { ch with buf := rest } := by
  intro buf
  induction buf with
  | nil =>
    intro pool w r pool1 w1 h
    simp only [readConnChannel] at h
    split at h
    · cases h
    · rename_i hopen
      split at h
      · cases h
      · simp only [Except.ok.injEq, Prod.mk.injEq] at h
        obtain ⟨-, hp, -⟩ := h
        subst hp
        exact ⟨Pool.sameConfig_refl _, [], [], rfl, rfl⟩
  | cons e rest ih =>
    intro pool w r pool1 w1 h
    simp only [readConnChannel] at h
    split at h
    · obtain ⟨hc, pre, rest1, hbuf, hch⟩ := ih _ _ _ _ _ h
      exact ⟨Pool.sameConfig_trans hc (afterReceive_sameConfig pool w), e :: pre, rest1,
        by rw [hbuf]; rfl, hch⟩
    · split at h
      · obtain ⟨hc, pre, rest1, hbuf, hch⟩ := ih _ _ _ _ _ h
        exact ⟨Pool.sameConfig_trans hc (afterReceive_sameConfig pool w), e :: pre, rest1,
          by rw [hbuf]; rfl, hch⟩
      · simp only [Except.ok.injEq, Prod.mk.injEq] at h
        obtain ⟨-, hp, -⟩ := h
        subst hp
        exact ⟨afterReceive_sameConfig pool w, [e], rest, rfl, rfl⟩

theorem Get_frame (pool : Pool) (now : Int) (w : World) (r : GetReturn) (pool1 : Pool)
    (w1 : World) (h : Get pool now w = Except.ok (r, pool1, w1)) :
    pool1.sameConfig pool ∧
    (pool.connsChannel = none → pool1.connsChannel = none) ∧
    ∀ ch, pool.connsChannel = some ch →
      ∃ pre rest, ch.buf = pre ++ rest ∧ pool1.connsChannel = some { ch with buf := rest } := by
  simp only [Get] at h
  split at h
  · simp only [Except.ok.injEq, Prod.mk.injEq] at h
    obtain ⟨-, hp, -⟩ := h
    subst hp
    refine ⟨Pool.sameConfig_refl _, fun h => h, fun ch hch => ⟨[], ch.buf, rfl, ?_⟩⟩
    rw [hch]
  · split at h
    · rename_i hnil
      split at h
      · cases h
      · simp only [Except.ok.injEq, Prod.mk.injEq] at h
        obtain ⟨-, hp, -⟩ := h
        subst hp
        exact ⟨Pool.sameConfig_refl _, fun h => h, fun ch hch => by rw [hnil] at hch; cases hch⟩
    · rename_i ch hch
      obtain ⟨hc, pre, rest, hbuf, hch1⟩ := readConnChannel_frame now ch ch.buf pool w r pool1 w1 h
      refine ⟨hc, fun hnil => (by rw [hnil] at hch; cases hch), fun ch2 hch2 => ?_⟩
      rw [hch] at hch2
      cases hch2
      exact ⟨pre, rest, hbuf, hch1⟩

theorem Put_frame (pool : Pool) (conn : Option NetConn) (now : Int) (ok : Bool) (pool1 : Pool)
    (h : Put pool conn now = Except.ok (ok, pool1)) :
    pool1.sameConfig pool ∧
    (pool.connsChannel = none → pool1.connsChannel = none) ∧
    ∀ ch, pool.connsChannel = some ch →
      ∃ added, pool1.connsChannel = some { ch with buf := ch.buf ++ added } := by
  simp only [Put] at h
  split at h
  · simp only [Except.ok.injEq, Prod.mk.injEq] at h
    obtain ⟨-, hp⟩ := h
    subst hp
    exact ⟨Pool.sameConfig_refl _, fun h => h, fun ch hch => ⟨[], by simp [hch]⟩⟩
  · split at h
    · simp only [Except.ok.injEq, Prod.mk.injEq] at h
      obtain ⟨-, hp⟩ := h
      subst hp
      exact ⟨Pool.sameConfig_refl _, fun h => h, fun ch hch => ⟨[], by simp [hch]⟩⟩
    · split at h
      · simp only [Except.ok.injEq, Prod.mk.injEq] at h
        obtain ⟨-, hp⟩ := h
        subst hp
        exact ⟨Pool.sameConfig_refl _, fun h => h, fun ch hch => ⟨[], by simp [hch]⟩⟩
      · rename_i ch hch
        split at h
        · cases h
        · split at h
          · simp only [Except.ok.injEq, Prod.mk.injEq] at h
            obtain ⟨-, hp⟩ := h
            subst hp
            refine ⟨Pool.sameConfig_refl _, fun hnil => (by rw [hnil] at hch; cases hch),
              fun ch2 hch2 => ?_⟩
            rw [hch] at hch2
            cases hch2
            exact ⟨_, rfl⟩
          · simp only [Except.ok.injEq, Prod.mk.injEq] at h
            obtain ⟨-, hp⟩ := h
            subst hp
            exact ⟨Pool.sameConfig_refl _, fun h => h, fun ch hch => ⟨[], by simp [hch]⟩⟩

/-- Get and Put keep an active pool with an open channel active and open. -/
theorem step_activeOpen (pool : Pool) (w : World) (op : Op) (r : Ret) (pool1 : Pool) (w1 : World)
    (hop : op.isGetPut = true) (hact : pool.activeOpen)
    (h : step pool w op = Except.ok (r, pool1, w1)) : pool1.activeOpen := by
  obtain ⟨hrel, ch, hch, hopen⟩ := hact
  cases op with
  | get now =>
    simp only [step] at h
    split at h
    · cases h
    · rename_i r0 p0 w0 hget
      simp only [Except.ok.injEq, Prod.mk.injEq] at h
      obtain ⟨-, hp, -⟩ := h
      subst hp
      obtain ⟨hc, -, hsome⟩ := Get_frame pool now w r0 p0 w0 hget
      obtain ⟨pre, rest, -, hch1⟩ := hsome ch hch
      exact ⟨hc.2.2.2.2.2.2.1.trans hrel, _, hch1, hopen⟩
  | put conn now =>
    simp only [step] at h
    split at h
    · cases h
    · rename_i ok p0 hput
      simp only [Except.ok.injEq, Prod.mk.injEq] at h
      obtain ⟨-, hp, -⟩ := h
      subst hp
      obtain ⟨hc, -, hsome⟩ := Put_frame pool conn now ok p0 hput
      obtain ⟨added, hch1⟩ := hsome ch hch
      exact ⟨hc.2.2.2.2.2.2.1.trans hrel, _, hch1, hopen⟩
  | restart np => simp [Op.isGetPut] at hop
  | release => simp [Op.isGetPut] at hop

theorem run_activeOpen (ops : List Op) : ∀ (pool : Pool) (w : World) (rs : List Ret)
    (pool1 : Pool) (w1 : World), (∀ op ∈ ops, op.isGetPut = true) → pool.activeOpen →
    run pool w ops = Except.ok (rs, pool1, w1) → pool1.activeOpen := by
  induction ops with
  | nil =>
    intro pool w rs pool1 w1 _ hact h
    simp only [run, Except.ok.injEq, Prod.mk.injEq] at h
    obtain ⟨-, hp, -⟩ := h
    subst hp
    exact hact
  | cons op ops ih =>
    intro pool w rs pool1 w1 hops hact h
    simp only [run] at h
    split at h
    · cases h
    · rename_i r0 p0 w0 hstep
      split at h
      · cases h
      · rename_i rs1 p2 w2 hrun
        simp only [Except.ok.injEq, Prod.mk.injEq] at h
        obtain ⟨-, hp, -⟩ := h
        subst hp
        exact ih p0 w0 rs1 p2 w2 (fun o ho => hops o (List.mem_cons_of_mem _ ho))
          (step_activeOpen pool w op r0 p0 w0 (hops op (List.mem_cons_self _ _)) hact hstep) hrun

/-! ## Release -/

theorem drainLoop_open (buf : List idleConn) : ∀ (n : Int) (w : World),
    drainLoop false buf n w = Except.ok (n - buf.length, w ++ closeEvents buf) := by
  induction buf with
  | nil => intro n w; simp [drainLoop, closeEvents]
  | cons e rest ih =>
    intro n w
    simp only [drainLoop, ih, closeEvents, List.map_cons, List.length_cons, List.append_assoc,
      List.singleton_append, Except.ok.injEq, Prod.mk.injEq, and_true]
    push_cast
    ring

theorem drain_open (pool : Pool) (w : World) (ch : Chan) (hch : pool.connsChannel = some ch)
    (hopen : ch.closed = false) :
    drain pool w = Except.ok
      ({ pool with openingConns := pool.openingConns - ch.buf.length,
                   connsChannel := some { ch with buf := [] } }, w ++ closeEvents ch.buf) := by
  simp only [drain, hch, hopen, drainLoop_open]

theorem Release_open (pool : Pool) (w : World) (ch : Chan) (hrel : pool.isRelease = false)
    (hch : pool.connsChannel = some ch) (hopen : ch.closed = false) :
    Release pool w = Except.ok
      ({ pool with openingConns := pool.openingConns - ch.buf.length,
                   connsChannel := some { cap := ch.cap, buf := [], closed := true },
                   isRelease := true }, w ++ closeEvents ch.buf) := by
  simp only [Release, hrel, drain_open pool w ch hch hopen, hopen, Bool.false_eq_true, if_false]

theorem run_released (ops : List Op) (pool : Pool) (w : World) (hrel : pool.isRelease = true)
    (hops : ∀ op ∈ ops, op.isGetPut = true) :
    run pool w ops = Except.ok (ops.map releasedRet, pool, w) := by
  induction ops with
  | nil => rfl
  | cons op ops ih =>
    have ih1 := ih (fun o ho => hops o (List.mem_cons_of_mem _ ho))
    have hop := hops op (List.mem_cons_self _ _)
    cases op with
    | get now => simp only [run, step, Get, hrel, if_true, ih1, List.map_cons, releasedRet]
    | put conn now =>
      cases conn with
      | none => simp only [run, step, Put, ih1, List.map_cons, releasedRet]
      | some c => simp only [run, step, Put, hrel, if_true, ih1, List.map_cons, releasedRet]
    | restart np => simp [Op.isGetPut] at hop
    | release => simp [Op.isGetPut] at hop

/-- C2: a pool is started with `MaxConn > 0`, used through any Get and Put
calls, and then released.  Release succeeds and sets the terminal flag; from
then on every Get returns `(nil, errorIsReleased)` and every Put returns
false, for any handles and any number of calls, and each call leaves the pool
struct and the trace of effects (so no dial, no close) exactly as they were. -/
theorem released_pool_rejects_get_and_put (pool0 : Pool) (w0 : World) (mid : List Op)
    (rs : List Ret) (pool1 : Pool) (w1 : World) (hmax : 0 < pool0.MaxConn)
    (hmid : ∀ op ∈ mid, op.isGetPut = true)
    (hrun : run (Start pool0 w0).1 (Start pool0 w0).2 mid = Except.ok (rs, pool1, w1)) :
    ∃ pool2 w2, Release pool1 w1 = Except.ok (pool2, w2) ∧ pool2.isRelease = true ∧
      ∀ ops : List Op, (∀ op ∈ ops, op.isGetPut = true) →
        run pool2 w2 ops = Except.ok (ops.map releasedRet, pool2, w2) := by
  have hact := run_activeOpen mid _ _ rs pool1 w1 hmid (Start_activeOpen pool0 w0 hmax) hrun
  obtain ⟨hrel, ch, hch, hopen⟩ := hact
  refine ⟨_, _, Release_open pool1 w1 ch hrel hch hopen, rfl, fun ops hops => ?_⟩
  exact run_released ops _ _ rfl hops

/-- C2 (witness): a pool with `MaxConn = 1` takes one handle and is released. -/
theorem released_pool_rejects_get_and_put_witness :
    ∃ pool2 w2,
      Release (⟨1, 0, 0, 0, none, none, false, 0, 1, some ⟨2, [⟨⟨1, false⟩, 5⟩], false⟩⟩ : Pool)
        [Event.spawn] = Except.ok (pool2, w2) ∧ pool2.isRelease = true ∧
      ∀ ops : List Op, (∀ op ∈ ops, op.isGetPut = true) →
        run pool2 w2 ops = Except.ok (ops.map releasedRet, pool2, w2) :=
  released_pool_rejects_get_and_put (Pool.literal 1 0 0 0 none none) []
    [Op.put (some ⟨1, false⟩) 5] [Ret.accepted true] _ _ (by decide) (by decide) rfl

/-! ## What Get does -/

theorem dial_some (f : Dialer) (w : World) :
    ∃ w1, dial (some f) w = Except.ok (dialReturn (f (dialCount w)), w1) ∧
      dialCount w1 = dialCount w + 1 ∧ closedConns w1 = closedConns w ∧
      spawnCount w1 = spawnCount w ∧ sleepCount w1 = sleepCount w := by
  simp only [dial, dialReturn]
  cases herr : (f (dialCount w)).err with
  | some e =>
    exact ⟨_, rfl, by simp [dialCount_append, dialCount], by simp [closedConns_append, closedConns],
      by simp [spawnCount_append, spawnCount], by simp [sleepCount_append, sleepCount]⟩
  | none =>
    cases hconn : (f (dialCount w)).conn with
    | none =>
      exact ⟨_, rfl, by simp [dialCount_append, dialCount],
        by simp [closedConns_append, closedConns],
        by simp [spawnCount_append, spawnCount], by simp [sleepCount_append, sleepCount]⟩
    | some c =>
      by_cases htcp : c.tcp = true
      · simp only [htcp, if_true]
        exact ⟨_, rfl, by simp [dialCount_append, dialCount],
          by simp [closedConns_append, closedConns],
          by simp [spawnCount_append, spawnCount], by simp [sleepCount_append, sleepCount]⟩
      · simp only [htcp, if_false]
        exact ⟨_, rfl, by simp [dialCount_append, dialCount],
          by simp [closedConns_append, closedConns],
          by simp [spawnCount_append, spawnCount], by simp [sleepCount_append, sleepCount]⟩

theorem dial_ok (d : Option Dialer) (w : World) (out : DialOut) (w1 : World)
    (h : dial d w = Except.ok (out, w1)) :
    ∃ f, d = some f ∧ out = dialReturn (f (dialCount w)) ∧
      dialCount w1 = dialCount w + 1 ∧ closedConns w1 = closedConns w := by
  cases d with
  | none => simp [dial] at h
  | some f =>
    obtain ⟨w2, h2, hd, hc, -, -⟩ := dial_some f w
    rw [h2] at h
    simp only [Except.ok.injEq, Prod.mk.injEq] at h
    obtain ⟨ho, hw⟩ := h
    subst ho hw
    exact ⟨f, rfl, rfl, hd, hc⟩

theorem bad_afterReceive (pool : Pool) (w : World) (now : Int) (e : idleConn) :
    (afterReceive pool w).1.bad now e = pool.bad now e := by
  simp only [Pool.bad, isStale_afterReceive, isUnhealthy_afterReceive]

/-- What a Get that returns has done on a non-nil channel: it received and
closed a run of entries that each failed a test, and then either handed out
the next entry, which passed both, or found the queue empty and dialed. -/
theorem readConnChannel_spec (now : Int) (ch : Chan) : ∀ (buf : List idleConn) (pool : Pool)
    (w : World) (r : GetReturn) (pool1 : Pool) (w1 : World),
    readConnChannel now ch buf pool w = Except.ok (r, pool1, w1) →
    ∃ pre rest, buf = pre ++ rest ∧ (∀ e ∈ pre, pool.bad now e = true) ∧
      closedConns w1 = closedConns w ++ connsOf pre ∧
      ((∃ e rest1, rest = e :: rest1 ∧ pool.bad now e = false ∧
          r = { conn := some e.Conn, err := none, pooled := some e } ∧
          pool1.connsChannel = some { ch with buf := rest1 } ∧ dialCount w1 = dialCount w) ∨
       (rest = [] ∧ ch.closed = false ∧ pool1.connsChannel = some { ch with buf := [] } ∧
          ∃ f, pool.Dial = some f ∧
            r = { conn := (dialReturn (f (dialCount w))).conn,
                  err := (dialReturn (f (dialCount w))).err, pooled := none } ∧
            dialCount w1 = dialCount w + 1)) := by
  intro buf
  induction buf with
  | nil =>
    intro pool w r pool1 w1 h
    simp only [readConnChannel] at h
    split at h
    · cases h
    · rename_i hopen
      split at h
      · cases h
      · rename_i out w2 hdial
        simp only [Except.ok.injEq, Prod.mk.injEq] at h
        obtain ⟨hr, hp, hw⟩ := h
        subst hr hp hw
        obtain ⟨f, hf, hout, hd, hc⟩ := dial_ok _ _ _ _ hdial
        refine ⟨[], [], rfl, by simp, by simp [hc, connsOf], Or.inr ⟨rfl, by simpa using hopen, rfl,
          f, hf, by rw [hout], hd⟩⟩
  | cons e rest ih =>
    intro pool w r pool1 w1 h
    have hw := afterReceive_world pool w
    have hcfg := afterReceive_sameConfig pool w
    simp only [readConnChannel] at h
    have hloop : ∀ (hbad : pool.bad now e = true),
        readConnChannel now ch rest (afterReceive pool w).1
          ((afterReceive pool w).2 ++ [Event.close e.Conn]) = Except.ok (r, pool1, w1) →
        ∃ pre rest0, e :: rest = pre ++ rest0 ∧ (∀ x ∈ pre, pool.bad now x = true) ∧
          closedConns w1 = closedConns w ++ connsOf pre ∧
          ((∃ x rest1, rest0 = x :: rest1 ∧ pool.bad now x = false ∧
              r = { conn := some x.Conn, err := none, pooled := some x } ∧
              pool1.connsChannel = some { ch with buf := rest1 } ∧ dialCount w1 = dialCount w) ∨
           (rest0 = [] ∧ ch.closed = false ∧ pool1.connsChannel = some { ch with buf := [] } ∧
              ∃ f, pool.Dial = some f ∧
                r = { conn := (dialReturn (f (dialCount w))).conn,
                      err := (dialReturn (f (dialCount w))).err, pooled := none } ∧
                dialCount w1 = dialCount w + 1)) := by
      intro hbad h2
      obtain ⟨pre, rest0, hbuf, hpre, hcl, hcase⟩ := ih _ _ _ _ _ h2
      have hdc : dialCount ((afterReceive pool w).2 ++ [Event.close e.Conn]) = dialCount w := by
        simp [dialCount_append, dialCount, hw.1]
      refine ⟨e :: pre, rest0, by rw [hbuf]; rfl, ?_, ?_, ?_⟩
      · intro x hx
        rcases List.mem_cons.mp hx with hx | hx
        · rw [hx]; exact hbad
        · rw [← bad_afterReceive pool w]; exact hpre x hx
      · rw [hcl]
        simp [closedConns_append, closedConns, hw.2, connsOf]
      · rcases hcase with ⟨x, rest1, h1, h2, h3, h4, h5⟩ | ⟨h1, h2, h3, f, h4, h5, h6⟩
        · exact Or.inl ⟨x, rest1, h1, by rw [← bad_afterReceive pool w]; exact h2, h3, h4,
            by rw [h5, hdc]⟩
        · refine Or.inr ⟨h1, h2, h3, f, by rw [← h4]; exact hcfg.2.2.2.2.1.symm, ?_, ?_⟩
          · rw [h5, hdc]
          · rw [h6, hdc]
    split at h
    · rename_i hst
      rw [isStale_afterReceive] at hst
      exact hloop (by simp [Pool.bad, hst]) h
    · rename_i hst
      rw [isStale_afterReceive] at hst
      split at h
      · rename_i hun
        rw [isUnhealthy_afterReceive] at hun
        exact hloop (by simp [Pool.bad, hun]) h
      · rename_i hun
        rw [isUnhealthy_afterReceive] at hun
        simp only [Except.ok.injEq, Prod.mk.injEq] at h
        obtain ⟨hr, hp, hw1⟩ := h
        subst hr hp hw1
        refine ⟨[], e :: rest, rfl, by simp, by simp [connsOf, hw.2], Or.inl ⟨e, rest, rfl, ?_, rfl,
          rfl, hw.1⟩⟩
        simp only [Pool.bad, Bool.or_eq_false_iff]
        exact ⟨by simpa using hst, by simpa using hun⟩

/-- What a Get that returns has done on an unreleased pool. -/
theorem Get_spec (pool : Pool) (now : Int) (w : World) (r : GetReturn) (pool1 : Pool)
    (w1 : World) (hrel : pool.isRelease = false)
    (h : Get pool now w = Except.ok (r, pool1, w1)) :
    ∃ pre rest, pool.idle = pre ++ rest ∧ (∀ e ∈ pre, pool.bad now e = true) ∧
      closedConns w1 = closedConns w ++ connsOf pre ∧
      ((∃ e, rest = e :: pool1.idle ∧ pool.bad now e = false ∧
          r = { conn := some e.Conn, err := none, pooled := some e } ∧
          dialCount w1 = dialCount w) ∨
       (rest = [] ∧ pool1.idle = [] ∧
          ∃ f, pool.Dial = some f ∧
            r = { conn := (dialReturn (f (dialCount w))).conn,
                  err := (dialReturn (f (dialCount w))).err, pooled := none } ∧
            dialCount w1 = dialCount w + 1)) := by
  simp only [Get, hrel, Bool.false_eq_true, if_false] at h
  split at h
  · rename_i hnil
    split at h
    · cases h
    · rename_i out w2 hdial
      simp only [Except.ok.injEq, Prod.mk.injEq] at h
      obtain ⟨hr, hp, hw⟩ := h
      subst hr hp hw
      obtain ⟨f, hf, hout, hd, hc⟩ := dial_ok _ _ _ _ hdial
      refine ⟨[], [], by simp [Pool.idle, hnil], by simp, by simp [hc, connsOf],
        Or.inr ⟨rfl, by simp [Pool.idle, hnil], f, hf, by rw [hout], hd⟩⟩
  · rename_i ch hch
    obtain ⟨pre, rest, hbuf, hpre, hcl, hcase⟩ := readConnChannel_spec now ch ch.buf pool w r pool1 w1 h
    refine ⟨pre, rest, by simp [Pool.idle, hch, hbuf], hpre, hcl, ?_⟩
    rcases hcase with ⟨x, rest1, h1, h2, h3, h4, h5⟩ | ⟨h1, h2, h3, f, h4, h5, h6⟩
    · exact Or.inl ⟨x, by simp [Pool.idle, h4, h1], h2, h3, h5⟩
    · exact Or.inr ⟨h1, by simp [Pool.idle, h3], f, h4, h5, h6⟩

/-- Get returns on every active pool that has a dial function. -/
theorem readConnChannel_returns (now : Int) (ch : Chan) (hopen : ch.closed = false) :
    ∀ (buf : List idleConn) (pool : Pool) (w : World), pool.Dial.isSome = true →
    ∃ r pool1 w1, readConnChannel now ch buf pool w = Except.ok (r, pool1, w1) := by
  intro buf
  induction buf with
  | nil =>
    intro pool w hd
    obtain ⟨f, hf⟩ := Option.isSome_iff_exists.mp hd
    obtain ⟨w1, hdial, -⟩ := dial_some f w
    simp only [readConnChannel, hopen, hf, hdial, Bool.false_eq_true, if_false]
    exact ⟨_, _, _, rfl⟩
  | cons e rest ih =>
    intro pool w hd
    have hcfg := afterReceive_sameConfig pool w
    have hd1 : (afterReceive pool w).1.Dial.isSome = true := by rw [hcfg.2.2.2.2.1]; exact hd
    simp only [readConnChannel]
    split
    · exact ih _ _ hd1
    · split
      · exact ih _ _ hd1
      · exact ⟨_, _, _, rfl⟩

theorem Get_returns (pool : Pool) (now : Int) (w : World) (hact : pool.active)
    (hd : pool.Dial.isSome = true) :
    ∃ r pool1 w1, Get pool now w = Except.ok (r, pool1, w1) := by
  obtain ⟨hrel, hopen⟩ := hact
  simp only [Get, hrel, Bool.false_eq_true, if_false]
  split
  · obtain ⟨f, hf⟩ := Option.isSome_iff_exists.mp hd
    obtain ⟨w1, hdial, -⟩ := dial_some f w
    simp only [hf, hdial]
    exact ⟨_, _, _, rfl⟩
  · rename_i ch hch
    exact readConnChannel_returns now ch (hopen ch hch) ch.buf pool w hd

/-! ## Expiry of idle entries -/

theorem wrap64_of_range (x : Int) (h0 : 0 ≤ x) (h1 : x < 9223372036854775808) : wrap64 x = x := by
  unfold wrap64
  rw [Int.emod_eq_of_lt (by omega) (by omega)]
  omega

/-- Start with `MaxConn > 0` sets `idleTime` to `IdleSec` seconds when that
product fits an `int64`. -/
theorem Start_idleTime (pool : Pool) (w : World) (hmax : 0 < pool.MaxConn)
    (h0 : 0 ≤ pool.IdleSec) (h1 : pool.IdleSec * second < 9223372036854775808) :
    (Start pool w).1.idleTime = pool.IdleSec * second := by
  simp only [Start, gt_iff_lt, hmax, if_true]
  exact wrap64_of_range _ (by simp only [second]; omega) h1

/-- On a pool whose `idleTime` is `t` seconds, `t > 0`, Get hands out no idle
entry older than `t` seconds, and every entry it received before the one it
hands out was closed. -/
theorem Get_pooled_not_stale (pool : Pool) (now : Int) (w : World) (r : GetReturn)
    (pool1 : Pool) (w1 : World) (t : Int) (e : idleConn) (ht : 0 < t)
    (hrel : pool.isRelease = false) (hidle : pool.idleTime = t * second)
    (h : Get pool now w = Except.ok (r, pool1, w1)) (hr : r.pooled = some e) :
    ¬ (e.createdTime + t * second < now) ∧
    ∃ pre, pool.idle = pre ++ e :: pool1.idle ∧ closedConns w1 = closedConns w ++ connsOf pre := by
  obtain ⟨pre, rest, hbuf, -, hcl, hcase⟩ := Get_spec pool now w r pool1 w1 hrel h
  rcases hcase with ⟨x, h1, h2, h3, -⟩ | ⟨-, -, f, -, h3, -⟩
  · rw [h3] at hr
    simp only [Option.some.injEq] at hr
    subst hr
    refine ⟨?_, pre, by rw [hbuf, h1], hcl⟩
    simp only [Pool.bad, Bool.or_eq_false_iff, isStale, hidle, Bool.and_eq_false_imp,
      decide_eq_true_eq, decide_eq_false_iff_not] at h2
    have hpos : 0 < t * second := by simp only [second]; omega
    exact h2.1 hpos
  · rw [h3] at hr
    cases hr

/-- C3 (failing input): a pool started with `MaxConn = 1, IdleSec = 0` is
restarted with a new configuration `MaxConn = 0, IdleSec = 1`.  Start skips
its whole body for `MaxConn <= 0`, so the old channel and the old
`idleTime = 0` stay in place: a handle put at time 0 is accepted, and the Get
made five seconds later hands it out, although the configured `IdleSec` is one
second. -/
theorem restart_without_buffer_keeps_old_expiry :
    ∃ pool1 w1,
      run (Start (Pool.literal 1 0 0 0 (some fun _ => ⟨some ⟨7, false⟩, none⟩) none) []).1
          (Start (Pool.literal 1 0 0 0 (some fun _ => ⟨some ⟨7, false⟩, none⟩) none) []).2
          [Op.restart (some (Pool.literal 0 0 0 1 (some fun _ => ⟨some ⟨7, false⟩, none⟩) none)),
           Op.put (some ⟨1, false⟩) 0, Op.get 5000000000] =
        Except.ok ([Ret.done, Ret.accepted true,
          Ret.got ⟨some ⟨1, false⟩, none, some ⟨⟨1, false⟩, 0⟩⟩], pool1, w1) ∧
      pool1.IdleSec = 1 ∧ pool1.isRelease = false ∧ pool1.idleTime = 0 ∧
      (0 : Int) + pool1.IdleSec * second < 5000000000 :=
  ⟨_, _, rfl, rfl, rfl, rfl, by decide⟩

/-- C4: on an active pool with a dial function, when every one of the `k`
idle entries is stale or the check function reports an error for it (Get
hands the check function the `*idleConn` entry, pool.go:142), Get returns: it
has closed exactly those `k` handles, in order, left the queue empty, dialed
exactly once, and it returns what that dial returned; so it succeeds with the
dialed handle whenever the dial function gives a handle and no error. -/
theorem get_dials_when_all_idle_are_bad (pool : Pool) (now : Int) (w : World) (f : Dialer)
    (hact : pool.active) (hdial : pool.Dial = some f)
    (hbad : ∀ e ∈ pool.idle, pool.bad now e = true) :
    ∃ pool1 w1,
      Get pool now w = Except.ok
        ({ conn := (dialReturn (f (dialCount w))).conn,
           err := (dialReturn (f (dialCount w))).err, pooled := none }, pool1, w1) ∧
      pool1.idle = [] ∧ closedConns w1 = closedConns w ++ connsOf pool.idle ∧
      dialCount w1 = dialCount w + 1 ∧
      ∀ c, f (dialCount w) = { conn := some c, err := none } →
        (dialReturn (f (dialCount w))).conn = some c ∧ (dialReturn (f (dialCount w))).err = none := by
  obtain ⟨r, pool1, w1, hget⟩ := Get_returns pool now w hact (by simp [hdial])
  obtain ⟨pre, rest, hbuf, -, hcl, hcase⟩ := Get_spec pool now w r pool1 w1 hact.1 hget
  rcases hcase with ⟨x, h1, h2, -, -⟩ | ⟨h1, h2, g, h3, h4, h5⟩
  · have hx : x ∈ pool.idle := by rw [hbuf, h1]; simp
    rw [hbad x hx] at h2
    cases h2
  · rw [hdial] at h3
    simp only [Option.some.injEq] at h3
    subst h3
    subst h1
    rw [List.append_nil] at hbuf
    refine ⟨pool1, w1, by rw [hget, h4], h2, by rw [hcl, hbuf], h5, ?_⟩
    intro c hc
    simp [dialReturn, hc]

/-- C4 (witness): one stale entry and one fresh entry that wraps a
`*net.TCPConn`; the check function accepts `*net.TCPConn` values only, is
given the `*idleConn`, and so reports an error.  Both are closed, then a
dial. -/
theorem get_dials_when_all_idle_are_bad_witness :
    ∃ pool1 w1,
      Get (⟨1, 0, 0, 1, some fun _ => ⟨some ⟨7, false⟩, none⟩, some tcpOnlyCheck,
          false, 1000000000, 2, some ⟨2, [⟨⟨1, false⟩, 0⟩, ⟨⟨2, true⟩, 4000000000⟩], false⟩⟩ : Pool)
        4500000000 [] = Except.ok
        ({ conn := (dialReturn ((fun _ => ⟨some ⟨7, false⟩, none⟩ : Dialer) (dialCount []))).conn,
           err := (dialReturn ((fun _ => ⟨some ⟨7, false⟩, none⟩ : Dialer) (dialCount []))).err,
           pooled := none }, pool1, w1) ∧
      pool1.idle = [] ∧
      closedConns w1 = closedConns [] ++ connsOf [⟨⟨1, false⟩, 0⟩, ⟨⟨2, true⟩, 4000000000⟩] ∧
      dialCount w1 = dialCount [] + 1 ∧
      ∀ c, (fun _ => ⟨some ⟨7, false⟩, none⟩ : Dialer) (dialCount []) = { conn := some c, err := none } →
        (dialReturn ((fun _ => ⟨some ⟨7, false⟩, none⟩ : Dialer) (dialCount []))).conn = some c ∧
        (dialReturn ((fun _ => ⟨some ⟨7, false⟩, none⟩ : Dialer) (dialCount []))).err = none :=
  get_dials_when_all_idle_are_bad
    ⟨1, 0, 0, 1, some fun _ => ⟨some ⟨7, false⟩, none⟩, some tcpOnlyCheck,
      false, 1000000000, 2, some ⟨2, [⟨⟨1, false⟩, 0⟩, ⟨⟨2, true⟩, 4000000000⟩], false⟩⟩
    4500000000 [] (fun _ => ⟨some ⟨7, false⟩, none⟩)
    ⟨rfl, fun ch h => by cases h; rfl⟩ rfl (by decide)

/-! ## Put at capacity, and the pool at `MaxConn = 0` -/

/-- Put on an unreleased pool whose open channel is full answers false and
leaves the pool as it is. -/
theorem Put_full (pool : Pool) (c : NetConn) (now : Int) (ch : Chan)
    (hrel : pool.isRelease = false) (hch : pool.connsChannel = some ch)
    (hopen : ch.closed = false) (hfull : ch.cap ≤ ch.buf.length) :
    Put pool (some c) now = Except.ok (false, pool) := by
  have hlt : ¬ ch.buf.length < ch.cap := by omega
  simp only [Put, hrel, hch, hopen, hlt, Bool.false_eq_true, if_false]

/-- Put on an unreleased pool whose channel is nil answers false and leaves
the pool as it is. -/
theorem Put_nil_channel (pool : Pool) (conn : Option NetConn) (now : Int)
    (hch : pool.connsChannel = none) : Put pool conn now = Except.ok (false, pool) := by
  cases conn with
  | none => rfl
  | some c =>
    simp only [Put, hch]
    split <;> rfl

/-- C5 (failing input): a pool started with `MaxConn = 1` is restarted with a
new configuration `MaxConn = 0`.  The old channel of capacity 2 stays in
place, so the pool is active with `2 * MaxConn = 0` entries queued, and the
Put of a non-nil handle answers true, queues the handle and raises
`openingConns`. -/
theorem put_accepted_at_two_maxconn_after_restart :
    ∃ pool1 w1,
      Restart (Start (Pool.literal 1 0 0 0 (some fun _ => ⟨some ⟨7, false⟩, none⟩) none) []).1
          (some (Pool.literal 0 0 0 0 (some fun _ => ⟨some ⟨7, false⟩, none⟩) none))
          (Start (Pool.literal 1 0 0 0 (some fun _ => ⟨some ⟨7, false⟩, none⟩) none) []).2 =
        Except.ok (pool1, w1) ∧
      pool1.isRelease = false ∧ (pool1.idle.length : Int) = 2 * pool1.MaxConn ∧
      ∃ pool2, Put pool1 (some ⟨1, false⟩) 0 = Except.ok (true, pool2) ∧
        pool2.openingConns = pool1.openingConns + 1 ∧ pool2.idle = [⟨⟨1, false⟩, 0⟩] :=
  ⟨_, _, rfl, rfl, rfl, _, rfl, rfl, rfl⟩

/-- C6 (failing input): a pool started with `MaxConn = 1` is restarted with a
new configuration `MaxConn = 0`.  The old channel stays in place: the next Put
is accepted, and the Get that follows, on a pool whose `MaxConn` is 0, hands
out the handle that was put and makes no dial. -/
theorem get_returns_pooled_handle_at_maxconn_zero :
    ∃ pool1 w1 pool2 w2,
      run (Start (Pool.literal 1 0 0 0 (some fun _ => ⟨some ⟨7, false⟩, none⟩) none) []).1
          (Start (Pool.literal 1 0 0 0 (some fun _ => ⟨some ⟨7, false⟩, none⟩) none) []).2
          [Op.restart (some (Pool.literal 0 0 0 0 (some fun _ => ⟨some ⟨7, false⟩, none⟩) none)),
           Op.put (some ⟨1, false⟩) 0] =
        Except.ok ([Ret.done, Ret.accepted true], pool1, w1) ∧
      pool1.MaxConn = 0 ∧ pool1.isRelease = false ∧
      Get pool1 0 w1 =
        Except.ok (⟨some ⟨1, false⟩, none, some ⟨⟨1, false⟩, 0⟩⟩, pool2, w2) ∧
      dialCount w2 = 0 :=
  ⟨_, _, _, _, rfl, rfl, rfl, rfl, rfl⟩

/-- C10: on an active pool whose queue is empty (the channel is nil, or open
and empty) and whose dial function is `f`, Get calls `f` exactly once and
returns what the method dial makes of its result: the handle and a nil error
when `f` gives no error, and no handle with the very error of `f` otherwise.
The pool struct is returned unchanged, and no handle is closed. -/
theorem get_on_empty_buffer_dials_once (pool : Pool) (now : Int) (w : World) (f : Dialer)
    (hact : pool.active) (hidle : pool.idle = []) (hdial : pool.Dial = some f) :
    ∃ r w1, Get pool now w = Except.ok (r, pool, w1) ∧
      dialCount w1 = dialCount w + 1 ∧ closedConns w1 = closedConns w ∧ r.pooled = none ∧
      (∀ c, f (dialCount w) = { conn := c, err := none } → r.conn = c ∧ r.err = none) ∧
      (∀ c e, f (dialCount w) = { conn := c, err := some e } →
        r.conn = none ∧ r.err = some e) := by
  obtain ⟨hrel, hopen⟩ := hact
  obtain ⟨w1, hd, hdc, hcc, -, -⟩ := dial_some f w
  have hres : ∀ c, (f (dialCount w) = { conn := c, err := none } →
      (dialReturn (f (dialCount w))).conn = c ∧ (dialReturn (f (dialCount w))).err = none) ∧
      ∀ e, f (dialCount w) = { conn := c, err := some e } →
        (dialReturn (f (dialCount w))).conn = none ∧
        (dialReturn (f (dialCount w))).err = some e := by
    intro c
    constructor
    · intro h; simp [dialReturn, h]
    · intro e h; simp [dialReturn, h]
  refine ⟨{ conn := (dialReturn (f (dialCount w))).conn,
            err := (dialReturn (f (dialCount w))).err, pooled := none }, w1, ?_, hdc, hcc, rfl,
    fun c h => (hres c).1 h, fun c e h => (hres c).2 e h⟩
  obtain ⟨mc, mn, ds, sec, dl, ck, rel, it, oc, cc⟩ := pool
  simp only at hrel hopen hdial hd hdc hcc ⊢
  subst hrel hdial
  cases cc with
  | none => simp only [Get, hd, Bool.false_eq_true, if_false]
  | some ch =>
    obtain ⟨cap, buf, closed⟩ := ch
    have hbuf : buf = [] := by simpa [Pool.idle] using hidle
    have hcl : closed = false := hopen _ rfl
    subst hbuf hcl
    simp only [Get, readConnChannel, hd, Bool.false_eq_true, if_false]

/-- C10 (witness): an empty open channel and a dial function that fails. -/
theorem get_on_empty_buffer_dials_once_witness :
    ∃ r w1,
      Get (⟨1, 0, 0, 0, some fun _ => ⟨none, some (Error.external 9)⟩, none, false, 0, 0,
          some ⟨2, [], false⟩⟩ : Pool) 0 [] =
        Except.ok (r, (⟨1, 0, 0, 0, some fun _ => ⟨none, some (Error.external 9)⟩, none, false,
          0, 0, some ⟨2, [], false⟩⟩ : Pool), w1) ∧
      dialCount w1 = dialCount [] + 1 ∧ closedConns w1 = closedConns [] ∧ r.pooled = none ∧
      (∀ c, (fun _ => ⟨none, some (Error.external 9)⟩ : Dialer) (dialCount []) =
          { conn := c, err := none } → r.conn = c ∧ r.err = none) ∧
      (∀ c e, (fun _ => ⟨none, some (Error.external 9)⟩ : Dialer) (dialCount []) =
          { conn := c, err := some e } → r.conn = none ∧ r.err = some e) :=
  get_on_empty_buffer_dials_once
    ⟨1, 0, 0, 0, some fun _ => ⟨none, some (Error.external 9)⟩, none, false, 0, 0,
      some ⟨2, [], false⟩⟩ 0 [] (fun _ => ⟨none, some (Error.external 9)⟩)
    ⟨rfl, fun ch h => by cases h; rfl⟩ rfl rfl

/-! ## Restart -/

theorem closedConns_closeEvents (es : List idleConn) : closedConns (closeEvents es) = connsOf es := by
  induction es with
  | nil => rfl
  | cons e es ih => simp only [closeEvents, List.map_cons, closedConns, connsOf] at ih ⊢; rw [ih]

theorem dialCount_closeEvents (es : List idleConn) : dialCount (closeEvents es) = 0 := by
  induction es with
  | nil => rfl
  | cons e es ih => simp only [closeEvents, List.map_cons, dialCount] at ih ⊢; exact ih

theorem drain_active (pool : Pool) (w : World) (hact : pool.active) :
    drain pool w = Except.ok (pool.drained, w ++ closeEvents pool.idle) := by
  obtain ⟨mc, mn, ds, sec, dl, ck, rel, it, oc, cc⟩ := pool
  cases cc with
  | none => simp [drain, Pool.drained, Pool.idle, closeEvents]
  | some ch =>
    have hopen : ch.closed = false := hact.2 ch rfl
    simp [drain, Pool.drained, Pool.idle, hopen, drainLoop_open]

theorem Restart_active (pool : Pool) (newPool : Option Pool) (w : World) (hact : pool.active) :
    Restart pool newPool w =
      Except.ok (Start (pool.drained.overwrite newPool) (w ++ closeEvents pool.idle)) := by
  simp only [Restart, drain_active pool w hact]
  cases newPool <;> rfl

theorem drained_active (pool : Pool) (hact : pool.active) : pool.drained.active := by
  obtain ⟨hrel, hopen⟩ := hact
  refine ⟨hrel, fun ch hch => ?_⟩
  simp only [Pool.drained, Option.map_eq_some'] at hch
  obtain ⟨ch0, h0, h1⟩ := hch
  rw [← h1]
  exact hopen ch0 h0

theorem drained_idle (pool : Pool) : pool.drained.idle = [] := by
  simp only [Pool.drained, Pool.idle]
  cases pool.connsChannel <;> rfl

theorem overwrite_channel (pool : Pool) (newPool : Option Pool) :
    (pool.overwrite newPool).connsChannel = pool.connsChannel ∧
    (pool.overwrite newPool).isRelease = pool.isRelease ∧
    (pool.overwrite newPool).openingConns = pool.openingConns := by
  cases newPool <;> exact ⟨rfl, rfl, rfl⟩

/-- Start keeps the six exported fields, clears the terminal flag, and leaves
a queue that is empty whenever the queue before it was. -/
theorem Start_spec (pool : Pool) (w : World) :
    (Start pool w).1.MaxConn = pool.MaxConn ∧ (Start pool w).1.MinConn = pool.MinConn ∧
    (Start pool w).1.DialSpeed = pool.DialSpeed ∧ (Start pool w).1.IdleSec = pool.IdleSec ∧
    (Start pool w).1.Dial = pool.Dial ∧ (Start pool w).1.Check = pool.Check ∧
    (Start pool w).1.isRelease = false ∧
    (Start pool w).1.openingConns = pool.openingConns ∧
    closedConns (Start pool w).2 = closedConns w ∧ dialCount (Start pool w).2 = dialCount w ∧
    (pool.idle = [] → (Start pool w).1.idle = []) ∧
    ((∀ ch, pool.connsChannel = some ch → ch.closed = false) → (Start pool w).1.active) := by
  simp only [Start]
  split
  · refine ⟨rfl, rfl, rfl, rfl, rfl, rfl, rfl, rfl, ?_, ?_, fun _ => rfl, fun _ => ⟨rfl, ?_⟩⟩
    · simp [closedConns_append, closedConns]
    · simp [dialCount_append, dialCount]
    · intro ch hch
      simp only [Option.some.injEq] at hch
      rw [← hch]
  · exact ⟨rfl, rfl, rfl, rfl, rfl, rfl, rfl, rfl, rfl, rfl, fun h => h, fun h => ⟨rfl, h⟩⟩

/-- Get on an active pool with an empty queue is the method dial on the
pool's dial function. -/
theorem Get_empty (pool : Pool) (now : Int) (w : World) (hact : pool.active)
    (hidle : pool.idle = []) :
    Get pool now w =
      match dial pool.Dial w with
      | Except.error f => Except.error f
      | Except.ok (out, w1) =>
        Except.ok ({ conn := out.conn, err := out.err, pooled := none }, pool, w1) := by
  obtain ⟨hrel, hopen⟩ := hact
  obtain ⟨mc, mn, ds, sec, dl, ck, rel, it, oc, cc⟩ := pool
  simp only at hrel hopen ⊢
  subst hrel
  cases cc with
  | none => simp only [Get, Bool.false_eq_true, if_false]
  | some ch =>
    obtain ⟨cap, buf, closed⟩ := ch
    have hbuf : buf = [] := by simpa [Pool.idle] using hidle
    have hcl : closed = false := hopen _ rfl
    subst hbuf hcl
    simp only [Get, readConnChannel, Bool.false_eq_true, if_false]

/-- C8: on an active pool, Restart with a new configuration returns; the six
exported fields of the pool are then those of the new configuration, every
handle that was idle has been closed (and no other), the queue is empty, the
pool is active, not terminal, and any Get that follows is the method dial
applied to the new dial function.  Restart with nil does the same and leaves
the six exported fields as they were. -/
theorem restart_installs_configuration (pool : Pool) (np : Pool) (w : World)
    (hact : pool.active) :
    (∃ pool1 w1, Restart pool (some np) w = Except.ok (pool1, w1) ∧
      pool1.MaxConn = np.MaxConn ∧ pool1.MinConn = np.MinConn ∧
      pool1.DialSpeed = np.DialSpeed ∧ pool1.IdleSec = np.IdleSec ∧
      pool1.Dial = np.Dial ∧ pool1.Check = np.Check ∧
      closedConns w1 = closedConns w ++ connsOf pool.idle ∧ dialCount w1 = dialCount w ∧
      pool1.idle = [] ∧ pool1.isRelease = false ∧ pool1.active ∧
      ∀ now, Get pool1 now w1 =
        match dial np.Dial w1 with
        | Except.error f => Except.error f
        | Except.ok (out, w2) =>
          Except.ok ({ conn := out.conn, err := out.err, pooled := none }, pool1, w2)) ∧
    (∃ pool1 w1, Restart pool none w = Except.ok (pool1, w1) ∧
      pool1.MaxConn = pool.MaxConn ∧ pool1.MinConn = pool.MinConn ∧
      pool1.DialSpeed = pool.DialSpeed ∧ pool1.IdleSec = pool.IdleSec ∧
      pool1.Dial = pool.Dial ∧ pool1.Check = pool.Check ∧
      closedConns w1 = closedConns w ++ connsOf pool.idle ∧ dialCount w1 = dialCount w ∧
      pool1.idle = [] ∧ pool1.isRelease = false ∧ pool1.active) := by
  have key : ∀ newPool : Option Pool,
      let q := pool.drained.overwrite newPool
      (Start q (w ++ closeEvents pool.idle)).1.idle = [] ∧
      (Start q (w ++ closeEvents pool.idle)).1.active ∧
      closedConns (Start q (w ++ closeEvents pool.idle)).2 = closedConns w ++ connsOf pool.idle ∧
      dialCount (Start q (w ++ closeEvents pool.idle)).2 = dialCount w := by
    intro newPool q
    have hs := Start_spec q (w ++ closeEvents pool.idle)
    have ho := overwrite_channel pool.drained newPool
    have hqidle : q.idle = [] := by
      have := drained_idle pool
      simp only [Pool.idle, q, ho.1] at this ⊢
      exact this
    have hqopen : ∀ ch, q.connsChannel = some ch → ch.closed = false := by
      intro ch hch
      simp only [q, ho.1] at hch
      exact (drained_active pool hact).2 ch hch
    refine ⟨hs.2.2.2.2.2.2.2.2.2.2.1 hqidle, hs.2.2.2.2.2.2.2.2.2.2.2 hqopen, ?_, ?_⟩
    · rw [hs.2.2.2.2.2.2.2.2.1, closedConns_append, closedConns_closeEvents]
    · rw [hs.2.2.2.2.2.2.2.2.2.1, dialCount_append, dialCount_closeEvents, Nat.add_zero]
  constructor
  · have hs := Start_spec (pool.drained.overwrite (some np)) (w ++ closeEvents pool.idle)
    obtain ⟨k1, k2, k3, k4⟩ := key (some np)
    have hg : ∀ now,
        Get (Start (pool.drained.overwrite (some np)) (w ++ closeEvents pool.idle)).1 now
            (Start (pool.drained.overwrite (some np)) (w ++ closeEvents pool.idle)).2 =
          match dial np.Dial
            (Start (pool.drained.overwrite (some np)) (w ++ closeEvents pool.idle)).2 with
          | Except.error f => Except.error f
          | Except.ok (out, w2) =>
            Except.ok ({ conn := out.conn, err := out.err, pooled := none },
              (Start (pool.drained.overwrite (some np)) (w ++ closeEvents pool.idle)).1, w2) := by
      intro now
      rw [Get_empty _ now _ k2 k1, hs.2.2.2.2.1]
      rfl
    exact ⟨_, _, Restart_active pool (some np) w hact, hs.1, hs.2.1, hs.2.2.1, hs.2.2.2.1,
      hs.2.2.2.2.1, hs.2.2.2.2.2.1, k3, k4, k1, k2.1, k2, hg⟩
  · have hs := Start_spec (pool.drained.overwrite none) (w ++ closeEvents pool.idle)
    obtain ⟨k1, k2, k3, k4⟩ := key none
    exact ⟨_, _, Restart_active pool none w hact, hs.1, hs.2.1, hs.2.2.1, hs.2.2.2.1,
      hs.2.2.2.2.1, hs.2.2.2.2.2.1, k3, k4, k1, k2.1, k2⟩

theorem testPool_active : testPool.active :=
  ⟨rfl, fun ch h => by cases h; rfl⟩

/-- C8 (witness): the pool and the new pool of TestPool_Restart. -/
theorem restart_installs_configuration_witness :
    (∃ pool1 w1, Restart testPool (some testNewPool) [] = Except.ok (pool1, w1) ∧
      pool1.MaxConn = testNewPool.MaxConn ∧ pool1.MinConn = testNewPool.MinConn ∧
      pool1.DialSpeed = testNewPool.DialSpeed ∧ pool1.IdleSec = testNewPool.IdleSec ∧
      pool1.Dial = testNewPool.Dial ∧ pool1.Check = testNewPool.Check ∧
      closedConns w1 = closedConns [] ++ connsOf testPool.idle ∧ dialCount w1 = dialCount [] ∧
      pool1.idle = [] ∧ pool1.isRelease = false ∧ pool1.active ∧
      ∀ now, Get pool1 now w1 =
        match dial testNewPool.Dial w1 with
        | Except.error f => Except.error f
        | Except.ok (out, w2) =>
          Except.ok ({ conn := out.conn, err := out.err, pooled := none }, pool1, w2)) ∧
    (∃ pool1 w1, Restart testPool none [] = Except.ok (pool1, w1) ∧
      pool1.MaxConn = testPool.MaxConn ∧ pool1.MinConn = testPool.MinConn ∧
      pool1.DialSpeed = testPool.DialSpeed ∧ pool1.IdleSec = testPool.IdleSec ∧
      pool1.Dial = testPool.Dial ∧ pool1.Check = testPool.Check ∧
      closedConns w1 = closedConns [] ++ connsOf testPool.idle ∧ dialCount w1 = dialCount [] ∧
      pool1.idle = [] ∧ pool1.isRelease = false ∧ pool1.active) :=
  restart_installs_configuration testPool testNewPool [] testPool_active

/-! ## The populator -/

theorem dialedEntries_length (f : Dialer) (clock : Nat → Int) (hf : neverFails f) :
    ∀ d n k, (dialedEntries f clock d n k).length = d := by
  intro d
  induction d with
  | zero => intro n k; rfl
  | succ d ih =>
    intro n k
    obtain ⟨c, hc⟩ := hf n
    simp only [dialedEntries, hc, List.length_cons, ih]

theorem dialedEntries_add (f : Dialer) (clock : Nat → Int) (hf : neverFails f) :
    ∀ a b n k, dialedEntries f clock (a + b) n k =
      dialedEntries f clock a n k ++ dialedEntries f clock b (n + a) (k + a) := by
  intro a
  induction a with
  | zero => intro b n k; simp [dialedEntries]
  | succ a ih =>
    intro b n k
    obtain ⟨c, hc⟩ := hf n
    have : a + 1 + b = (a + b) + 1 := by omega
    rw [this]
    simp only [dialedEntries, hc, ih, List.cons_append]
    have h1 : n + 1 + a = n + (a + 1) := by omega
    have h2 : k + 1 + a = k + (a + 1) := by omega
    rw [h1, h2]

/-- One pass of dial-and-Put when the dial gives a handle and the open channel
has room: the handle is queued and counted. -/
theorem dialAndPut_accepted (f : Dialer) (now : Int) (pool : Pool) (w : World) (ch : Chan)
    (c : NetConn) (hf : f (dialCount w) = { conn := some c, err := none })
    (hrel : pool.isRelease = false) (hch : pool.connsChannel = some ch)
    (hopen : ch.closed = false) (hroom : ch.buf.length < ch.cap) :
    ∃ w1, dialAndPut (some f) now pool w = Except.ok (true,
        { pool with
            connsChannel := some { ch with buf := ch.buf ++ [{ Conn := c, createdTime := now }] },
            openingConns := pool.openingConns + 1 }, w1) ∧
      dialCount w1 = dialCount w + 1 ∧ closedConns w1 = closedConns w ∧
      sleepCount w1 = sleepCount w := by
  obtain ⟨w1, hd, hdc, hcc, -, hsl⟩ := dial_some f w
  refine ⟨w1, ?_, hdc, hcc, hsl⟩
  simp only [dialAndPut, hd, dialReturn, hf, Put, hrel, hch, hopen, hroom, Bool.false_eq_true,
    if_false, if_true]

/-- The inner loop with a dial function that never fails and room for
`m` more entries: all `m` passes are made. -/
theorem fillBatch_fills (f : Dialer) (clock : Nat → Int) (hf : neverFails f) :
    ∀ (m k : Nat) (pool : Pool) (w : World) (ch : Chan),
    pool.isRelease = false → pool.connsChannel = some ch → ch.closed = false →
    ch.buf.length + m ≤ ch.cap →
    ∃ w1, fillBatch (some f) clock m k pool w = Except.ok (Exit.filled, k + m,
        { pool with
            connsChannel :=
              some { ch with buf := ch.buf ++ dialedEntries f clock m (dialCount w) k },
            openingConns := pool.openingConns + m }, w1) ∧
      dialCount w1 = dialCount w + m ∧ closedConns w1 = closedConns w ∧
      sleepCount w1 = sleepCount w := by
  intro m
  induction m with
  | zero =>
    intro k pool w ch _ hch _ _
    refine ⟨w, ?_, rfl, rfl, rfl⟩
    obtain ⟨mc, mn, ds, sec, dl, ck, rel, it, oc, cc⟩ := pool
    simp only at hch
    subst hch
    simp [fillBatch, dialedEntries]
  | succ m ih =>
    intro k pool w ch hrel hch hopen hroom
    obtain ⟨c, hc⟩ := hf (dialCount w)
    obtain ⟨w1, h1, hd1, hc1, hs1⟩ :=
      dialAndPut_accepted f (clock k) pool w ch c hc hrel hch hopen (by omega)
    obtain ⟨w2, h2, hd2, hc2, hs2⟩ := ih (k + 1)
      { pool with
          connsChannel := some { ch with buf := ch.buf ++ [{ Conn := c, createdTime := clock k }] },
          openingConns := pool.openingConns + 1 } w1
      { ch with buf := ch.buf ++ [{ Conn := c, createdTime := clock k }] } hrel rfl hopen
      (by simp only [List.length_append, List.length_singleton]; omega)
    refine ⟨w2, ?_, by rw [hd2, hd1]; omega, by rw [hc2, hc1], by rw [hs2, hs1]⟩
    simp only [fillBatch, h1, h2, hd1, dialedEntries, hc, List.append_assoc, List.singleton_append,
      Except.ok.injEq, Prod.mk.injEq, true_and, and_true]
    refine ⟨by omega, ?_⟩
    congr 1
    push_cast
    ring

/-- The unpaced loop with a dial function that never fails and room for
`d` more entries: all `d` passes are made. -/
theorem fillUnpaced_fills (f : Dialer) (clock : Nat → Int) (hf : neverFails f) :
    ∀ (d k : Nat) (pool : Pool) (w : World) (ch : Chan),
    pool.isRelease = false → pool.connsChannel = some ch → ch.closed = false →
    ch.buf.length + d ≤ ch.cap →
    ∃ w1, fillUnpaced (some f) clock d k pool w = Except.ok (Exit.filled,
        { pool with
            connsChannel :=
              some { ch with buf := ch.buf ++ dialedEntries f clock d (dialCount w) k },
            openingConns := pool.openingConns + d }, w1) ∧
      dialCount w1 = dialCount w + d ∧ closedConns w1 = closedConns w ∧
      sleepCount w1 = sleepCount w := by
  intro d
  induction d with
  | zero =>
    intro k pool w ch _ hch _ _
    refine ⟨w, ?_, rfl, rfl, rfl⟩
    obtain ⟨mc, mn, ds, sec, dl, ck, rel, it, oc, cc⟩ := pool
    simp only at hch
    subst hch
    simp [fillUnpaced, dialedEntries]
  | succ d ih =>
    intro k pool w ch hrel hch hopen hroom
    obtain ⟨c, hc⟩ := hf (dialCount w)
    obtain ⟨w1, h1, hd1, hc1, hs1⟩ :=
      dialAndPut_accepted f (clock k) pool w ch c hc hrel hch hopen (by omega)
    obtain ⟨w2, h2, hd2, hc2, hs2⟩ := ih (k + 1)
      { pool with
          connsChannel := some { ch with buf := ch.buf ++ [{ Conn := c, createdTime := clock k }] },
          openingConns := pool.openingConns + 1 } w1
      { ch with buf := ch.buf ++ [{ Conn := c, createdTime := clock k }] } hrel rfl hopen
      (by simp only [List.length_append, List.length_singleton]; omega)
    refine ⟨w2, ?_, by rw [hd2, hd1]; omega, by rw [hc2, hc1], by rw [hs2, hs1]⟩
    simp only [fillUnpaced, h1, h2, hd1, dialedEntries, hc, List.append_assoc,
      List.singleton_append, Except.ok.injEq, Prod.mk.injEq, true_and, and_true]
    congr 1
    push_cast
    ring

theorem batches_zero (r : Nat) (hr : 0 < r) : batches r 0 = 0 := by
  simp only [batches, Nat.zero_add]
  exact Nat.div_eq_of_lt (by omega)

theorem batches_step (r d : Nat) (hr : 0 < r) (hd : 0 < d) :
    batches r d = batches r (d - (if r > d then d else r)) + 1 := by
  simp only [batches]
  split
  · rename_i h
    have h0 : d - d + r - 1 = r - 1 := by omega
    rw [h0, Nat.div_eq_of_lt (by omega : r - 1 < r)]
    have h1 : d + r - 1 = (d - 1) + r := by omega
    rw [h1, Nat.add_div_right _ hr, Nat.div_eq_of_lt (by omega : d - 1 < r)]
  · rename_i h
    have h1 : d + r - 1 = (d - r + r - 1) + r := by omega
    rw [h1, Nat.add_div_right _ hr]

/-- The paced loop with a dial function that never fails and room for
`deficit` more entries: every pass is made, in `batches dialSpeed deficit`
batches, each followed by one sleep. -/
theorem fillPaced_fills (f : Dialer) (clock : Nat → Int) (hf : neverFails f) (r : Nat)
    (hr : 0 < r) :
    ∀ (fuel deficit k : Nat) (pool : Pool) (w : World) (ch : Chan), deficit ≤ fuel →
    pool.isRelease = false → pool.connsChannel = some ch → ch.closed = false →
    ch.buf.length + deficit ≤ ch.cap →
    ∃ w1, fillPaced (some f) clock r fuel deficit k pool w = Except.ok (Exit.filled,
        { pool with
            connsChannel :=
              some { ch with buf := ch.buf ++ dialedEntries f clock deficit (dialCount w) k },
            openingConns := pool.openingConns + deficit }, w1) ∧
      dialCount w1 = dialCount w + deficit ∧ closedConns w1 = closedConns w ∧
      sleepCount w1 = sleepCount w + batches r deficit := by
  intro fuel
  induction fuel with
  | zero =>
    intro deficit k pool w ch hfuel _ hch _ _
    have hd : deficit = 0 := by omega
    subst hd
    refine ⟨w, ?_, rfl, rfl, by rw [batches_zero r hr]; rfl⟩
    obtain ⟨mc, mn, ds, sec, dl, ck, rel, it, oc, cc⟩ := pool
    simp only at hch
    subst hch
    simp [fillPaced, dialedEntries]
  | succ fuel ih =>
    intro deficit k pool w ch hfuel hrel hch hopen hroom
    by_cases hpos : 0 < deficit
    · have hm : 0 < (if r > deficit then deficit else r) ∧
          (if r > deficit then deficit else r) ≤ deficit := by
        split <;> omega
      generalize hmdef : (if r > deficit then deficit else r) = m at hm
      obtain ⟨w1, h1, hd1, hc1, hs1⟩ :=
        fillBatch_fills f clock hf m k pool w ch hrel hch hopen (by omega)
      obtain ⟨w2, h2, hd2, hc2, hs2⟩ := ih (deficit - m) (k + m)
        { pool with
            connsChannel :=
              some { ch with buf := ch.buf ++ dialedEntries f clock m (dialCount w) k },
            openingConns := pool.openingConns + m } (w1 ++ [Event.sleep])
        { ch with buf := ch.buf ++ dialedEntries f clock m (dialCount w) k }
        (by omega) hrel rfl hopen
        (by
          simp only [List.length_append, dialedEntries_length f clock hf]
          omega)
      have hdc : dialCount (w1 ++ [Event.sleep]) = dialCount w + m := by
        simp [dialCount_append, dialCount, hd1]
      refine ⟨w2, ?_, ?_, ?_, ?_⟩
      · simp only [fillPaced, hpos, if_true, hmdef, h1, h2, hdc, List.append_assoc,
          Except.ok.injEq, Prod.mk.injEq, true_and, and_true]
        have hsplit : deficit = m + (deficit - m) := by omega
        conv_rhs => rw [hsplit, dialedEntries_add f clock hf]
        congr 1
        push_cast [Nat.cast_sub hm.2]
        ring
      · rw [hd2, hdc]; omega
      · rw [hc2]; simp [closedConns_append, closedConns, hc1]
      · rw [hs2, batches_step r deficit hr hpos, hmdef]
        simp only [sleepCount_append, sleepCount, hs1]
        omega
    · have hd : deficit = 0 := by omega
      subst hd
      refine ⟨w, ?_, rfl, rfl, by rw [batches_zero r hr]; rfl⟩
      obtain ⟨mc, mn, ds, sec, dl, ck, rel, it, oc, cc⟩ := pool
      simp only at hch
      subst hch
      simp [fillPaced, dialedEntries]

/-- One more batch than `deficit` changes nothing: `deficit` batches are
always enough for the paced loop. -/
theorem fillPaced_fuel (d : Option Dialer) (clock : Nat → Int) (r : Nat) (hr : 0 < r) :
    ∀ (fuel deficit k : Nat) (pool : Pool) (w : World), deficit ≤ fuel →
    fillPaced d clock r (fuel + 1) deficit k pool w = fillPaced d clock r fuel deficit k pool w := by
  intro fuel
  induction fuel with
  | zero =>
    intro deficit k pool w hle
    have hd : deficit = 0 := by omega
    subst hd
    simp [fillPaced]
  | succ fuel ih =>
    intro deficit k pool w hle
    rw [fillPaced, fillPaced.eq_def d clock r (fuel + 1)]
    simp only []
    by_cases hpos : 0 < deficit
    · simp only [hpos, if_true]
      have hm : 0 < (if r > deficit then deficit else r) := by split <;> omega
      cases fillBatch d clock (if r > deficit then deficit else r) k pool w with
      | error e => rfl
      | ok res =>
        obtain ⟨ex, k1, pool1, w1⟩ := res
        cases ex with
        | refused => rfl
        | filled => exact ih _ _ _ _ (by omega)
    · simp only [hpos, if_false]

/-- Any number of batches from `deficit` on gives the result of `deficit`
batches. -/
theorem fillPaced_enough (d : Option Dialer) (clock : Nat → Int) (r : Nat) (hr : 0 < r)
    (deficit k : Nat) (pool : Pool) (w : World) :
    ∀ extra, fillPaced d clock r (deficit + extra) deficit k pool w =
      fillPaced d clock r deficit deficit k pool w := by
  intro extra
  induction extra with
  | zero => rfl
  | succ n ih =>
    rw [← ih]
    exact fillPaced_fuel d clock r hr (deficit + n) deficit k pool w (by omega)

/-- C7: an active pool has `MaxConn > 0`, a channel of the capacity Start
gives it, `openingConns` equal to the number of queued entries and at most
`MaxConn`, and a dial function that never fails.  One run of
GenerateConnections, with nothing else in between, returns; it has dialed
exactly `MaxConn - openingConns` times and queued every dialed handle, in
order, behind the entries that were there; afterwards `openingConns` is
`MaxConn` and exactly `MaxConn` entries are queued.  This holds for every
`DialSpeed`, positive or not. -/
theorem populator_fills_to_maxconn (pool : Pool) (clock : Nat → Int) (w : World) (ch : Chan)
    (f : Dialer) (hrel : pool.isRelease = false) (hch : pool.connsChannel = some ch)
    (hopen : ch.closed = false) (hmax : 0 < pool.MaxConn)
    (hcap : ch.cap = (pool.MaxConn * 2).toNat) (hcount : pool.openingConns = ch.buf.length)
    (hle : pool.openingConns ≤ pool.MaxConn) (hdial : pool.Dial = some f) (hf : neverFails f) :
    ∃ pool1 w1, GenerateConnections pool clock w = Except.ok (pool1, w1) ∧
      dialCount w1 = dialCount w + (pool.MaxConn - pool.openingConns).toNat ∧
      pool1.idle = pool.idle ++
        dialedEntries f clock (pool.MaxConn - pool.openingConns).toNat (dialCount w) 0 ∧
      pool1.openingConns = pool.MaxConn ∧ (pool1.idle.length : Int) = pool.MaxConn ∧
      closedConns w1 = closedConns w ∧ pool1.isRelease = false := by
  have hroom : ch.buf.length + (pool.MaxConn - pool.openingConns).toNat ≤ ch.cap := by
    rw [hcap]; omega
  have hlen : ((ch.buf ++ dialedEntries f clock (pool.MaxConn - pool.openingConns).toNat
      (dialCount w) 0).length : Int) = pool.MaxConn := by
    rw [List.length_append, dialedEntries_length f clock hf]
    push_cast
    omega
  have hoc : pool.openingConns + ((pool.MaxConn - pool.openingConns).toNat : Int) =
      pool.MaxConn := by omega
  by_cases hspeed : pool.DialSpeed > 0
  · obtain ⟨w1, h1, hd1, hc1, -⟩ := fillPaced_fills f clock hf pool.DialSpeed.toNat (by omega)
      (pool.MaxConn - pool.openingConns).toNat (pool.MaxConn - pool.openingConns).toNat 0 pool w
      ch (le_refl _) hrel hch hopen hroom
    refine ⟨{ pool with
        connsChannel :=
          some { ch with
                  buf := ch.buf ++
                    dialedEntries f clock (pool.MaxConn - pool.openingConns).toNat (dialCount w) 0 },
        openingConns := pool.openingConns + ((pool.MaxConn - pool.openingConns).toNat : Int) },
      w1, ?_, hd1, ?_, hoc, ?_, hc1, hrel⟩
    · simp only [GenerateConnections, hrel, hspeed, hdial, h1, Bool.false_eq_true, if_false,
        if_true]
    · simp only [Pool.idle, hch]
    · simpa only [Pool.idle] using hlen
  · obtain ⟨w1, h1, hd1, hc1, -⟩ := fillUnpaced_fills f clock hf
      (pool.MaxConn - pool.openingConns).toNat 0 pool w ch hrel hch hopen hroom
    refine ⟨{ pool with
        connsChannel :=
          some { ch with
                  buf := ch.buf ++
                    dialedEntries f clock (pool.MaxConn - pool.openingConns).toNat (dialCount w) 0 },
        openingConns := pool.openingConns + ((pool.MaxConn - pool.openingConns).toNat : Int) },
      w1, ?_, hd1, ?_, hoc, ?_, hc1, hrel⟩
    · simp only [GenerateConnections, hrel, hspeed, hdial, h1, Bool.false_eq_true, if_false]
    · simp only [Pool.idle, hch]
    · simpa only [Pool.idle] using hlen

theorem testDial_neverFails : neverFails testDial :=
  fun _ => ⟨_, rfl⟩

/-- C7 (witness): from the empty pool with `MaxConn = 10`, exactly ten dials
and ten queued handles. -/
theorem populator_fills_to_maxconn_witness :
    ∃ pool1 w1, GenerateConnections testStarted (fun _ => 0) [Event.spawn] =
        Except.ok (pool1, w1) ∧
      dialCount w1 = dialCount [Event.spawn] +
        (testStarted.MaxConn - testStarted.openingConns).toNat ∧
      pool1.idle = testStarted.idle ++
        dialedEntries testDial (fun _ => 0) (testStarted.MaxConn - testStarted.openingConns).toNat
          (dialCount [Event.spawn]) 0 ∧
      pool1.openingConns = testStarted.MaxConn ∧
      (pool1.idle.length : Int) = testStarted.MaxConn ∧
      closedConns w1 = closedConns [Event.spawn] ∧ pool1.isRelease = false :=
  populator_fills_to_maxconn testStarted (fun _ => 0) [Event.spawn] ⟨20, [], false⟩ testDial
    rfl rfl rfl (by decide) rfl rfl (by decide) rfl testDial_neverFails

/-! ## No handle is lost, closed twice or shared -/

theorem drainLoop_closed (buf : List idleConn) : ∀ (n : Int) (w : World),
    drainLoop true buf n w = Except.error Fault.nilDereference := by
  induction buf with
  | nil => intro n w; rfl
  | cons e rest ih => intro n w; simp only [drainLoop, ih]

theorem drain_spec (pool : Pool) (w : World)
    (hopen : ∀ ch, pool.connsChannel = some ch → ch.closed = false) :
    drain pool w = Except.ok (pool.drained, w ++ closeEvents pool.idle) := by
  obtain ⟨mc, mn, ds, sec, dl, ck, rel, it, oc, cc⟩ := pool
  cases cc with
  | none => simp [drain, Pool.drained, Pool.idle, closeEvents]
  | some ch =>
    have hopen1 : ch.closed = false := hopen ch rfl
    simp [drain, Pool.drained, Pool.idle, hopen1, drainLoop_open]

/-- When the drain loop returns, the channel was nil or open, every queued
handle has been closed, in order, and the queue is empty. -/
theorem drain_ok (pool : Pool) (w : World) (pool1 : Pool) (w1 : World)
    (h : drain pool w = Except.ok (pool1, w1)) :
    (∀ ch, pool.connsChannel = some ch → ch.closed = false) ∧
    pool1 = pool.drained ∧ w1 = w ++ closeEvents pool.idle := by
  have hopen : ∀ ch, pool.connsChannel = some ch → ch.closed = false := by
    intro ch hch
    cases hcl : ch.closed with
    | false => rfl
    | true =>
      simp only [drain, hch, hcl, drainLoop_closed] at h
      cases h
  rw [drain_spec pool w hopen] at h
  simp only [Except.ok.injEq, Prod.mk.injEq] at h
  exact ⟨hopen, h.1.symm, h.2.symm⟩

theorem Restart_spec (pool : Pool) (newPool : Option Pool) (w : World)
    (hopen : ∀ ch, pool.connsChannel = some ch → ch.closed = false) :
    Restart pool newPool w =
      Except.ok (Start (pool.drained.overwrite newPool) (w ++ closeEvents pool.idle)) := by
  simp only [Restart, drain_spec pool w hopen]
  cases newPool <;> rfl

/-- When Restart returns, it has closed every queued handle and no other, and
the queue is empty. -/
theorem Restart_ok (pool : Pool) (newPool : Option Pool) (w : World) (pool1 : Pool) (w1 : World)
    (h : Restart pool newPool w = Except.ok (pool1, w1)) :
    closedConns w1 = closedConns w ++ connsOf pool.idle ∧ pool1.idle = [] := by
  have hopen : ∀ ch, pool.connsChannel = some ch → ch.closed = false := by
    cases hd : drain pool w with
    | error e => simp [Restart, hd] at h
    | ok res => exact (drain_ok pool w res.1 res.2 hd).1
  rw [Restart_spec pool newPool w hopen] at h
  simp only [Except.ok.injEq] at h
  have hs := Start_spec (pool.drained.overwrite newPool) (w ++ closeEvents pool.idle)
  have ho := overwrite_channel pool.drained newPool
  have hq : (pool.drained.overwrite newPool).idle = [] := by
    have := drained_idle pool
    simp only [Pool.idle, ho.1] at this ⊢
    exact this
  rw [h] at hs
  exact ⟨by rw [hs.2.2.2.2.2.2.2.2.1, closedConns_append, closedConns_closeEvents],
    hs.2.2.2.2.2.2.2.2.2.2.1 hq⟩

/-- When Release returns, either the pool was terminal and nothing changed, or
it has closed every queued handle and no other, and the queue is empty. -/
theorem Release_ok (pool : Pool) (w : World) (pool1 : Pool) (w1 : World)
    (h : Release pool w = Except.ok (pool1, w1)) :
    (pool1 = pool ∧ w1 = w) ∨
    (closedConns w1 = closedConns w ++ connsOf pool.idle ∧ pool1.idle = []) := by
  simp only [Release] at h
  split at h
  · simp only [Except.ok.injEq, Prod.mk.injEq] at h
    exact Or.inl ⟨h.1.symm, h.2.symm⟩
  · split at h
    · cases h
    · rename_i p0 w0 hdrain
      obtain ⟨-, hp, hw⟩ := drain_ok pool w p0 w0 hdrain
      subst hp hw
      split at h
      · cases h
      · rename_i ch hch
        split at h
        · cases h
        · simp only [Except.ok.injEq, Prod.mk.injEq] at h
          obtain ⟨hp1, hw1⟩ := h
          subst hp1 hw1
          refine Or.inr ⟨by rw [closedConns_append, closedConns_closeEvents], ?_⟩
          have := drained_idle pool
          simp only [Pool.idle, hch] at this ⊢
          exact this

/-- When Put returns, either it refused and nothing changed, or it accepted a
non-nil handle and queued it last. -/
theorem Put_ok (pool : Pool) (conn : Option NetConn) (now : Int) (ok : Bool) (pool1 : Pool)
    (h : Put pool conn now = Except.ok (ok, pool1)) :
    (ok = false ∧ pool1 = pool) ∨
    (ok = true ∧ ∃ c, conn = some c ∧
      pool1.idle = pool.idle ++ [{ Conn := c, createdTime := now }] ∧
      pool1.openingConns = pool.openingConns + 1) := by
  simp only [Put] at h
  split at h
  · simp only [Except.ok.injEq, Prod.mk.injEq] at h
    exact Or.inl ⟨h.1.symm, h.2.symm⟩
  · rename_i c
    split at h
    · simp only [Except.ok.injEq, Prod.mk.injEq] at h
      exact Or.inl ⟨h.1.symm, h.2.symm⟩
    · split at h
      · simp only [Except.ok.injEq, Prod.mk.injEq] at h
        exact Or.inl ⟨h.1.symm, h.2.symm⟩
      · rename_i ch hch
        split at h
        · cases h
        · split at h
          · simp only [Except.ok.injEq, Prod.mk.injEq] at h
            obtain ⟨hok, hp⟩ := h
            subst hp
            exact Or.inr ⟨hok.symm, c, rfl, by simp [Pool.idle, hch], rfl⟩
          · simp only [Except.ok.injEq, Prod.mk.injEq] at h
            exact Or.inl ⟨h.1.symm, h.2.symm⟩

theorem Sys.step_ok (s : Sys) (op : Op) (s1 : Sys) (h : s.step op = Except.ok s1) :
    ∃ r pool1 w1, TCPPool.step s.pool s.world op = Except.ok (r, pool1, w1) ∧
      s1 = { pool := pool1, world := w1, held := hold s.held op r } := by
  simp only [Sys.step] at h
  split at h
  · cases h
  · rename_i r pool1 w1 hstep
    simp only [Except.ok.injEq] at h
    exact ⟨r, pool1, w1, hstep, h.symm⟩

theorem connsOf_append (a b : List idleConn) : connsOf (a ++ b) = connsOf a ++ connsOf b := by
  simp [connsOf]

/-- A Get that respects ownership keeps the three places free of repetition
and loses no handle. -/
theorem get_places (s : Sys) (now : Int) (s1 : Sys) (hnd : s.places.Nodup)
    (hperm : s.permits (Op.get now) = true) (hstep : s.step (Op.get now) = Except.ok s1) :
    s1.places.Nodup ∧ ∀ c ∈ s.places, c ∈ s1.places := by
  obtain ⟨r0, pool1, w1, h0, hs1⟩ := Sys.step_ok s _ s1 hstep
  simp only [step] at h0
  split at h0
  · cases h0
  · rename_i r p1 w2 hget
    simp only [Except.ok.injEq, Prod.mk.injEq] at h0
    obtain ⟨hr, hp, hw⟩ := h0
    subst hr hp hw hs1
    cases hrel : s.pool.isRelease with
    | true =>
      simp only [Get, hrel, if_true, Except.ok.injEq, Prod.mk.injEq] at hget
      obtain ⟨hr, hp, hw⟩ := hget
      subst hr hp hw
      exact ⟨hnd, fun c hc => hc⟩
    | false =>
      obtain ⟨pre, rest, hbuf, -, hcl, hcase⟩ := Get_spec s.pool now s.world r p1 w2 hrel hget
      rcases hcase with ⟨e, h1, -, h3, -⟩ | ⟨h1, h2, f, -, h4, -⟩
      · have hperm1 : (closedConns w2 ++ connsOf p1.idle ++ (e.Conn :: s.held)).Perm s.places := by
          simp only [Sys.places, hbuf, h1, hcl, connsOf_append, List.append_assoc]
          refine List.Perm.append_left _ (List.Perm.append_left _ ?_)
          simp only [connsOf, List.map_cons, List.cons_append]
          exact List.perm_middle
        have hplaces : (Sys.mk p1 w2 (hold s.held (Op.get now) (Ret.got r))).places = closedConns w2 ++ connsOf p1.idle ++ (e.Conn :: s.held) := by
          simp only [Sys.places, hold, h3]
        rw [hplaces]
        exact ⟨hperm1.nodup_iff.mpr hnd, fun c hc => hperm1.mem_iff.mpr hc⟩
      · subst h1
        rw [List.append_nil] at hbuf
        cases hconn : r.conn with
        | none =>
          have hplaces : (Sys.mk p1 w2 (hold s.held (Op.get now) (Ret.got r))).places = s.places := by
            simp only [Sys.places, hold, hconn, h2, hcl, hbuf, connsOf, List.map_nil,
              List.append_nil]
          rw [hplaces]
          exact ⟨hnd, fun c hc => hc⟩
        | some c =>
          have hfresh : c ∉ s.places := by
            have hpooled : r.pooled = none := by rw [h4]
            simpa only [Sys.permits, hget, hpooled, hconn, decide_eq_true_eq] using hperm
          have hperm1 : (closedConns w2 ++ connsOf p1.idle ++ (c :: s.held)).Perm
              (c :: s.places) := by
            simp only [Sys.places, h2, hcl, hbuf, connsOf, List.map_nil, List.append_nil]
            exact List.perm_middle
          have hplaces : (Sys.mk p1 w2 (hold s.held (Op.get now) (Ret.got r))).places =
              closedConns w2 ++ connsOf p1.idle ++ (c :: s.held) := by
            simp only [Sys.places, hold, hconn]
          rw [hplaces]
          exact ⟨hperm1.nodup_iff.mpr (List.nodup_cons.mpr ⟨hfresh, hnd⟩),
            fun x hx => hperm1.mem_iff.mpr (List.mem_cons_of_mem _ hx)⟩

/-- A Put that respects ownership keeps the three places free of repetition
and loses no handle. -/
theorem put_places (s : Sys) (conn : Option NetConn) (now : Int) (s1 : Sys)
    (hnd : s.places.Nodup) (hperm : s.permits (Op.put conn now) = true)
    (hstep : s.step (Op.put conn now) = Except.ok s1) :
    s1.places.Nodup ∧ ∀ c ∈ s.places, c ∈ s1.places := by
  obtain ⟨r0, pool1, w1, h0, hs1⟩ := Sys.step_ok s _ s1 hstep
  simp only [step] at h0
  split at h0
  · cases h0
  · rename_i ok p1 hput
    simp only [Except.ok.injEq, Prod.mk.injEq] at h0
    obtain ⟨hr, hp, hw⟩ := h0
    subst hr hp hw hs1
    rcases Put_ok s.pool conn now ok p1 hput with ⟨hok, hp⟩ | ⟨hok, c, hc, hidle, -⟩
    · subst hok hp
      have hplaces : (Sys.mk s.pool s.world (hold s.held (Op.put conn now) (Ret.accepted false))).places =
          s.places := by
        cases conn <;> rfl
      rw [hplaces]
      exact ⟨hnd, fun c hc => hc⟩
    · subst hok hc
      obtain ⟨hc1, hc2⟩ : c ∉ closedConns s.world ∧ c ∉ connsOf s.pool.idle := by
        simpa only [Sys.permits, Bool.and_eq_true, decide_eq_true_eq] using hperm
      have hplaces : (Sys.mk p1 s.world (hold s.held (Op.put (some c) now) (Ret.accepted true))).places =
          closedConns s.world ++ (connsOf s.pool.idle ++ [c]) ++ s.held.erase c := by
        simp only [Sys.places, hold, hidle, connsOf, List.map_append, List.map_cons, List.map_nil]
      rw [hplaces]
      by_cases hheld : c ∈ s.held
      · have hperm1 : (closedConns s.world ++ (connsOf s.pool.idle ++ [c]) ++
            s.held.erase c).Perm s.places := by
          simp only [Sys.places, List.append_assoc, List.singleton_append]
          exact List.Perm.append_left _ (List.Perm.append_left _ (List.perm_cons_erase hheld).symm)
        exact ⟨hperm1.nodup_iff.mpr hnd, fun x hx => hperm1.mem_iff.mpr hx⟩
      · have hfresh : c ∉ s.places := by
          simp only [Sys.places, List.mem_append, not_or]
          exact ⟨⟨hc1, hc2⟩, hheld⟩
        have hperm1 : (closedConns s.world ++ (connsOf s.pool.idle ++ [c]) ++
            s.held.erase c).Perm (c :: s.places) := by
          rw [List.erase_of_not_mem hheld]
          have hre : closedConns s.world ++ (connsOf s.pool.idle ++ [c]) ++ s.held =
              (closedConns s.world ++ connsOf s.pool.idle) ++ c :: s.held := by simp
          rw [hre]
          exact List.perm_middle
        exact ⟨hperm1.nodup_iff.mpr (List.nodup_cons.mpr ⟨hfresh, hnd⟩),
          fun x hx => hperm1.mem_iff.mpr (List.mem_cons_of_mem _ hx)⟩

/-- Restart and Release keep the three places free of repetition and lose no
handle. -/
theorem restart_release_places (s : Sys) (op : Op) (s1 : Sys) (hop : op.isGetPut = false)
    (hnd : s.places.Nodup) (hstep : s.step op = Except.ok s1) :
    s1.places.Nodup ∧ ∀ c ∈ s.places, c ∈ s1.places := by
  obtain ⟨r0, pool1, w1, h0, hs1⟩ := Sys.step_ok s _ s1 hstep
  have hmoved : ∀ (p1 : Pool) (w2 : World) (held : List NetConn),
      closedConns w2 = closedConns s.world ++ connsOf s.pool.idle → p1.idle = [] →
      held = s.held →
      (Sys.mk p1 w2 (held)).places = s.places := by
    intro p1 w2 held hcl hidle hheld
    simp only [Sys.places, hcl, hidle, hheld, connsOf, List.map_nil, List.append_nil]
  cases op with
  | get now => simp [Op.isGetPut] at hop
  | put conn now => simp [Op.isGetPut] at hop
  | restart np =>
    simp only [step] at h0
    split at h0
    · cases h0
    · rename_i p1 w2 hres
      simp only [Except.ok.injEq, Prod.mk.injEq] at h0
      obtain ⟨hr, hp, hw⟩ := h0
      subst hr hp hw hs1
      obtain ⟨hcl, hidle⟩ := Restart_ok s.pool np s.world p1 w2 hres
      rw [hmoved p1 w2 (hold s.held (Op.restart np) Ret.done) hcl hidle rfl]
      exact ⟨hnd, fun c hc => hc⟩
  | release =>
    simp only [step] at h0
    split at h0
    · cases h0
    · rename_i p1 w2 hres
      simp only [Except.ok.injEq, Prod.mk.injEq] at h0
      obtain ⟨hr, hp, hw⟩ := h0
      subst hr hp hw hs1
      rcases Release_ok s.pool s.world p1 w2 hres with ⟨hp, hw⟩ | ⟨hcl, hidle⟩
      · subst hp hw
        exact ⟨hnd, fun c hc => hc⟩
      · rw [hmoved p1 w2 (hold s.held Op.release Ret.done) hcl hidle rfl]
        exact ⟨hnd, fun c hc => hc⟩

/-- Every call that respects ownership keeps the three places free of
repetition and loses no handle. -/
theorem step_places (s : Sys) (op : Op) (s1 : Sys) (hnd : s.places.Nodup)
    (hperm : s.permits op = true) (hstep : s.step op = Except.ok s1) :
    s1.places.Nodup ∧ ∀ c ∈ s.places, c ∈ s1.places := by
  cases op with
  | get now => exact get_places s now s1 hnd hperm hstep
  | put conn now => exact put_places s conn now s1 hnd hperm hstep
  | restart np => exact restart_release_places s (Op.restart np) s1 rfl hnd hstep
  | release => exact restart_release_places s Op.release s1 rfl hnd hstep

theorem run_places (ops : List Op) : ∀ (s s1 : Sys), s.places.Nodup → s.permitsAll ops = true →
    s.run ops = Except.ok s1 →
    s1.places.Nodup ∧ ∀ c ∈ s.places, c ∈ s1.places := by
  induction ops with
  | nil =>
    intro s s1 hnd _ hrun
    simp only [Sys.run, Except.ok.injEq] at hrun
    subst hrun
    exact ⟨hnd, fun c hc => hc⟩
  | cons op ops ih =>
    intro s s1 hnd hperm hrun
    simp only [Sys.run] at hrun
    simp only [Sys.permitsAll, Bool.and_eq_true] at hperm
    cases hstep : s.step op with
    | error e => simp [hstep] at hrun
    | ok s2 =>
      simp only [hstep] at hrun hperm
      obtain ⟨hnd2, hmem2⟩ := step_places s op s2 hnd hperm.1 hstep
      obtain ⟨hnd1, hmem1⟩ := ih s2 s1 hnd2 hperm.2 hrun
      exact ⟨hnd1, fun c hc => hmem1 c (hmem2 c hc)⟩

theorem started_places (maxConn minConn dialSpeed idleSec : Int) (dialer : Option Dialer)
    (check : Option Checker) :
    (Sys.started maxConn minConn dialSpeed idleSec dialer check).places = [] := by
  simp only [Sys.started, Sys.places, Start, Pool.literal]
  split <;> rfl

/-- C9 (counterexample): the dial function gives the same handle at every
call.  Two Gets on the started pool, with no Put in between, both return that
handle: it is with two callers at once. -/
theorem same_handle_returned_by_two_gets :
    ∃ s, (Sys.started 1 0 0 0 (some fun _ => ⟨some ⟨7, false⟩, none⟩) none).run
        [Op.get 0, Op.get 0] = Except.ok s ∧
      s.held = [⟨7, false⟩, ⟨7, false⟩] ∧ ¬ s.places.Nodup :=
  ⟨_, rfl, rfl, by decide⟩

/-- C9 (amended): a pool literal is started and any sequence of Get, Put,
Restart and Release calls is made, each one atomic, in any order.  Callers
only Put handles that are with a caller (not queued, not closed by the pool)
and every handle that the dial function gives to Get is new.  Then in every
state that is reached the closed handles, the queued handles and the handles
with callers form one list without repetition: no handle was closed twice, no
closed handle is queued or with a caller, no handle is with two callers, and no
handle with a caller is queued.  Every next call keeps it so and loses no
handle: what was in one of the three places is still in one of them.  The
handle a Get returns has not been closed, was not with a caller, and is no
longer queued; the handle an accepted Put took is queued. -/
theorem no_handle_lost_closed_twice_or_shared (maxConn minConn dialSpeed idleSec : Int)
    (dialer : Option Dialer) (check : Option Checker) (ops : List Op) (s : Sys)
    (hperm : (Sys.started maxConn minConn dialSpeed idleSec dialer check).permitsAll ops = true)
    (hrun : (Sys.started maxConn minConn dialSpeed idleSec dialer check).run ops = Except.ok s) :
    s.places.Nodup ∧
    (∀ op s1, s.permits op = true → s.step op = Except.ok s1 →
      s1.places.Nodup ∧ ∀ c ∈ s.places, c ∈ s1.places) ∧
    (∀ now r pool1 w1 c, s.permits (Op.get now) = true →
      Get s.pool now s.world = Except.ok (r, pool1, w1) → r.conn = some c →
      c ∉ closedConns w1 ∧ c ∉ s.held ∧ c ∉ connsOf pool1.idle) ∧
    (∀ now c pool1, Put s.pool (some c) now = Except.ok (true, pool1) →
      c ∈ connsOf pool1.idle) := by
  have hnd : s.places.Nodup :=
    (run_places ops _ s (by rw [started_places]; exact List.nodup_nil) hperm hrun).1
  refine ⟨hnd, fun op s1 hp hs => step_places s op s1 hnd hp hs, ?_, ?_⟩
  · intro now r pool1 w1 c hp hget hconn
    have hstep : s.step (Op.get now) =
        Except.ok (Sys.mk pool1 w1 (hold s.held (Op.get now) (Ret.got r))) := by
      simp only [Sys.step, step, hget]
    have h1 := (step_places s _ _ hnd hp hstep).1
    simp only [Sys.places, hold, hconn] at h1
    have h2 := List.nodup_append.mp h1
    have h3 := List.nodup_append.mp h2.1
    have hc : c ∈ c :: s.held := List.mem_cons_self _ _
    refine ⟨fun hin => h2.2.2 (List.mem_append_left _ hin) hc, ?_,
      fun hin => h2.2.2 (List.mem_append_right _ hin) hc⟩
    exact (List.nodup_cons.mp h2.2.1).1
  · intro now c pool1 hput
    rcases Put_ok s.pool (some c) now true pool1 hput with ⟨h, -⟩ | ⟨-, c1, hc1, hidle, -⟩
    · cases h
    · simp only [Option.some.injEq] at hc1
      subst hc1
      simp [hidle, connsOf]

/-- C9 (witness): a handle is put, taken out, the pool is restarted with the
handle back in the queue, and released. -/
theorem no_handle_lost_closed_twice_or_shared_witness :
    ∃ s, (Sys.started 1 0 0 0 (some testDial) none).run
        [Op.put (some ⟨1, false⟩) 0, Op.get 1, Op.put (some ⟨1, false⟩) 2, Op.restart none,
          Op.get 3, Op.release] = Except.ok s ∧
      s.places.Nodup ∧
      (∀ op s1, s.permits op = true → s.step op = Except.ok s1 →
        s1.places.Nodup ∧ ∀ c ∈ s.places, c ∈ s1.places) ∧
      (∀ now r pool1 w1 c, s.permits (Op.get now) = true →
        Get s.pool now s.world = Except.ok (r, pool1, w1) → r.conn = some c →
        c ∉ closedConns w1 ∧ c ∉ s.held ∧ c ∉ connsOf pool1.idle) ∧
      (∀ now c pool1, Put s.pool (some c) now = Except.ok (true, pool1) →
        c ∈ connsOf pool1.idle) :=
  ⟨_, rfl, no_handle_lost_closed_twice_or_shared 1 0 0 0 (some testDial) none
    [Op.put (some ⟨1, false⟩) 0, Op.get 1, Op.put (some ⟨1, false⟩) 2, Op.restart none,
      Op.get 3, Op.release] _ rfl rfl⟩

/-! ## The shape of the reachable pools -/

theorem Start_wellFormed (pool : Pool) (w : World)
    (hopen : ∀ ch, pool.connsChannel = some ch → ch.closed = false) :
    (Start pool w).1.wellFormed := by
  simp only [Start]
  split
  · refine ⟨fun _ ch hch => ?_, fun _ => ⟨_, rfl, rfl⟩⟩
    simp only [Option.some.injEq] at hch
    rw [← hch]
  · rename_i hmax
    exact ⟨fun _ => hopen, fun h => absurd h hmax⟩

theorem step_wellFormed (pool : Pool) (w : World) (op : Op) (r : Ret) (pool1 : Pool) (w1 : World)
    (hwf : pool.wellFormed) (h : step pool w op = Except.ok (r, pool1, w1)) :
    pool1.wellFormed := by
  obtain ⟨hw1, hw2⟩ := hwf
  cases op with
  | get now =>
    simp only [step] at h
    split at h
    · cases h
    · rename_i r0 p0 w0 hget
      simp only [Except.ok.injEq, Prod.mk.injEq] at h
      obtain ⟨-, hp, -⟩ := h
      subst hp
      obtain ⟨hc, hnone, hsome⟩ := Get_frame pool now w r0 p0 w0 hget
      refine ⟨fun hrel ch hch => ?_, fun hmax => ?_⟩
      · cases hpc : pool.connsChannel with
        | none => rw [hnone hpc] at hch; cases hch
        | some ch0 =>
          obtain ⟨pre, rest, -, hch1⟩ := hsome ch0 hpc
          rw [hch1] at hch
          simp only [Option.some.injEq] at hch
          rw [← hch]
          exact hw1 (hc.2.2.2.2.2.2.1.symm.trans hrel) ch0 hpc
      · obtain ⟨ch0, hpc, hcap⟩ := hw2 (by rw [← hc.1]; exact hmax)
        obtain ⟨pre, rest, -, hch1⟩ := hsome ch0 hpc
        exact ⟨_, hch1, by rw [hc.1]; exact hcap⟩
  | put conn now =>
    simp only [step] at h
    split at h
    · cases h
    · rename_i ok p0 hput
      simp only [Except.ok.injEq, Prod.mk.injEq] at h
      obtain ⟨-, hp, -⟩ := h
      subst hp
      obtain ⟨hc, hnone, hsome⟩ := Put_frame pool conn now ok p0 hput
      refine ⟨fun hrel ch hch => ?_, fun hmax => ?_⟩
      · cases hpc : pool.connsChannel with
        | none => rw [hnone hpc] at hch; cases hch
        | some ch0 =>
          obtain ⟨added, hch1⟩ := hsome ch0 hpc
          rw [hch1] at hch
          simp only [Option.some.injEq] at hch
          rw [← hch]
          exact hw1 (hc.2.2.2.2.2.2.1.symm.trans hrel) ch0 hpc
      · obtain ⟨ch0, hpc, hcap⟩ := hw2 (by rw [← hc.1]; exact hmax)
        obtain ⟨added, hch1⟩ := hsome ch0 hpc
        exact ⟨_, hch1, by rw [hc.1]; exact hcap⟩
  | restart np =>
    simp only [step] at h
    split at h
    · cases h
    · rename_i p0 w0 hres
      simp only [Except.ok.injEq, Prod.mk.injEq] at h
      obtain ⟨-, hp, -⟩ := h
      subst hp
      have hopen : ∀ ch, pool.connsChannel = some ch → ch.closed = false := by
        cases hd : drain pool w with
        | error e => simp [Restart, hd] at hres
        | ok res => exact (drain_ok pool w res.1 res.2 hd).1
      rw [Restart_spec pool np w hopen] at hres
      simp only [Except.ok.injEq] at hres
      have hwf := Start_wellFormed (pool.drained.overwrite np) (w ++ closeEvents pool.idle) (by
        intro ch hch
        rw [(overwrite_channel pool.drained np).1] at hch
        simp only [Pool.drained, Option.map_eq_some'] at hch
        obtain ⟨ch0, h0, h1⟩ := hch
        rw [← h1]
        exact hopen ch0 h0)
      rw [hres] at hwf
      exact hwf
  | release =>
    simp only [step] at h
    split at h
    · cases h
    · rename_i p0 w0 hres
      simp only [Except.ok.injEq, Prod.mk.injEq] at h
      obtain ⟨-, hp, -⟩ := h
      subst hp
      cases hrel : pool.isRelease with
      | true =>
        simp only [Release, hrel, if_true, Except.ok.injEq, Prod.mk.injEq] at hres
        rw [← hres.1]
        exact ⟨hw1, hw2⟩
      | false =>
        cases hpc : pool.connsChannel with
        | none =>
          simp [Release, hrel, drain, hpc] at hres
        | some ch0 =>
          rw [Release_open pool w ch0 hrel hpc (hw1 hrel ch0 hpc)] at hres
          simp only [Except.ok.injEq, Prod.mk.injEq] at hres
          rw [← hres.1]
          refine ⟨fun h => (by cases h), fun hmax => ?_⟩
          obtain ⟨ch1, hpc1, hcap⟩ := hw2 hmax
          rw [hpc] at hpc1
          simp only [Option.some.injEq] at hpc1
          subst hpc1
          exact ⟨_, rfl, hcap⟩

/-- Every pool reached from a started pool literal by Get, Put, Restart and
Release calls is well formed: if it is not released and `MaxConn > 0`, its
channel is open and has capacity `2 * MaxConn`. -/
theorem run_wellFormed (ops : List Op) : ∀ (pool : Pool) (w : World) (rs : List Ret)
    (pool1 : Pool) (w1 : World), pool.wellFormed →
    run pool w ops = Except.ok (rs, pool1, w1) → pool1.wellFormed := by
  induction ops with
  | nil =>
    intro pool w rs pool1 w1 hwf h
    simp only [run, Except.ok.injEq, Prod.mk.injEq] at h
    rw [← h.2.1]
    exact hwf
  | cons op ops ih =>
    intro pool w rs pool1 w1 hwf h
    simp only [run] at h
    split at h
    · cases h
    · rename_i r0 p0 w0 hstep
      split at h
      · cases h
      · rename_i rs1 p2 w2 hrun
        simp only [Except.ok.injEq, Prod.mk.injEq] at h
        rw [← h.2.1]
        exact ih p0 w0 rs1 p2 w2 (step_wellFormed pool w op r0 p0 w0 hwf hstep) hrun

theorem started_wellFormed (maxConn minConn dialSpeed idleSec : Int) (dialer : Option Dialer)
    (check : Option Checker) (w : World) :
    (Start (Pool.literal maxConn minConn dialSpeed idleSec dialer check) w).1.wellFormed :=
  Start_wellFormed _ w (fun ch h => by cases h)

/-! ## Release: the drain, the second call, and the pools it faults on -/

theorem Put_released (pool : Pool) (conn : Option NetConn) (now : Int)
    (hrel : pool.isRelease = true) : Put pool conn now = Except.ok (false, pool) := by
  cases conn with
  | none => rfl
  | some c => simp only [Put, hrel, if_true]

/-- C11: a pool is started with `MaxConn > 0` and used through any Get and
Put calls; it then holds `k` idle entries.  Release returns; what it adds to
the trace is exactly one close per idle entry, oldest first, and nothing else;
`openingConns` is lower by exactly `k`; the queue is empty, the channel is
closed and the terminal flag is set, and every Put after it is refused and
leaves the pool as it is. -/
theorem release_closes_every_idle_handle (pool0 : Pool) (w0 : World) (mid : List Op)
    (rs : List Ret) (pool1 : Pool) (w1 : World) (hmax : 0 < pool0.MaxConn)
    (hmid : ∀ op ∈ mid, op.isGetPut = true)
    (hrun : run (Start pool0 w0).1 (Start pool0 w0).2 mid = Except.ok (rs, pool1, w1)) :
    ∃ pool2, Release pool1 w1 = Except.ok (pool2, w1 ++ closeEvents pool1.idle) ∧
      closedConns (w1 ++ closeEvents pool1.idle) = closedConns w1 ++ connsOf pool1.idle ∧
      pool2.openingConns = pool1.openingConns - pool1.idle.length ∧
      pool2.idle = [] ∧ (∃ ch, pool2.connsChannel = some ch ∧ ch.closed = true) ∧
      pool2.isRelease = true ∧
      ∀ conn now, Put pool2 conn now = Except.ok (false, pool2) := by
  have hact := run_activeOpen mid _ _ rs pool1 w1 hmid (Start_activeOpen pool0 w0 hmax) hrun
  obtain ⟨hrel, ch, hch, hopen⟩ := hact
  have hidle : pool1.idle = ch.buf := by simp only [Pool.idle, hch]
  rw [hidle]
  refine ⟨_, Release_open pool1 w1 ch hrel hch hopen, ?_, rfl, rfl, ⟨_, rfl, rfl⟩, rfl,
    fun conn now => Put_released _ conn now rfl⟩
  rw [closedConns_append, closedConns_closeEvents]

/-- C11 (witness): a pool with `MaxConn = 1` takes two handles and is
released. -/
theorem release_closes_every_idle_handle_witness :
    ∃ pool2,
      Release (⟨1, 0, 0, 0, none, none, false, 0, 2,
          some ⟨2, [⟨⟨1, false⟩, 5⟩, ⟨⟨2, false⟩, 6⟩], false⟩⟩ : Pool) [Event.spawn] =
        Except.ok (pool2, [Event.spawn] ++ closeEvents [⟨⟨1, false⟩, 5⟩, ⟨⟨2, false⟩, 6⟩]) ∧
      closedConns ([Event.spawn] ++ closeEvents [⟨⟨1, false⟩, 5⟩, ⟨⟨2, false⟩, 6⟩]) =
        closedConns [Event.spawn] ++ connsOf [⟨⟨1, false⟩, 5⟩, ⟨⟨2, false⟩, 6⟩] ∧
      pool2.openingConns = 2 - ([⟨⟨1, false⟩, 5⟩, ⟨⟨2, false⟩, 6⟩] : List idleConn).length ∧
      pool2.idle = [] ∧ (∃ ch, pool2.connsChannel = some ch ∧ ch.closed = true) ∧
      pool2.isRelease = true ∧
      ∀ conn now, Put pool2 conn now = Except.ok (false, pool2) :=
  release_closes_every_idle_handle (Pool.literal 1 0 0 0 none none) []
    [Op.put (some ⟨1, false⟩) 5, Op.put (some ⟨2, false⟩) 6]
    [Ret.accepted true, Ret.accepted true] _ _ (by decide) (by decide) rfl

/-- C12: on a pool whose terminal flag is set, Release returns the pool
struct and the trace exactly as they were: no field changes and no handle is
closed.  So whenever a Release has returned, a second Release right after it
returns the same pool and the same trace. -/
theorem release_is_idempotent (pool : Pool) (w : World) :
    (pool.isRelease = true → Release pool w = Except.ok (pool, w)) ∧
    ∀ pool1 w1, Release pool w = Except.ok (pool1, w1) →
      Release pool1 w1 = Except.ok (pool1, w1) := by
  have hterm : ∀ (p : Pool) (v : World), p.isRelease = true → Release p v = Except.ok (p, v) := by
    intro p v h
    simp only [Release, h, if_true]
  refine ⟨hterm pool w, fun pool1 w1 h => hterm pool1 w1 ?_⟩
  cases hrel : pool.isRelease with
  | true =>
    rw [hterm pool w hrel] at h
    simp only [Except.ok.injEq, Prod.mk.injEq] at h
    rw [← h.1]
    exact hrel
  | false =>
    simp only [Release, hrel, Bool.false_eq_true, if_false] at h
    split at h
    · cases h
    · split at h
      · cases h
      · split at h
        · cases h
        · simp only [Except.ok.injEq, Prod.mk.injEq] at h
          rw [← h.1]

/-- C12 (witness): the pool of TestPool_Restart is released twice. -/
theorem release_is_idempotent_witness :
    ∃ pool1 w1, Release testPool [] = Except.ok (pool1, w1) ∧
      pool1.isRelease = true ∧ Release pool1 w1 = Except.ok (pool1, w1) :=
  ⟨_, _, rfl, rfl, (release_is_idempotent testPool []).2 _ _ rfl⟩

/-- Restart on a pool whose channel is closed panics: the receive in the drain
loop yields a nil `*idleConn` once the queue is empty. -/
theorem Restart_closed_faults (pool : Pool) (newPool : Option Pool) (w : World) (ch : Chan)
    (hch : pool.connsChannel = some ch) (hclosed : ch.closed = true) :
    Restart pool newPool w = Except.error Fault.nilDereference := by
  simp only [Restart, drain, hch, hclosed, drainLoop_closed]

/-- Release on an unreleased pool whose channel is nil panics at
`close(pool.connsChannel)`. -/
theorem Release_nil_faults (pool : Pool) (w : World) (hrel : pool.isRelease = false)
    (hch : pool.connsChannel = none) :
    Release pool w = Except.error Fault.closeOfNilChannel := by
  simp only [Release, hrel, drain, hch, Bool.false_eq_true, if_false]

/-- C17 (failing input): a pool is started with `MaxConn = 1`, released, and
restarted, once with nil and once with a new configuration.  Both Restart
calls panic with a nil dereference; the pool is never active again. -/
theorem restart_after_release_faults :
    run (Start (Pool.literal 1 0 0 0 (some testDial) none) []).1
        (Start (Pool.literal 1 0 0 0 (some testDial) none) []).2
        [Op.release, Op.restart none] = Except.error Fault.nilDereference ∧
    run (Start (Pool.literal 1 0 0 0 (some testDial) none) []).1
        (Start (Pool.literal 1 0 0 0 (some testDial) none) []).2
        [Op.release, Op.restart (some testNewPool)] = Except.error Fault.nilDereference :=
  ⟨rfl, rfl⟩

/-- C18 (failing input): a pool literal with `MaxConn = 0` is started and
released.  Release panics at the close of the nil channel; the terminal flag
is never set. -/
theorem release_without_channel_faults :
    run (Start (Pool.literal 0 0 0 0 (some testDial) none) []).1
        (Start (Pool.literal 0 0 0 0 (some testDial) none) []).2
        [Op.release] = Except.error Fault.closeOfNilChannel ∧
    run (Start (Pool.literal (-3) 0 0 0 (some testDial) none) []).1
        (Start (Pool.literal (-3) 0 0 0 (some testDial) none) []).2
        [Op.release] = Except.error Fault.closeOfNilChannel :=
  ⟨rfl, rfl⟩

/-- Every pool started with `MaxConn > 0`, used through Get and Put and then
released makes Restart panic, with or without a new configuration. -/
theorem Restart_after_Release_faults (pool0 : Pool) (w0 : World) (mid : List Op)
    (rs : List Ret) (pool1 : Pool) (w1 : World) (newPool : Option Pool)
    (hmax : 0 < pool0.MaxConn) (hmid : ∀ op ∈ mid, op.isGetPut = true)
    (hrun : run (Start pool0 w0).1 (Start pool0 w0).2 mid = Except.ok (rs, pool1, w1)) :
    ∃ pool2 w2, Release pool1 w1 = Except.ok (pool2, w2) ∧
      Restart pool2 newPool w2 = Except.error Fault.nilDereference := by
  have hact := run_activeOpen mid _ _ rs pool1 w1 hmid (Start_activeOpen pool0 w0 hmax) hrun
  obtain ⟨hrel, ch, hch, hopen⟩ := hact
  exact ⟨_, _, Release_open pool1 w1 ch hrel hch hopen,
    Restart_closed_faults _ newPool _ ⟨ch.cap, [], true⟩ rfl rfl⟩

/-- Every pool literal with `MaxConn <= 0` makes Release panic right after
Start, and after any Get and Put calls. -/
theorem Release_after_Start_without_channel_faults (maxConn minConn dialSpeed idleSec : Int)
    (dialer : Option Dialer) (check : Option Checker) (w : World) (hmax : maxConn ≤ 0) :
    Release (Start (Pool.literal maxConn minConn dialSpeed idleSec dialer check) w).1
        (Start (Pool.literal maxConn minConn dialSpeed idleSec dialer check) w).2 =
      Except.error Fault.closeOfNilChannel := by
  have hnot : ¬ maxConn > 0 := by omega
  apply Release_nil_faults
  · simp only [Start, Pool.literal, hnot, if_false]
  · simp only [Start, Pool.literal, hnot, if_false]

/-! ## The count and the queue -/

/-- A receive from a queue that the count covers lowers the count by exactly
one (the clamp at zero does not act) and launches a populator exactly when the
lowered count is at or below `MinConn`. -/
theorem afterReceive_counted (pool : Pool) (w : World) (h : 1 ≤ pool.openingConns) :
    (afterReceive pool w).1.openingConns = pool.openingConns - 1 ∧
    spawnCount (afterReceive pool w).2 =
      spawnCount w + (if pool.openingConns - 1 ≤ pool.MinConn then 1 else 0) := by
  simp only [afterReceive]
  split
  · have hn : ¬ pool.openingConns - 1 < 0 := by omega
    simp [hn, spawnCount_append, spawnCount]
  · simp

/-- Get on a queue that the count covers: the count goes down by the number
of entries received, and the populators launched are those of `spawnsFor`. -/
theorem readConnChannel_count (now : Int) (ch : Chan) : ∀ (buf : List idleConn) (pool : Pool)
    (w : World) (r : GetReturn) (pool1 : Pool) (w1 : World),
    readConnChannel now ch buf pool w = Except.ok (r, pool1, w1) →
    (buf.length : Int) ≤ pool.openingConns →
    pool1.idle.length ≤ buf.length ∧
    pool1.openingConns = pool.openingConns - ((buf.length - pool1.idle.length : Nat) : Int) ∧
    spawnCount w1 = spawnCount w +
      spawnsFor pool.MinConn pool.openingConns (buf.length - pool1.idle.length) := by
  intro buf
  induction buf with
  | nil =>
    intro pool w r pool1 w1 h _
    simp only [readConnChannel] at h
    split at h
    · cases h
    · split at h
      · cases h
      · rename_i out w2 hdial
        simp only [Except.ok.injEq, Prod.mk.injEq] at h
        obtain ⟨-, hp, hw⟩ := h
        subst hp hw
        cases hd : pool.Dial with
        | none => simp [hd, dial] at hdial
        | some f =>
          obtain ⟨w3, h3, -, -, hs, -⟩ := dial_some f w
          rw [hd, h3] at hdial
          simp only [Except.ok.injEq, Prod.mk.injEq] at hdial
          rw [← hdial.2, hs]
          simp [Pool.idle, spawnsFor]
  | cons e rest ih =>
    intro pool w r pool1 w1 h hlen
    simp only [List.length_cons] at hlen
    push_cast at hlen
    obtain ⟨hoc, hsp⟩ := afterReceive_counted pool w (by omega)
    have hcfg := afterReceive_sameConfig pool w
    simp only [readConnChannel] at h
    have hloop : ∀ (w0 : World), spawnCount w0 = spawnCount (afterReceive pool w).2 →
        readConnChannel now ch rest (afterReceive pool w).1 w0 = Except.ok (r, pool1, w1) →
        pool1.idle.length ≤ (e :: rest).length ∧
        pool1.openingConns =
          pool.openingConns - (((e :: rest).length - pool1.idle.length : Nat) : Int) ∧
        spawnCount w1 = spawnCount w +
          spawnsFor pool.MinConn pool.openingConns ((e :: rest).length - pool1.idle.length) := by
      intro w0 hw0 h2
      obtain ⟨h1, h3, h4⟩ := ih _ _ _ _ _ h2 (by rw [hoc]; omega)
      have hk : (e :: rest).length - pool1.idle.length = (rest.length - pool1.idle.length) + 1 := by
        simp only [List.length_cons]; omega
      refine ⟨by simp only [List.length_cons]; omega, ?_, ?_⟩
      · rw [h3, hoc, hk]; push_cast; omega
      · rw [h4, hw0, hsp, hk, hoc, hcfg.2.1]
        simp only [spawnsFor]
        omega
    split at h
    · exact hloop _ (by simp [spawnCount_append, spawnCount]) h
    · split at h
      · exact hloop _ (by simp [spawnCount_append, spawnCount]) h
      · simp only [Except.ok.injEq, Prod.mk.injEq] at h
        obtain ⟨-, hp, hw⟩ := h
        subst hp hw
        have hk : (e :: rest).length - rest.length = 1 := by simp
        refine ⟨by simp [Pool.idle], ?_, ?_⟩
        · simp only [Pool.idle, hk, hoc]; push_cast; rfl
        · simp only [Pool.idle, hk, hsp, spawnsFor]
          omega

theorem Get_count (pool : Pool) (now : Int) (w : World) (r : GetReturn) (pool1 : Pool)
    (w1 : World) (h : Get pool now w = Except.ok (r, pool1, w1)) (hc : pool.counted) :
    pool1.idle.length ≤ pool.idle.length ∧
    pool1.openingConns =
      pool.openingConns - ((pool.idle.length - pool1.idle.length : Nat) : Int) ∧
    spawnCount w1 = spawnCount w +
      spawnsFor pool.MinConn pool.openingConns (pool.idle.length - pool1.idle.length) := by
  simp only [Get] at h
  split at h
  · simp only [Except.ok.injEq, Prod.mk.injEq] at h
    obtain ⟨-, hp, hw⟩ := h
    subst hp hw
    simp [spawnsFor]
  · split at h
    · split at h
      · cases h
      · rename_i out w2 hdial
        simp only [Except.ok.injEq, Prod.mk.injEq] at h
        obtain ⟨-, hp, hw⟩ := h
        subst hp hw
        cases hd : pool.Dial with
        | none => simp [hd, dial] at hdial
        | some f =>
          obtain ⟨w3, h3, -, -, hs, -⟩ := dial_some f w
          rw [hd, h3] at hdial
          simp only [Except.ok.injEq, Prod.mk.injEq] at hdial
          rw [← hdial.2, hs]
          simp [spawnsFor]
    · rename_i ch hch
      have hidle : pool.idle = ch.buf := by simp only [Pool.idle, hch]
      rw [hidle]
      exact readConnChannel_count now ch ch.buf pool w r pool1 w1 h (by
        simpa only [Pool.counted, hidle] using hc)

/-- Get, Put, Restart and Release keep the difference between the count and
the length of the queue, on a pool whose count covers the queue. -/
theorem step_slack (pool : Pool) (w : World) (op : Op) (r : Ret) (pool1 : Pool) (w1 : World)
    (hc : pool.counted) (h : step pool w op = Except.ok (r, pool1, w1)) :
    pool1.openingConns - pool1.idle.length = pool.openingConns - pool.idle.length := by
  cases op with
  | get now =>
    simp only [step] at h
    split at h
    · cases h
    · rename_i r0 p0 w0 hget
      simp only [Except.ok.injEq, Prod.mk.injEq] at h
      obtain ⟨-, hp, -⟩ := h
      subst hp
      obtain ⟨h1, h2, -⟩ := Get_count pool now w r0 p0 w0 hget hc
      rw [h2]
      push_cast [Nat.cast_sub h1]
      ring
  | put conn now =>
    simp only [step] at h
    split at h
    · cases h
    · rename_i ok p0 hput
      simp only [Except.ok.injEq, Prod.mk.injEq] at h
      obtain ⟨-, hp, -⟩ := h
      subst hp
      rcases Put_ok pool conn now ok p0 hput with ⟨-, hp⟩ | ⟨-, c, -, hidle, hoc⟩
      · rw [hp]
      · rw [hidle, hoc, List.length_append, List.length_singleton]
        push_cast
        ring
  | restart np =>
    simp only [step] at h
    split at h
    · cases h
    · rename_i p0 w0 hres
      simp only [Except.ok.injEq, Prod.mk.injEq] at h
      obtain ⟨-, hp, -⟩ := h
      subst hp
      have hopen : ∀ ch, pool.connsChannel = some ch → ch.closed = false := by
        cases hd : drain pool w with
        | error e => simp [Restart, hd] at hres
        | ok res => exact (drain_ok pool w res.1 res.2 hd).1
      have hidle := (Restart_ok pool np w p0 w0 hres).2
      rw [Restart_spec pool np w hopen] at hres
      simp only [Except.ok.injEq] at hres
      have hs := Start_spec (pool.drained.overwrite np) (w ++ closeEvents pool.idle)
      rw [hres] at hs
      rw [hidle, hs.2.2.2.2.2.2.2.1, (overwrite_channel pool.drained np).2.2]
      simp [Pool.drained]
  | release =>
    simp only [step] at h
    split at h
    · cases h
    · rename_i p0 w0 hres
      simp only [Except.ok.injEq, Prod.mk.injEq] at h
      obtain ⟨-, hp, -⟩ := h
      subst hp
      cases hrel : pool.isRelease with
      | true =>
        simp only [Release, hrel, if_true, Except.ok.injEq, Prod.mk.injEq] at hres
        rw [← hres.1]
      | false =>
        cases hpc : pool.connsChannel with
        | none => simp [Release, hrel, drain, hpc] at hres
        | some ch0 =>
          cases hcl : ch0.closed with
          | true => simp [Release, hrel, drain, hpc, hcl, drainLoop_closed] at hres
          | false =>
            rw [Release_open pool w ch0 hrel hpc hcl] at hres
            simp only [Except.ok.injEq, Prod.mk.injEq] at hres
            rw [← hres.1]
            simp [Pool.idle, hpc]

/-- Start keeps the count and never lengthens the queue. -/
theorem Start_counted (pool : Pool) (w : World) (hc : pool.counted) :
    (Start pool w).1.counted := by
  simp only [Pool.counted] at hc ⊢
  simp only [Start]
  split
  · simp only [Pool.idle, List.length_nil]
    have : (0 : Int) ≤ (pool.idle.length : Int) := Int.natCast_nonneg _
    push_cast
    omega
  · exact hc

theorem stepCall_counted (pool : Pool) (w : World) (c : Call) (pool1 : Pool) (w1 : World)
    (hc : pool.counted) (h : stepCall pool w c = Except.ok (pool1, w1)) : pool1.counted := by
  cases c with
  | start =>
    simp only [stepCall, Except.ok.injEq] at h
    have hp : pool1 = (Start pool w).1 := by rw [h]
    rw [hp]
    exact Start_counted pool w hc
  | op o =>
    simp only [stepCall] at h
    split at h
    · cases h
    · rename_i r p0 w0 hstep
      simp only [Except.ok.injEq, Prod.mk.injEq] at h
      rw [← h.1]
      have := step_slack pool w o r p0 w0 hc hstep
      simp only [Pool.counted] at hc ⊢
      omega

theorem runCalls_counted (cs : List Call) : ∀ (pool : Pool) (w : World) (pool1 : Pool)
    (w1 : World), pool.counted → runCalls pool w cs = Except.ok (pool1, w1) → pool1.counted := by
  induction cs with
  | nil =>
    intro pool w pool1 w1 hc h
    simp only [runCalls, Except.ok.injEq, Prod.mk.injEq] at h
    rw [← h.1]
    exact hc
  | cons c cs ih =>
    intro pool w pool1 w1 hc h
    simp only [runCalls] at h
    split at h
    · cases h
    · rename_i p0 w0 hstep
      exact ih p0 w0 pool1 w1 (stepCall_counted pool w c p0 w0 hc hstep) h

theorem literal_counted (maxConn minConn dialSpeed idleSec : Int) (dialer : Option Dialer)
    (check : Option Checker) :
    (Pool.literal maxConn minConn dialSpeed idleSec dialer check).counted := by
  simp [Pool.counted, Pool.literal, Pool.idle]

/-- The count on the runs in which no call panics: a pool literal of any
configuration, whatever `MinConn` is, goes through any sequence of Start, Get,
Put, Release and Restart calls.  In every state such a run reaches,
`openingConns` is at least the number of queued entries, and so it is not
negative. -/
theorem opening_conns_never_negative (maxConn minConn dialSpeed idleSec : Int)
    (dialer : Option Dialer) (check : Option Checker) (w : World) (cs : List Call)
    (pool1 : Pool) (w1 : World)
    (hrun : runCalls (Pool.literal maxConn minConn dialSpeed idleSec dialer check) w cs =
      Except.ok (pool1, w1)) :
    0 ≤ pool1.openingConns ∧ (pool1.idle.length : Int) ≤ pool1.openingConns := by
  have hc := runCalls_counted cs _ w pool1 w1
    (literal_counted maxConn minConn dialSpeed idleSec dialer check) hrun
  have : (0 : Int) ≤ (pool1.idle.length : Int) := Int.natCast_nonneg _
  exact ⟨le_trans this hc, hc⟩

/-- An instance: with `MinConn = -5` the clamp of Get never acts; the count
stays at zero or above through Start, Put, Get, Start, Restart, Release. -/
theorem opening_conns_never_negative_witness :
    ∃ pool1 w1,
      runCalls (Pool.literal 1 (-5) 0 0 (some testDial) none) [] testCalls =
        Except.ok (pool1, w1) ∧
      0 ≤ pool1.openingConns ∧ (pool1.idle.length : Int) ≤ pool1.openingConns :=
  have h : ∃ p v, runCalls (Pool.literal 1 (-5) 0 0 (some testDial) none) [] testCalls =
      Except.ok (p, v) := ⟨_, _, rfl⟩
  h.elim fun p hp => hp.elim fun v hv =>
    ⟨p, v, hv, opening_conns_never_negative 1 (-5) 0 0 (some testDial) none [] testCalls p v hv⟩

theorem run_slack (ops : List Op) : ∀ (pool : Pool) (w : World) (rs : List Ret) (pool1 : Pool)
    (w1 : World), pool.counted → run pool w ops = Except.ok (rs, pool1, w1) →
    pool1.openingConns - pool1.idle.length = pool.openingConns - pool.idle.length := by
  induction ops with
  | nil =>
    intro pool w rs pool1 w1 _ h
    simp only [run, Except.ok.injEq, Prod.mk.injEq] at h
    rw [← h.2.1]
  | cons op ops ih =>
    intro pool w rs pool1 w1 hc h
    simp only [run] at h
    split at h
    · cases h
    · rename_i r0 p0 w0 hstep
      split at h
      · cases h
      · rename_i rs1 p2 w2 hrun
        simp only [Except.ok.injEq, Prod.mk.injEq] at h
        rw [← h.2.1]
        have h1 := step_slack pool w op r0 p0 w0 hc hstep
        have hc0 : p0.counted := by
          simp only [Pool.counted] at hc ⊢
          omega
        rw [ih p0 w0 rs1 p2 w2 hc0 hrun, h1]

/-- C20: Start is called once on a pool literal, and then any sequence of
Put, Get, Release and Restart calls runs without a fault.  In every state that
is reached `openingConns` equals the number of entries in the queue.  (With
`MaxConn > 0` as in the claim, and just as well with `MaxConn <= 0`.) -/
theorem opening_conns_equals_queue_length (maxConn minConn dialSpeed idleSec : Int)
    (dialer : Option Dialer) (check : Option Checker) (w : World) (ops : List Op)
    (rs : List Ret) (pool1 : Pool) (w1 : World)
    (hrun : run (Start (Pool.literal maxConn minConn dialSpeed idleSec dialer check) w).1
      (Start (Pool.literal maxConn minConn dialSpeed idleSec dialer check) w).2 ops =
      Except.ok (rs, pool1, w1)) :
    pool1.openingConns = pool1.idle.length := by
  have h0 : (Start (Pool.literal maxConn minConn dialSpeed idleSec dialer check) w).1.openingConns
      = 0 ∧ (Start (Pool.literal maxConn minConn dialSpeed idleSec dialer check) w).1.idle = [] := by
    simp only [Start, Pool.literal]
    split <;> exact ⟨rfl, rfl⟩
  have hc : (Start (Pool.literal maxConn minConn dialSpeed idleSec dialer check) w).1.counted := by
    simp only [Pool.counted, h0.1, h0.2, List.length_nil]
    rfl
  have := run_slack ops _ _ rs pool1 w1 hc hrun
  rw [h0.1, h0.2] at this
  simp only [List.length_nil, Nat.cast_zero, sub_zero] at this
  omega

/-- C20 (witness): the pool of TestPool_Base through Puts, Gets, a Restart and
a Release. -/
theorem opening_conns_equals_queue_length_witness :
    ∃ rs pool1 w1,
      run (Start (Pool.literal 10 2 0 57 (some testDial) none) []).1
        (Start (Pool.literal 10 2 0 57 (some testDial) none) []).2 testOps =
        Except.ok (rs, pool1, w1) ∧
      pool1.openingConns = pool1.idle.length :=
  have h : ∃ rs p v, run (Start (Pool.literal 10 2 0 57 (some testDial) none) []).1
      (Start (Pool.literal 10 2 0 57 (some testDial) none) []).2 testOps =
      Except.ok (rs, p, v) := ⟨_, _, _, rfl⟩
  h.elim fun rs h1 => h1.elim fun p h2 => h2.elim fun v hv =>
    ⟨rs, p, v, hv,
      opening_conns_equals_queue_length 10 2 0 57 (some testDial) none [] testOps rs p v hv⟩

theorem spawnsFor_above (minConn : Int) : ∀ (n : Nat) (count : Int),
    minConn < count - n → spawnsFor minConn count n = 0 := by
  intro n
  induction n with
  | zero => intro count _; rfl
  | succ n ih =>
    intro count h
    push_cast at h
    have h1 : ¬ count - 1 ≤ minConn := by omega
    simp only [spawnsFor, h1, if_false, Nat.zero_add]
    exact ih (count - 1) (by omega)

theorem spawnsFor_below (minConn : Int) : ∀ (n : Nat) (count : Int),
    count - 1 ≤ minConn → spawnsFor minConn count n = n := by
  intro n
  induction n with
  | zero => intro count _; rfl
  | succ n ih =>
    intro count h
    simp only [spawnsFor, h, if_true]
    rw [ih (count - 1) (by omega)]
    omega

/-- C16: on an active pool with a dial function whose count covers the queue
(as it does in every pool reached through the exported methods), Get returns
after receiving some number `n` of entries from the queue.  The count is then
lower by exactly `n`, one for each entry received, and the populators launched
are those of the rule "one for each receive whose lowered count is at or below
`MinConn`".  In particular, when the count Get leaves is above `MinConn` no
populator is launched, and when the first lowered count is at or below
`MinConn` every receive launches one. -/
theorem get_lowers_count_and_triggers_populator (pool : Pool) (now : Int) (w : World)
    (hact : pool.active) (hdial : pool.Dial.isSome = true) (hc : pool.counted) :
    ∃ r pool1 w1 n, Get pool now w = Except.ok (r, pool1, w1) ∧
      pool.idle.length = n + pool1.idle.length ∧
      pool1.openingConns = pool.openingConns - n ∧
      spawnCount w1 = spawnCount w + spawnsFor pool.MinConn pool.openingConns n ∧
      (pool.MinConn < pool1.openingConns → spawnCount w1 = spawnCount w) ∧
      (pool.openingConns - 1 ≤ pool.MinConn → spawnCount w1 = spawnCount w + n) := by
  obtain ⟨r, pool1, w1, hget⟩ := Get_returns pool now w hact hdial
  obtain ⟨h1, h2, h3⟩ := Get_count pool now w r pool1 w1 hget hc
  refine ⟨r, pool1, w1, pool.idle.length - pool1.idle.length, hget, by omega, h2, h3, ?_, ?_⟩
  · intro h
    rw [h3, spawnsFor_above pool.MinConn _ pool.openingConns (by rw [← h2]; exact h)]
    rfl
  · intro h
    rw [h3, spawnsFor_below pool.MinConn _ pool.openingConns h]

/-- C16 (witness): the pool of TestPool_Restart, with one idle entry and
`MinConn = 2`. -/
theorem get_lowers_count_and_triggers_populator_witness :
    ∃ r pool1 w1 n, Get testPool 1 [] = Except.ok (r, pool1, w1) ∧
      testPool.idle.length = n + pool1.idle.length ∧
      pool1.openingConns = testPool.openingConns - n ∧
      spawnCount w1 = spawnCount [] + spawnsFor testPool.MinConn testPool.openingConns n ∧
      (testPool.MinConn < pool1.openingConns → spawnCount w1 = spawnCount []) ∧
      (testPool.openingConns - 1 ≤ testPool.MinConn → spawnCount w1 = spawnCount [] + n) :=
  get_lowers_count_and_triggers_populator testPool 1 [] testPool_active rfl
    (by simp [Pool.counted, Pool.idle, testPool])

/-! ## The capacity of the channel -/

/-- On an unreleased pool with an open channel, Put of a non-nil handle
answers true exactly when the queue is shorter than the capacity of the
channel. -/
theorem Put_accepts_iff (pool : Pool) (c : NetConn) (now : Int) (ch : Chan)
    (hrel : pool.isRelease = false) (hch : pool.connsChannel = some ch)
    (hopen : ch.closed = false) :
    ∃ ok pool1, Put pool (some c) now = Except.ok (ok, pool1) ∧
      (ok = true ↔ ch.buf.length < ch.cap) := by
  by_cases hlt : ch.buf.length < ch.cap
  · simp only [Put, hrel, hch, hopen, hlt, Bool.false_eq_true, if_false, if_true]
    exact ⟨_, _, rfl, by simp⟩
  · simp only [Put, hrel, hch, hopen, hlt, Bool.false_eq_true, if_false]
    exact ⟨_, _, rfl, by simp⟩

/-- On every unreleased pool with `MaxConn > 0` that is reached from a started
pool literal, Put of a non-nil handle answers true exactly when fewer than
`2 * MaxConn` entries are queued. -/
theorem Put_accepts_iff_below_two_maxconn (maxConn minConn dialSpeed idleSec : Int)
    (dialer : Option Dialer) (check : Option Checker) (w : World) (ops : List Op)
    (rs : List Ret) (pool1 : Pool) (w1 : World) (c : NetConn) (now : Int)
    (hrun : run (Start (Pool.literal maxConn minConn dialSpeed idleSec dialer check) w).1
      (Start (Pool.literal maxConn minConn dialSpeed idleSec dialer check) w).2 ops =
      Except.ok (rs, pool1, w1))
    (hrel : pool1.isRelease = false) (hmax : 0 < pool1.MaxConn) :
    ∃ ok pool2, Put pool1 (some c) now = Except.ok (ok, pool2) ∧
      (ok = true ↔ (pool1.idle.length : Int) < 2 * pool1.MaxConn) := by
  have hwf := run_wellFormed ops _ _ rs pool1 w1
    (started_wellFormed maxConn minConn dialSpeed idleSec dialer check w) hrun
  obtain ⟨ch, hch, hcap⟩ := hwf.2 hmax
  obtain ⟨ok, pool2, hput, hiff⟩ := Put_accepts_iff pool1 c now ch hrel hch (hwf.1 hrel ch hch)
  refine ⟨ok, pool2, hput, ?_⟩
  rw [hiff, hcap]
  simp only [Pool.idle, hch]
  omega

/-- C14 (failing input): a pool started with `MaxConn = 1` is restarted with a
new configuration `MaxConn = 0`.  After the Restart the pool is active, its
`MaxConn` is 0, and its channel is still the one of capacity 2 that the first
Start made: no entry is queued, which is not fewer than `2 * MaxConn = 0`, and
yet Put of a non-nil handle answers true. -/
theorem capacity_is_not_two_maxconn_after_restart :
    ∃ pool1 w1,
      Restart (Start (Pool.literal 1 0 0 0 (some testDial) none) []).1
          (some (Pool.literal 0 0 0 0 (some testDial) none))
          (Start (Pool.literal 1 0 0 0 (some testDial) none) []).2 = Except.ok (pool1, w1) ∧
      pool1.MaxConn = 0 ∧ pool1.isRelease = false ∧
      pool1.connsChannel = some { cap := 2, buf := [], closed := false } ∧
      ¬ ((pool1.idle.length : Int) < 2 * pool1.MaxConn) ∧
      ∃ pool2, Put pool1 (some ⟨1, false⟩) 0 = Except.ok (true, pool2) :=
  ⟨_, _, rfl, rfl, rfl, rfl, by decide, _, rfl⟩

/-! ## The populator and a dial that fails -/

theorem succeedsFor_succ (f : Dialer) (n j : Nat) (h : succeedsFor f n (j + 1)) :
    (∃ c, f n = { conn := some c, err := none }) ∧ succeedsFor f (n + 1) j := by
  refine ⟨by simpa using h 0 (by omega), fun i hi => ?_⟩
  have := h (i + 1) (by omega)
  rwa [show n + (i + 1) = n + 1 + i by omega] at this

theorem succeedsFor_split (f : Dialer) (n a b : Nat) (h : succeedsFor f n (a + b)) :
    succeedsFor f n a ∧ succeedsFor f (n + a) b := by
  refine ⟨fun i hi => h i (by omega), fun i hi => ?_⟩
  have := h (a + i) (by omega)
  rwa [show n + (a + i) = n + a + i by omega] at this

theorem dialedEntries_length_of (f : Dialer) (clock : Nat → Int) :
    ∀ d n k, succeedsFor f n d → (dialedEntries f clock d n k).length = d := by
  intro d
  induction d with
  | zero => intro n k _; rfl
  | succ d ih =>
    intro n k h
    obtain ⟨⟨c, hc⟩, h1⟩ := succeedsFor_succ f n d h
    simp only [dialedEntries, hc, List.length_cons, ih (n + 1) (k + 1) h1]

theorem dialedEntries_add_of (f : Dialer) (clock : Nat → Int) :
    ∀ a b n k, succeedsFor f n a → dialedEntries f clock (a + b) n k =
      dialedEntries f clock a n k ++ dialedEntries f clock b (n + a) (k + a) := by
  intro a
  induction a with
  | zero => intro b n k _; simp [dialedEntries]
  | succ a ih =>
    intro b n k h
    obtain ⟨⟨c, hc⟩, h1⟩ := succeedsFor_succ f n a h
    have : a + 1 + b = (a + b) + 1 := by omega
    rw [this]
    simp only [dialedEntries, hc, ih b (n + 1) (k + 1) h1, List.cons_append]
    have h1 : n + 1 + a = n + (a + 1) := by omega
    have h2 : k + 1 + a = k + (a + 1) := by omega
    rw [h1, h2]

/-- The method dial on a dial function adds to the trace one dial event and
nothing that closes, sleeps or launches. -/
theorem dial_suffix (f : Dialer) (w : World) :
    ∃ t, dial (some f) w = Except.ok (dialReturn (f (dialCount w)), w ++ t) ∧
      dialCount t = 1 ∧ sleepCount t = 0 ∧ closedConns t = [] := by
  simp only [dial, dialReturn]
  cases herr : (f (dialCount w)).err with
  | some e => exact ⟨[Event.dial (f (dialCount w))], rfl, rfl, rfl, rfl⟩
  | none =>
    cases hconn : (f (dialCount w)).conn with
    | none => exact ⟨[Event.dial (f (dialCount w))], rfl, rfl, rfl, rfl⟩
    | some c =>
      by_cases htcp : c.tcp = true
      · simp only [htcp, if_true]
        exact ⟨[Event.dial (f (dialCount w)), Event.keepAlive c], by simp, rfl, rfl, rfl⟩
      · simp only [htcp, if_false]
        exact ⟨[Event.dial (f (dialCount w))], rfl, rfl, rfl, rfl⟩

/-- One pass of dial-and-Put when the dial gives no handle: Put is called
with nil, answers false and leaves the pool as it is. -/
theorem dialAndPut_refused (f : Dialer) (now : Int) (pool : Pool) (w : World)
    (hf : failsAt f (dialCount w)) :
    ∃ t, dialAndPut (some f) now pool w = Except.ok (false, pool, w ++ t) ∧
      dialCount t = 1 ∧ sleepCount t = 0 ∧ closedConns t = [] := by
  obtain ⟨t, hd, hdc, hsl, hcc⟩ := dial_suffix f w
  refine ⟨t, ?_, hdc, hsl, hcc⟩
  simp only [failsAt] at hf
  simp only [dialAndPut, hd, hf, Put]

/-- One pass of dial-and-Put when the dial gives a handle and the open channel
has room, with what it adds to the trace. -/
theorem dialAndPut_queued (f : Dialer) (now : Int) (pool : Pool) (w : World) (ch : Chan)
    (c : NetConn) (hf : f (dialCount w) = { conn := some c, err := none })
    (hrel : pool.isRelease = false) (hch : pool.connsChannel = some ch)
    (hopen : ch.closed = false) (hroom : ch.buf.length < ch.cap) :
    ∃ t, dialAndPut (some f) now pool w = Except.ok (true,
        { pool with
            connsChannel := some { ch with buf := ch.buf ++ [{ Conn := c, createdTime := now }] },
            openingConns := pool.openingConns + 1 }, w ++ t) ∧
      dialCount t = 1 ∧ sleepCount t = 0 ∧ closedConns t = [] := by
  obtain ⟨t, hd, hdc, hsl, hcc⟩ := dial_suffix f w
  refine ⟨t, ?_, hdc, hsl, hcc⟩
  simp only [dialAndPut, hd, dialReturn, hf, Put, hrel, hch, hopen, hroom, Bool.false_eq_true,
    if_false, if_true]

/-- The inner loop when the next `m` dials give a handle and the channel has
room for them: all `m` passes are made, and the trace gains `m` dials and no
sleep. -/
theorem fillBatch_run (f : Dialer) (clock : Nat → Int) :
    ∀ (m k : Nat) (pool : Pool) (w : World) (ch : Chan),
    pool.isRelease = false → pool.connsChannel = some ch → ch.closed = false →
    ch.buf.length + m ≤ ch.cap → succeedsFor f (dialCount w) m →
    ∃ t, fillBatch (some f) clock m k pool w = Except.ok (Exit.filled, k + m,
        { pool with
            connsChannel :=
              some { ch with buf := ch.buf ++ dialedEntries f clock m (dialCount w) k },
            openingConns := pool.openingConns + m }, w ++ t) ∧
      dialCount t = m ∧ sleepCount t = 0 ∧ closedConns t = [] := by
  intro m
  induction m with
  | zero =>
    intro k pool w ch _ hch _ _ _
    refine ⟨[], ?_, rfl, rfl, rfl⟩
    obtain ⟨mc, mn, ds, sec, dl, ck, rel, it, oc, cc⟩ := pool
    simp only at hch
    subst hch
    simp [fillBatch, dialedEntries]
  | succ m ih =>
    intro k pool w ch hrel hch hopen hroom hok
    obtain ⟨⟨c, hc⟩, hok1⟩ := succeedsFor_succ f _ m hok
    obtain ⟨t1, h1, hd1, hs1, hc1⟩ :=
      dialAndPut_queued f (clock k) pool w ch c hc hrel hch hopen (by omega)
    have hdc : dialCount (w ++ t1) = dialCount w + 1 := by rw [dialCount_append, hd1]
    obtain ⟨t2, h2, hd2, hs2, hc2⟩ := ih (k + 1)
      { pool with
          connsChannel := some { ch with buf := ch.buf ++ [{ Conn := c, createdTime := clock k }] },
          openingConns := pool.openingConns + 1 } (w ++ t1)
      { ch with buf := ch.buf ++ [{ Conn := c, createdTime := clock k }] } hrel rfl hopen
      (by simp only [List.length_append, List.length_singleton]; omega)
      (by rw [hdc]; exact hok1)
    refine ⟨t1 ++ t2, ?_, by rw [dialCount_append, hd1, hd2]; omega,
      by rw [sleepCount_append, hs1, hs2], by rw [closedConns_append, hc1, hc2]; rfl⟩
    simp only [fillBatch, h1, h2, hdc, dialedEntries, hc, List.append_assoc,
      List.singleton_append, Except.ok.injEq, Prod.mk.injEq, true_and, and_true]
    refine ⟨by omega, ?_⟩
    congr 1
    push_cast
    ring

/-- The inner loop when the dial number `j` of the batch, `j < m`, is the
first that gives no handle: the `j` handles before it are queued and the loop
ends at the refused Put, one dial later. -/
theorem fillBatch_stops (f : Dialer) (clock : Nat → Int) :
    ∀ (j m k : Nat) (pool : Pool) (w : World) (ch : Chan), j < m →
    pool.isRelease = false → pool.connsChannel = some ch → ch.closed = false →
    ch.buf.length + j ≤ ch.cap → succeedsFor f (dialCount w) j →
    failsAt f (dialCount w + j) →
    ∃ t, fillBatch (some f) clock m k pool w = Except.ok (Exit.refused, k + j,
        { pool with
            connsChannel :=
              some { ch with buf := ch.buf ++ dialedEntries f clock j (dialCount w) k },
            openingConns := pool.openingConns + j }, w ++ t) ∧
      dialCount t = j + 1 ∧ sleepCount t = 0 ∧ closedConns t = [] := by
  intro j
  induction j with
  | zero =>
    intro m k pool w ch hjm _ hch _ _ _ hfail
    obtain ⟨m1, rfl⟩ : ∃ m1, m = m1 + 1 := ⟨m - 1, by omega⟩
    obtain ⟨t, h1, hd1, hs1, hc1⟩ := dialAndPut_refused f (clock k) pool w hfail
    refine ⟨t, ?_, hd1, hs1, hc1⟩
    obtain ⟨mc, mn, ds, sec, dl, ck, rel, it, oc, cc⟩ := pool
    simp only at hch
    subst hch
    simp [fillBatch, h1, dialedEntries]
  | succ j ih =>
    intro m k pool w ch hjm hrel hch hopen hroom hok hfail
    obtain ⟨m1, rfl⟩ : ∃ m1, m = m1 + 1 := ⟨m - 1, by omega⟩
    obtain ⟨⟨c, hc⟩, hok1⟩ := succeedsFor_succ f _ j hok
    obtain ⟨t1, h1, hd1, hs1, hc1⟩ :=
      dialAndPut_queued f (clock k) pool w ch c hc hrel hch hopen (by omega)
    have hdc : dialCount (w ++ t1) = dialCount w + 1 := by rw [dialCount_append, hd1]
    obtain ⟨t2, h2, hd2, hs2, hc2⟩ := ih m1 (k + 1)
      { pool with
          connsChannel := some { ch with buf := ch.buf ++ [{ Conn := c, createdTime := clock k }] },
          openingConns := pool.openingConns + 1 } (w ++ t1)
      { ch with buf := ch.buf ++ [{ Conn := c, createdTime := clock k }] } (by omega) hrel rfl
      hopen (by simp only [List.length_append, List.length_singleton]; omega)
      (by rw [hdc]; exact hok1)
      (by rw [hdc, show dialCount w + 1 + j = dialCount w + (j + 1) by omega]; exact hfail)
    refine ⟨t1 ++ t2, ?_, by rw [dialCount_append, hd1, hd2]; omega,
      by rw [sleepCount_append, hs1, hs2], by rw [closedConns_append, hc1, hc2]; rfl⟩
    simp only [fillBatch, h1, h2, hdc, dialedEntries, hc, List.append_assoc,
      List.singleton_append, Except.ok.injEq, Prod.mk.injEq, true_and, and_true]
    refine ⟨by omega, ?_⟩
    congr 1
    push_cast
    ring

/-- The unpaced loop when the dial number `j`, `j < deficit`, is the first
that gives no handle: the `j` handles before it are queued and the loop ends
at the refused Put, one dial later. -/
theorem fillUnpaced_stops (f : Dialer) (clock : Nat → Int) :
    ∀ (j d k : Nat) (pool : Pool) (w : World) (ch : Chan), j < d →
    pool.isRelease = false → pool.connsChannel = some ch → ch.closed = false →
    ch.buf.length + j ≤ ch.cap → succeedsFor f (dialCount w) j →
    failsAt f (dialCount w + j) →
    ∃ t, fillUnpaced (some f) clock d k pool w = Except.ok (Exit.refused,
        { pool with
            connsChannel :=
              some { ch with buf := ch.buf ++ dialedEntries f clock j (dialCount w) k },
            openingConns := pool.openingConns + j }, w ++ t) ∧
      dialCount t = j + 1 ∧ sleepCount t = 0 ∧ closedConns t = [] := by
  intro j
  induction j with
  | zero =>
    intro d k pool w ch hjd _ hch _ _ _ hfail
    obtain ⟨d1, rfl⟩ : ∃ d1, d = d1 + 1 := ⟨d - 1, by omega⟩
    obtain ⟨t, h1, hd1, hs1, hc1⟩ := dialAndPut_refused f (clock k) pool w hfail
    refine ⟨t, ?_, hd1, hs1, hc1⟩
    obtain ⟨mc, mn, ds, sec, dl, ck, rel, it, oc, cc⟩ := pool
    simp only at hch
    subst hch
    simp [fillUnpaced, h1, dialedEntries]
  | succ j ih =>
    intro d k pool w ch hjd hrel hch hopen hroom hok hfail
    obtain ⟨d1, rfl⟩ : ∃ d1, d = d1 + 1 := ⟨d - 1, by omega⟩
    obtain ⟨⟨c, hc⟩, hok1⟩ := succeedsFor_succ f _ j hok
    obtain ⟨t1, h1, hd1, hs1, hc1⟩ :=
      dialAndPut_queued f (clock k) pool w ch c hc hrel hch hopen (by omega)
    have hdc : dialCount (w ++ t1) = dialCount w + 1 := by rw [dialCount_append, hd1]
    obtain ⟨t2, h2, hd2, hs2, hc2⟩ := ih d1 (k + 1)
      { pool with
          connsChannel := some { ch with buf := ch.buf ++ [{ Conn := c, createdTime := clock k }] },
          openingConns := pool.openingConns + 1 } (w ++ t1)
      { ch with buf := ch.buf ++ [{ Conn := c, createdTime := clock k }] } (by omega) hrel rfl
      hopen (by simp only [List.length_append, List.length_singleton]; omega)
      (by rw [hdc]; exact hok1)
      (by rw [hdc, show dialCount w + 1 + j = dialCount w + (j + 1) by omega]; exact hfail)
    refine ⟨t1 ++ t2, ?_, by rw [dialCount_append, hd1, hd2]; omega,
      by rw [sleepCount_append, hs1, hs2], by rw [closedConns_append, hc1, hc2]; rfl⟩
    simp only [fillUnpaced, h1, h2, hdc, dialedEntries, hc, List.append_assoc,
      List.singleton_append, Except.ok.injEq, Prod.mk.injEq, true_and, and_true]
    congr 1
    push_cast
    ring

/-- The paced loop when the dial number `j`, `j < deficit`, is the first that
gives no handle: the `j` handles before it are queued and the loop ends at the
refused Put, one dial later. -/
theorem fillPaced_stops (f : Dialer) (clock : Nat → Int) (r : Nat) (hr : 0 < r) :
    ∀ (fuel deficit j k : Nat) (pool : Pool) (w : World) (ch : Chan), deficit ≤ fuel →
    j < deficit → pool.isRelease = false → pool.connsChannel = some ch → ch.closed = false →
    ch.buf.length + j ≤ ch.cap → succeedsFor f (dialCount w) j →
    failsAt f (dialCount w + j) →
    ∃ t, fillPaced (some f) clock r fuel deficit k pool w = Except.ok (Exit.refused,
        { pool with
            connsChannel :=
              some { ch with buf := ch.buf ++ dialedEntries f clock j (dialCount w) k },
            openingConns := pool.openingConns + j }, w ++ t) ∧
      dialCount t = j + 1 ∧ closedConns t = [] := by
  intro fuel
  induction fuel with
  | zero =>
    intro deficit j k pool w ch hfuel hj
    omega
  | succ fuel ih =>
    intro deficit j k pool w ch hfuel hj hrel hch hopen hroom hok hfail
    have hpos : 0 < deficit := by omega
    have hm : 0 < (if r > deficit then deficit else r) ∧
        (if r > deficit then deficit else r) ≤ deficit := by
      split <;> omega
    generalize hmdef : (if r > deficit then deficit else r) = m at hm
    by_cases hjm : j < m
    · obtain ⟨t, h1, hd1, -, hc1⟩ :=
        fillBatch_stops f clock j m k pool w ch hjm hrel hch hopen hroom hok hfail
      refine ⟨t, ?_, hd1, hc1⟩
      simp only [fillPaced, hpos, if_true, hmdef, h1]
    · have hsplit : j = m + (j - m) := by omega
      obtain ⟨hokm, hokrest⟩ := succeedsFor_split f (dialCount w) m (j - m) (by rw [← hsplit]; exact hok)
      obtain ⟨t1, h1, hd1, hs1, hc1⟩ :=
        fillBatch_run f clock m k pool w ch hrel hch hopen (by omega) hokm
      have hdc : dialCount (w ++ (t1 ++ [Event.sleep])) = dialCount w + m := by
        simp [dialCount_append, dialCount, hd1]
      obtain ⟨t2, h2, hd2, hc2⟩ := ih (deficit - m) (j - m) (k + m)
        { pool with
            connsChannel :=
              some { ch with buf := ch.buf ++ dialedEntries f clock m (dialCount w) k },
            openingConns := pool.openingConns + m } (w ++ (t1 ++ [Event.sleep]))
        { ch with buf := ch.buf ++ dialedEntries f clock m (dialCount w) k }
        (by omega) (by omega) hrel rfl hopen
        (by
          simp only [List.length_append, dialedEntries_length_of f clock m _ k hokm]
          omega)
        (by rw [hdc]; exact hokrest)
        (by rw [hdc, show dialCount w + m + (j - m) = dialCount w + j by omega]; exact hfail)
      refine ⟨t1 ++ [Event.sleep] ++ t2, ?_, ?_, ?_⟩
      · simp only [fillPaced, hpos, if_true, hmdef, h1, h2, hdc, List.append_assoc,
          Except.ok.injEq, Prod.mk.injEq, true_and, and_true]
        conv_rhs => rw [hsplit, dialedEntries_add_of f clock m (j - m) _ k hokm]
        congr 1
        push_cast [Nat.cast_sub (by omega : m ≤ j)]
        ring
      · simp only [dialCount_append, dialCount, hd1, hd2]
        omega
      · simp only [closedConns_append, closedConns, hc1, hc2, List.append_nil]

/-- C15 (counterexample): the pool literal with `MaxConn = 3` is started and
its dial function returns an error at every call.  The populator makes one
dial, gives the nil handle to Put, which answers false, and returns: one dial
in all, with a deficit of 3, four free places in the channel and the pool not
released.  The same with `DialSpeed = 2`, where it does not even sleep. -/
theorem populator_returns_after_failed_dial :
    (∃ pool1 w1,
      GenerateConnections (Start (Pool.literal 3 0 0 0 (some testFailingDial) none) []).1
          (fun _ => 0) (Start (Pool.literal 3 0 0 0 (some testFailingDial) none) []).2 =
        Except.ok (pool1, w1) ∧
      dialCount w1 = 1 ∧ pool1.idle = [] ∧ pool1.openingConns = 0 ∧ pool1.isRelease = false) ∧
    (∃ pool1 w1,
      GenerateConnections (Start (Pool.literal 3 0 2 0 (some testFailingDial) none) []).1
          (fun _ => 0) (Start (Pool.literal 3 0 2 0 (some testFailingDial) none) []).2 =
        Except.ok (pool1, w1) ∧
      dialCount w1 = 1 ∧ sleepCount w1 = 0 ∧ pool1.idle = [] ∧ pool1.openingConns = 0) :=
  ⟨⟨_, _, rfl, rfl, rfl, rfl, rfl⟩, ⟨_, _, rfl, rfl, rfl, rfl, rfl⟩⟩

/-- C15 (amended): a populator runs on an unreleased pool with an open
channel and a deficit `MaxConn - openingConns` above `j`; its first `j` dials
give a handle, for which the channel has room, and the next dial gives none.
Then the run returns right after that dial: it has dialed exactly `j + 1`
times, queued the `j` handles in order and added nothing for the failed dial,
whatever `DialSpeed` is.  A dial failure ends the populator run. -/
theorem populator_stops_at_first_failed_dial (pool : Pool) (clock : Nat → Int) (w : World)
    (ch : Chan) (f : Dialer) (j : Nat) (hrel : pool.isRelease = false)
    (hch : pool.connsChannel = some ch) (hopen : ch.closed = false)
    (hdial : pool.Dial = some f) (hj : (j : Int) < pool.MaxConn - pool.openingConns)
    (hroom : ch.buf.length + j ≤ ch.cap) (hok : succeedsFor f (dialCount w) j)
    (hfail : failsAt f (dialCount w + j)) :
    ∃ pool1 t, GenerateConnections pool clock w = Except.ok (pool1, w ++ t) ∧
      dialCount t = j + 1 ∧ closedConns t = [] ∧
      pool1.idle = pool.idle ++ dialedEntries f clock j (dialCount w) 0 ∧
      pool1.openingConns = pool.openingConns + j ∧ pool1.isRelease = false := by
  have hjd : j < (pool.MaxConn - pool.openingConns).toNat := by omega
  by_cases hspeed : pool.DialSpeed > 0
  · obtain ⟨t, h1, hd1, hc1⟩ := fillPaced_stops f clock pool.DialSpeed.toNat (by omega)
      (pool.MaxConn - pool.openingConns).toNat (pool.MaxConn - pool.openingConns).toNat j 0 pool w
      ch (le_refl _) hjd hrel hch hopen hroom hok hfail
    refine ⟨{ pool with
        connsChannel :=
          some { ch with buf := ch.buf ++ dialedEntries f clock j (dialCount w) 0 },
        openingConns := pool.openingConns + j }, t, ?_, hd1, hc1, ?_, rfl, hrel⟩
    · simp only [GenerateConnections, hrel, hspeed, hdial, h1, Bool.false_eq_true, if_false,
        if_true]
    · simp only [Pool.idle, hch]
  · obtain ⟨t, h1, hd1, -, hc1⟩ := fillUnpaced_stops f clock j
      (pool.MaxConn - pool.openingConns).toNat 0 pool w ch hjd hrel hch hopen hroom hok hfail
    refine ⟨{ pool with
        connsChannel :=
          some { ch with buf := ch.buf ++ dialedEntries f clock j (dialCount w) 0 },
        openingConns := pool.openingConns + j }, t, ?_, hd1, hc1, ?_, rfl, hrel⟩
    · simp only [GenerateConnections, hrel, hspeed, hdial, h1, Bool.false_eq_true, if_false]
    · simp only [Pool.idle, hch]

/-- C15 (witness): the pool of TestPool_Base, started, with a dial function
that fails at its third call: two handles are queued, three dials are made. -/
theorem populator_stops_at_first_failed_dial_witness :
    ∃ pool1 t,
      GenerateConnections (Start (Pool.literal 10 2 0 57 (some testDialTwice) none) []).1
          (fun _ => 0) [Event.spawn] = Except.ok (pool1, [Event.spawn] ++ t) ∧
      dialCount t = 2 + 1 ∧ closedConns t = [] ∧
      pool1.idle = (Start (Pool.literal 10 2 0 57 (some testDialTwice) none) []).1.idle ++
        dialedEntries testDialTwice (fun _ => 0) 2 (dialCount [Event.spawn]) 0 ∧
      pool1.openingConns =
        (Start (Pool.literal 10 2 0 57 (some testDialTwice) none) []).1.openingConns + (2 : Nat) ∧
      pool1.isRelease = false :=
  populator_stops_at_first_failed_dial
    (Start (Pool.literal 10 2 0 57 (some testDialTwice) none) []).1 (fun _ => 0) [Event.spawn]
    ⟨20, [], false⟩ testDialTwice 2 rfl rfl rfl rfl (by decide) (by decide)
    (fun i hi => ⟨⟨10 + i, false⟩, by
      have : i = 0 ∨ i = 1 := by omega
      rcases this with h | h <;> subst h <;> rfl⟩)
    rfl

/-! ## The batches of the paced populator -/

theorem dialsBetweenSleeps_append (t1 : World) : ∀ (acc : Nat) (t2 : World),
    sleepCount t1 = 0 →
    dialsBetweenSleeps acc (t1 ++ t2) = dialsBetweenSleeps (acc + dialCount t1) t2 := by
  induction t1 with
  | nil => intro acc t2 _; rfl
  | cons e t ih =>
    intro acc t2 h
    cases e with
    | dial out =>
      simp only [sleepCount] at h
      simp only [List.cons_append, dialsBetweenSleeps, dialCount]
      exact (ih (acc + 1) t2 h).trans (by
        rw [show acc + 1 + dialCount t = acc + (dialCount t + 1) by omega])
    | keepAlive c =>
      simp only [sleepCount] at h
      simp only [List.cons_append, dialsBetweenSleeps, dialCount]
      exact ih acc t2 h
    | close c =>
      simp only [sleepCount] at h
      simp only [List.cons_append, dialsBetweenSleeps, dialCount]
      exact ih acc t2 h
    | spawn =>
      simp only [sleepCount] at h
      simp only [List.cons_append, dialsBetweenSleeps, dialCount]
      exact ih acc t2 h
    | sleep => simp [sleepCount] at h

theorem min_eq_ite (r d : Nat) : min r d = if r > d then d else r := by
  split <;> omega

/-- The batches number `ceil (d / r)`, each holds between one and `r` dials,
and together they hold `d` dials. -/
theorem batchSizes_spec (r : Nat) (hr : 0 < r) : ∀ (fuel d : Nat), d ≤ fuel →
    (batchSizes r fuel d).length = batches r d ∧
    (∀ x ∈ batchSizes r fuel d, 0 < x ∧ x ≤ r) ∧ (batchSizes r fuel d).sum = d := by
  intro fuel
  induction fuel with
  | zero =>
    intro d hd
    have : d = 0 := by omega
    subst this
    exact ⟨by simp [batchSizes, batches_zero r hr], by simp [batchSizes], by simp [batchSizes]⟩
  | succ fuel ih =>
    intro d hd
    by_cases hpos : 0 < d
    · obtain ⟨h1, h2, h3⟩ := ih (d - min r d) (by omega)
      simp only [batchSizes, hpos, if_true, List.length_cons, List.mem_cons, List.sum_cons]
      refine ⟨?_, ?_, ?_⟩
      · rw [h1, batches_step r d hr hpos, ← min_eq_ite]
      · intro x hx
        rcases hx with hx | hx
        · omega
        · exact h2 x hx
      · rw [h3]; omega
    · have : d = 0 := by omega
      subst this
      exact ⟨by simp [batchSizes, batches_zero r hr], by simp [batchSizes], by simp [batchSizes]⟩

/-- The paced loop when every dial gives a handle and the channel has room:
the trace gains, batch after batch, `min r d` dials and then one sleep. -/
theorem fillPaced_run (f : Dialer) (clock : Nat → Int) (hf : neverFails f) (r : Nat)
    (hr : 0 < r) :
    ∀ (fuel deficit k : Nat) (pool : Pool) (w : World) (ch : Chan), deficit ≤ fuel →
    pool.isRelease = false → pool.connsChannel = some ch → ch.closed = false →
    ch.buf.length + deficit ≤ ch.cap →
    ∃ pool1 t, fillPaced (some f) clock r fuel deficit k pool w =
        Except.ok (Exit.filled, pool1, w ++ t) ∧
      dialsBetweenSleeps 0 t = batchSizes r fuel deficit ++ [0] ∧
      dialCount t = deficit ∧ sleepCount t = (batchSizes r fuel deficit).length := by
  intro fuel
  induction fuel with
  | zero =>
    intro deficit k pool w ch hfuel _ _ _ _
    have hd : deficit = 0 := by omega
    subst hd
    exact ⟨pool, [], by simp [fillPaced], rfl, rfl, rfl⟩
  | succ fuel ih =>
    intro deficit k pool w ch hfuel hrel hch hopen hroom
    by_cases hpos : 0 < deficit
    · have hm : 0 < min r deficit ∧ min r deficit ≤ deficit := by omega
      have hmdef : (if r > deficit then deficit else r) = min r deficit := (min_eq_ite r deficit).symm
      generalize hmeq : min r deficit = m at hm hmdef
      obtain ⟨t1, h1, hd1, hs1, -⟩ := fillBatch_run f clock m k pool w ch hrel hch hopen
        (by omega) (fun i _ => hf _)
      obtain ⟨pool1, t2, h2, hseg, hd2, hs2⟩ := ih (deficit - m) (k + m)
        { pool with
            connsChannel :=
              some { ch with buf := ch.buf ++ dialedEntries f clock m (dialCount w) k },
            openingConns := pool.openingConns + m } (w ++ (t1 ++ [Event.sleep]))
        { ch with buf := ch.buf ++ dialedEntries f clock m (dialCount w) k }
        (by omega) hrel rfl hopen
        (by
          simp only [List.length_append, dialedEntries_length f clock hf]
          omega)
      refine ⟨pool1, t1 ++ [Event.sleep] ++ t2, ?_, ?_, ?_, ?_⟩
      · simp only [fillPaced, hpos, if_true, hmdef, h1, List.append_assoc] at h2 ⊢
        exact h2
      · rw [List.append_assoc, dialsBetweenSleeps_append t1 0 _ hs1]
        simp only [List.singleton_append, dialsBetweenSleeps, batchSizes, hpos, if_true,
          Nat.zero_add, hd1, List.cons_append, hmeq]
        exact congrArg _ hseg
      · simp only [dialCount_append, dialCount, hd1, hd2]
        omega
      · simp only [sleepCount_append, sleepCount, hs1, hs2, batchSizes, hpos, if_true,
          List.length_cons]
        rw [hmeq]
        omega
    · have hd : deficit = 0 := by omega
      subst hd
      exact ⟨pool, [], by simp [fillPaced], by simp [batchSizes, dialsBetweenSleeps], rfl,
        by simp [batchSizes, sleepCount]⟩

/-- C19: a populator runs on an unreleased pool with `DialSpeed = r > 0`, a
deficit `d = MaxConn - openingConns > 0`, a dial function that never fails
and an open channel with room for `d` more entries, so that no Put is
refused.  What the run adds to the trace is, batch after batch, `min r
(remaining deficit)` dials followed by one sleep, and nothing is dialed after
the last sleep.  So there are exactly `ceil (d / r)` batches and as many
sleeps, each batch holds at least one and at most `r` dials, and the batches
hold `d` dials together. -/
theorem populator_dials_in_batches (pool : Pool) (clock : Nat → Int) (w : World) (ch : Chan)
    (f : Dialer) (hrel : pool.isRelease = false) (hch : pool.connsChannel = some ch)
    (hopen : ch.closed = false) (hdial : pool.Dial = some f) (hf : neverFails f)
    (hspeed : 0 < pool.DialSpeed) (hdef : 0 < pool.MaxConn - pool.openingConns)
    (hroom : (ch.buf.length : Int) + (pool.MaxConn - pool.openingConns) ≤ ch.cap) :
    ∃ pool1 t, GenerateConnections pool clock w = Except.ok (pool1, w ++ t) ∧
      dialsBetweenSleeps 0 t =
        batchSizes pool.DialSpeed.toNat (pool.MaxConn - pool.openingConns).toNat
          (pool.MaxConn - pool.openingConns).toNat ++ [0] ∧
      (batchSizes pool.DialSpeed.toNat (pool.MaxConn - pool.openingConns).toNat
          (pool.MaxConn - pool.openingConns).toNat).length =
        ((pool.MaxConn - pool.openingConns).toNat + pool.DialSpeed.toNat - 1) /
          pool.DialSpeed.toNat ∧
      (∀ x ∈ batchSizes pool.DialSpeed.toNat (pool.MaxConn - pool.openingConns).toNat
          (pool.MaxConn - pool.openingConns).toNat, 0 < x ∧ x ≤ pool.DialSpeed.toNat) ∧
      (batchSizes pool.DialSpeed.toNat (pool.MaxConn - pool.openingConns).toNat
          (pool.MaxConn - pool.openingConns).toNat).sum =
        (pool.MaxConn - pool.openingConns).toNat ∧
      sleepCount t =
        ((pool.MaxConn - pool.openingConns).toNat + pool.DialSpeed.toNat - 1) /
          pool.DialSpeed.toNat ∧
      dialCount t = (pool.MaxConn - pool.openingConns).toNat := by
  have hr : 0 < pool.DialSpeed.toNat := by omega
  obtain ⟨h1, h2, h3⟩ := batchSizes_spec pool.DialSpeed.toNat hr
    (pool.MaxConn - pool.openingConns).toNat (pool.MaxConn - pool.openingConns).toNat (le_refl _)
  obtain ⟨pool1, t, hrun, hseg, hd, hs⟩ := fillPaced_run f clock hf pool.DialSpeed.toNat hr
    (pool.MaxConn - pool.openingConns).toNat (pool.MaxConn - pool.openingConns).toNat 0 pool w ch
    (le_refl _) hrel hch hopen (by omega)
  refine ⟨pool1, t, ?_, hseg, h1, h2, h3, by rw [hs, h1]; rfl, hd⟩
  have hsp : pool.DialSpeed > 0 := hspeed
  simp only [GenerateConnections, hrel, hsp, hdial, hrun, Bool.false_eq_true, if_false, if_true]

/-- C19 (witness): the new pool of TestPool_Restart (`MaxConn = 5`,
`DialSpeed = 2`), started: batches of 2, 2 and 1 dials. -/
theorem populator_dials_in_batches_witness :
    ∃ pool1 t,
      GenerateConnections (Start testNewPool []).1 (fun _ => 0) [Event.spawn] =
        Except.ok (pool1, [Event.spawn] ++ t) ∧
      dialsBetweenSleeps 0 t =
        batchSizes (Start testNewPool []).1.DialSpeed.toNat
          ((Start testNewPool []).1.MaxConn - (Start testNewPool []).1.openingConns).toNat
          ((Start testNewPool []).1.MaxConn - (Start testNewPool []).1.openingConns).toNat ++
          [0] ∧
      (batchSizes (Start testNewPool []).1.DialSpeed.toNat
          ((Start testNewPool []).1.MaxConn - (Start testNewPool []).1.openingConns).toNat
          ((Start testNewPool []).1.MaxConn -
            (Start testNewPool []).1.openingConns).toNat).length =
        (((Start testNewPool []).1.MaxConn - (Start testNewPool []).1.openingConns).toNat +
          (Start testNewPool []).1.DialSpeed.toNat - 1) /
          (Start testNewPool []).1.DialSpeed.toNat ∧
      (∀ x ∈ batchSizes (Start testNewPool []).1.DialSpeed.toNat
          ((Start testNewPool []).1.MaxConn - (Start testNewPool []).1.openingConns).toNat
          ((Start testNewPool []).1.MaxConn - (Start testNewPool []).1.openingConns).toNat,
        0 < x ∧ x ≤ (Start testNewPool []).1.DialSpeed.toNat) ∧
      (batchSizes (Start testNewPool []).1.DialSpeed.toNat
          ((Start testNewPool []).1.MaxConn - (Start testNewPool []).1.openingConns).toNat
          ((Start testNewPool []).1.MaxConn -
            (Start testNewPool []).1.openingConns).toNat).sum =
        ((Start testNewPool []).1.MaxConn - (Start testNewPool []).1.openingConns).toNat ∧
      sleepCount t =
        (((Start testNewPool []).1.MaxConn - (Start testNewPool []).1.openingConns).toNat +
          (Start testNewPool []).1.DialSpeed.toNat - 1) /
          (Start testNewPool []).1.DialSpeed.toNat ∧
      dialCount t =
        ((Start testNewPool []).1.MaxConn - (Start testNewPool []).1.openingConns).toNat :=
  populator_dials_in_batches (Start testNewPool []).1 (fun _ => 0) [Event.spawn]
    ⟨10, [], false⟩ testDial rfl rfl rfl rfl testDial_neverFails (by decide) (by decide)
    (by decide)

/-- The batches of the witness: five dials at two per second. -/
theorem batchSizes_example : batchSizes 2 5 5 = [2, 2, 1] ∧ batches 2 5 = 3 := by
  decide

/-! ## The count that a panicking Get leaves -/

theorem readConnChannelLeaves_of_ok (now : Int) (ch : Chan) : ∀ (buf : List idleConn) (pool : Pool)
    (w : World) (r : GetReturn) (pool1 : Pool) (w1 : World),
    readConnChannel now ch buf pool w = Except.ok (r, pool1, w1) →
    readConnChannelLeaves now ch buf pool w = (pool1, w1) := by
  intro buf
  induction buf with
  | nil =>
    intro pool w r pool1 w1 h
    simp only [readConnChannel] at h
    simp only [readConnChannelLeaves]
    split at h
    · cases h
    · rename_i hcl
      rw [if_neg hcl]
      split at h
      · cases h
      · rename_i out w2 hd
        simp only [Except.ok.injEq, Prod.mk.injEq] at h
        exact congrArg₂ Prod.mk h.2.1 h.2.2
  | cons e rest ih =>
    intro pool w r pool1 w1 h
    simp only [readConnChannel] at h
    simp only [readConnChannelLeaves]
    split at h
    · rename_i hs
      rw [if_pos hs]
      exact ih _ _ r pool1 w1 h
    · rename_i hs
      rw [if_neg hs]
      split at h
      · rename_i hu
        rw [if_pos hu]
        exact ih _ _ r pool1 w1 h
      · rename_i hu
        rw [if_neg hu]
        simp only [Except.ok.injEq, Prod.mk.injEq] at h
        simp only [h.2.1, h.2.2]

/-- Where Get returns, `GetLeaves` is the pool and the trace it returns. -/
theorem GetLeaves_of_ok (pool : Pool) (now : Int) (w : World) (r : GetReturn) (pool1 : Pool)
    (w1 : World) (h : Get pool now w = Except.ok (r, pool1, w1)) :
    GetLeaves pool now w = (pool1, w1) := by
  simp only [Get] at h
  simp only [GetLeaves]
  split at h
  · rename_i hrel
    simp only [Except.ok.injEq, Prod.mk.injEq] at h
    rw [if_pos hrel, h.2.1, h.2.2]
  · rename_i hrel
    rw [if_neg hrel]
    split at h
    · rename_i hch
      split at h
      · cases h
      · rename_i out w2 hd
        simp only [Except.ok.injEq, Prod.mk.injEq] at h
        simp only [hd, h.2.1, h.2.2]
    · rename_i ch hch
      exact readConnChannelLeaves_of_ok now ch ch.buf pool w r pool1 w1 h

/-- C13: a pool literal with `MaxConn = 1` and `MinConn = -5` goes through
Start, Restart to `MaxConn = 0` and `MinConn = -5`, Release and Start; every
call returns, and the pool is then not released, with the count at zero and
the closed channel of the first Start still in place.  The Get that follows
receives a nil entry, lowers the count to -1 without clamping it (-1 is above
`MinConn`), and panics on the nil entry: it leaves `openingConns = -1`. -/
theorem get_on_revived_pool_leaves_negative_count :
    ∃ pool1 w1,
      runCalls (Pool.literal 1 (-5) 0 0 (some testDial) none) [] revivingCalls =
        Except.ok (pool1, w1) ∧
      pool1.isRelease = false ∧ pool1.openingConns = 0 ∧ pool1.MinConn = -5 ∧
      pool1.connsChannel = some { cap := 2, buf := [], closed := true } ∧
      Get pool1 0 w1 = Except.error Fault.nilDereference ∧
      (GetLeaves pool1 0 w1).1.openingConns = -1 ∧
      spawnCount (GetLeaves pool1 0 w1).2 = spawnCount w1 :=
  ⟨_, _, rfl, rfl, rfl, rfl, rfl, rfl, rfl, rfl⟩

/-- With `MinConn` at -1 or above the clamp acts on the same calls: the
panicking Get leaves the count at zero. -/
theorem get_on_revived_pool_clamps_at_minconn_zero :
    ∃ pool1 w1,
      runCalls (Pool.literal 1 0 0 0 (some testDial) none) []
        [Call.start, Call.op (Op.restart (some (Pool.literal 0 0 0 0 (some testDial) none))),
          Call.op Op.release, Call.start] = Except.ok (pool1, w1) ∧
      Get pool1 0 w1 = Except.error Fault.nilDereference ∧
      (GetLeaves pool1 0 w1).1.openingConns = 0 :=
  ⟨_, _, rfl, rfl, rfl⟩

end TCPPool
